import Mathlib

/-!
# The lazy module and chunk loading runtime (`runtime~main.20a3645e.js`)

A shallow embedding of the single source file of the repository: the module
cache and requirer `c`, the deferred startup queue `c.O`, the chunk path
resolver `c.u`, the script loader `c.l`, the chunk fetcher `c.f.j` / `c.e`
and the registration callback installed on `self.webpackChunkdocs`.

Conventions of the embedding.

* JavaScript property keys are strings, so chunk ids and module ids are
  `String` (the number `354` and the string `"354"` are the same key).
* `undefined` is `Option.none`; every other value is a `Val`.
* The process-wide mutable tables of the closure are the fields of one
  explicit `Loader` value that every operation takes and returns.
* A callback the loader receives from outside and calls exactly once per
  registration (a startup function, a runtime injector) is represented by
  what that one call does: it returns a value or it throws.  Such a callback
  is not given access to the loader tables.
* Module factories are re-entrant: they are small programs (`Prog`) that may
  call `require` again, and the requirer is run with a fuel bound.
* A table of the loader is given by its own properties.  Where the source
  reads or writes a table without asking `c.o` first, the properties inherited
  from `Object.prototype` take part: the reads `{...}[e]` of `c.u` and `c.gca`
  go through `literalGet`, the assignments to the installed-chunks table
  through `assign`.
* The document is the list of its script elements together with the function
  `resolve` by which it turns the address written to `f.src` into the address
  that `f.src` reads; the initial document is a parameter (`Loader.boot`).
-/

namespace Runtime

/-! ## Values -/

/-- A chunk id, as the property key under which the tables store it. -/
abbrev ChunkId := String

/-- A module id, as the property key under which the tables store it. -/
abbrev ModId := String

/-- JavaScript values other than `undefined`. -/
inductive Val where
  | num (n : Int)
  | str (s : String)
  | obj (addr : Nat)
deriving DecidableEq, Repr

/-- What one call of an opaque callback does: it returns a value
(`none` for `undefined`) or throws. -/
inductive Outcome where
  | returns (v : Option Val)
  | throws (err : Val)
deriving DecidableEq, Repr

/-! ## The deferred startup queue: `c.O` -/

/-- One element `[r, a, o]` of the deferred array `e`: the chunk ids still
required, the startup callback and the priority.  `uid` is a ghost field: the
identity of the JavaScript array object, given by `register` from a counter. -/
structure Entry where
  uid : Nat
  req : List ChunkId
  startup : Outcome
  prio : Int
deriving DecidableEq, Repr

/-- The variable `n` of the flush loop: `none` is `1/0` (infinity). -/
abbrev Bound := Option Int

/-- The test `(!1&o||n>=o)`.  `!1&o` is `false & o`, which is `0` for every
`o`, so the test is `n >= o`. -/
def gate (n : Bound) (o : Int) : Bool :=
  match n with
  | none => true
  | some b => decide (o ≤ b)

/-- The update `o<n&&(n=o)`. -/
def lower (n : Bound) (o : Int) : Bound :=
  match n with
  | none => some o
  | some b => if o < b then some o else some b

/-- The inner loop of the flush over the required ids `r` of one entry:
`for(var f=!0,i=0;i<r.length;i++) gate && every predicate accepts r[i]
 ? r.splice(i--,1) : (f=!1, o<n&&(n=o))`.
Returns the ids left in `r`, the flag `f` and the new `n`. -/
def scanIds (accept : ChunkId → Bool) (o : Int) : List ChunkId → Bound → List ChunkId × Bool × Bound
  | [], n => ([], true, n)
  | x :: xs, n =>
    if gate n o && accept x then
      scanIds accept o xs n
    else
      let rest := scanIds accept o xs (lower n o)
      (x :: rest.1, false, rest.2.2)

/-- What one pass of the flush loop leaves behind: the deferred array, the
entries whose startup was called (in call order) and how the pass ended
(`return t`, or the exception of a startup). -/
structure FlushOut where
  queue : List Entry
  invoked : List Entry
  result : Outcome
deriving DecidableEq, Repr

/-- The statement `void 0!==d&&(t=d)` after `var d=a()`. -/
def keepDefined (t d : Option Val) : Option Val :=
  match d with
  | some v => some v
  | none => t

/-- The outer loop `for(u=0;u<e.length;u++)` of the flush.  The argument list
is `e` from index `u` on.  An entry with `f` true is spliced out of `e`
(`e.splice(u--,1)`) and only then its startup `a()` is called; a defined
return value replaces `t`.  An entry with `f` false stays at its place with
the ids that `scanIds` left. -/
def flushLoop (accept : ChunkId → Bool) : List Entry → Bound → Option Val → FlushOut
  | [], _, t => { queue := [], invoked := [], result := .returns t }
  | en :: rest, n, t =>
    let s := scanIds accept en.prio en.req n
    if s.2.1 then
      match en.startup with
      | .throws err => { queue := rest, invoked := [en], result := .throws err }
      | .returns d =>
        let out := flushLoop accept rest s.2.2 (keepDefined t d)
        { out with invoked := en :: out.invoked }
    else
      let out := flushLoop accept rest s.2.2 t
      { out with queue := { en with req := s.1 } :: out.queue }

/-- The insertion loop of the register branch, read from the end of `e`:
`for(var u=e.length;u>0&&e[u-1][2]>o;u--)e[u]=e[u-1]; e[u]=[r,a,o]`.
The argument is `e` reversed (last element first). -/
def shiftIn (x : Entry) : List Entry → List Entry
  | [] => [x]
  | y :: ys => if x.prio < y.prio then y :: shiftIn x ys else x :: y :: ys

/-- The deferred array after the register branch stored `x`. -/
def insertEntry (x : Entry) (e : List Entry) : List Entry :=
  (shiftIn x e.reverse).reverse

/-- The default `o=o||0` of the register branch. -/
def prioOf (o : Option Int) : Int := o.getD 0

/-! ## Module factories -/

/-- A module factory as a program over what `n[e].call(r.exports,r,r.exports,c)`
can do to the registry: finish, throw, assign `module.exports`, define a
property on the exports container it was handed, or call the requirer `c`
again (re-entrantly) and go on with what that call returned or threw. -/
inductive Prog where
  | done : Prog
  | raise (err : Val) : Prog
  | setExports (v : Option Val) (next : Prog) : Prog
  | define (key : String) (v : Val) (next : Prog) : Prog
  | require (m : ModId) (next : Outcome → Prog) : Prog

/-- A module record `{exports: ...}` of the cache `f`. -/
structure ModuleRecord where
  exports : Option Val
deriving DecidableEq, Repr

/-! ## Chunk states, promises and scripts -/

/-- A value stored under a chunk id in the installed-chunks table
`e={354:0,869:0}`: `undefined`, `0` (loaded) or the array
`[resolve, reject, promise]` of a chunk being loaded, represented by the id of
its promise. -/
inductive Slot where
  | undef
  | ready
  | pending (p : Nat)
deriving DecidableEq, Repr

/-- The error object built by the load callback of `c.f.j`. -/
structure LoadError where
  message : String
  name : String
  type : String
  request : String
deriving DecidableEq, Repr

/-- The state of a promise created by `c.f.j`. -/
inductive Settled where
  | waiting
  | fulfilled
  | rejected (err : LoadError)
deriving DecidableEq, Repr

/-- A script element.  The attributes `src` and `data-webpack` are what
`getAttribute` reads (`none` is `null`: the attribute is not set).  The
property `src` is what the document reports for `f.src`: the address of the
script resolved against the address of the page, which need not be the text of
the attribute. -/
structure ScriptEl where
  srcAttr : Option String
  dataWebpack : Option String
  src : String
deriving DecidableEq, Repr

/-- The event handed to the callbacks of a load: `r.type` and `r.target`. -/
structure Event where
  type : String
  target : ScriptEl
deriving DecidableEq, Repr

/-- One key of the in-progress table `a` of `c.l`: the url, the callbacks
stored under it (each is the load callback that `c.f.j` made for a chunk id)
and the script element `f` that the completion handler `l` is bound to. -/
structure Fetch where
  url : String
  waiters : List ChunkId
  script : ScriptEl
deriving DecidableEq, Repr

/-- A call `c.l(url, done, key, chunkId)`, kept in a ghost log. -/
structure LoadReq where
  url : String
  key : String
  chunk : ChunkId
deriving DecidableEq, Repr

/-- A definition `[chunkIds, moreModules, runtime]` pushed on
`self.webpackChunkdocs`.  `moreModules` lists the own properties of the
object in enumeration order. -/
structure ChunkDef where
  chunkIds : List ChunkId
  moreModules : List (ModId × Prog)
  runtime : Option Outcome

/-! ## The loader state -/

/-- All mutable state of the closure. -/
structure Loader where
  /-- The table `n` = `c.m` of module factories. -/
  modules : ModId → Option Prog
  /-- The module cache `f`. -/
  cache : ModId → Option ModuleRecord
  /-- Own properties of the exports containers, by container address. -/
  heap : Nat → List (String × Val)
  /-- The next fresh container address. -/
  nextAddr : Nat
  /-- Ghost: the module ids whose factory was called, in call order. -/
  called : List ModId
  /-- The deferred array `e` of `c.O`. -/
  deferred : List Entry
  /-- The readiness predicates stored on `c.O` besides `c.O.j`. -/
  predicates : List (ChunkId → Bool)
  /-- Ghost: the next entry identity. -/
  nextUid : Nat
  /-- Ghost: the identities of the entries whose startup was called. -/
  started : List Nat
  /-- The table `e` of the chunk loading closure; `none` is "no own property". -/
  installed : ChunkId → Option Slot
  /-- The promises made by `c.f.j`, by id. -/
  promises : Nat → Settled
  /-- The next fresh promise id. -/
  nextPromise : Nat
  /-- The table `a` of `c.l`: the loads in progress. -/
  inflight : List Fetch
  /-- The script elements in the document (as `getElementsByTagName` lists them). -/
  document : List ScriptEl
  /-- Ghost: the calls of `c.l`. -/
  requests : List LoadReq
  /-- The array `self.webpackChunkdocs`. -/
  intake : List ChunkDef
  /-- The document, as far as the loader sees it: what the property `src` of a
  script element reads after `f.src=e`, that is the address `e` resolved
  against the address of the page.  The loader never changes it. -/
  resolve : String → String

/-- The tables as the closure creates them: `n={}`, `f={}`, `e=[]`,
`e={354:0,869:0}`, `a={}`, in a document without script elements that reports
every address as it was written. -/
def Loader.init : Loader where
  modules := fun _ => none
  cache := fun _ => none
  heap := fun _ => []
  nextAddr := 0
  called := []
  deferred := []
  predicates := []
  nextUid := 0
  started := []
  installed := fun k => if k = "354" ∨ k = "869" then some Slot.ready else none
  promises := fun _ => Settled.waiting
  nextPromise := 0
  inflight := []
  document := []
  requests := []
  intake := []
  resolve := fun u => u

/-- The tables as the closure creates them, in a document that holds the script
elements `doc` when the runtime starts and that resolves addresses by
`resolve`. -/
def Loader.boot (doc : List ScriptEl) (resolve : String → String) : Loader :=
  { Loader.init with document := doc, resolve := resolve }

/-! ## `c.O.j`, flush and register on the loader state -/

/-- The read `e[t]` of the installed-chunks table, as the loader uses it:
behind `c.o(e,t)` in `c.f.j` and in the load callback, which see own
properties only, and compared with `0` in `c.O.j` and in the registration
callback, where a value found up the prototype chain is never `0` and so
counts as `undefined` does. -/
def Loader.slot (st : Loader) (t : ChunkId) : Slot :=
  (st.installed t).getD Slot.undef

/-- The default readiness predicate `c.O.j=t=>0===e[t]`. -/
def c.O.j (st : Loader) (t : ChunkId) : Bool :=
  decide (st.slot t = Slot.ready)

/-- The test `Object.keys(c.O).every((e=>c.O[e](r[i])))`: `c.O.j` and the
other predicates stored on `c.O`. -/
def accepts (st : Loader) (t : ChunkId) : Bool :=
  c.O.j st t && st.predicates.all (fun p => p t)

/-- The flush branch of `c.O` (`!r`), called as `c.O(t)`. -/
def flush (t : Option Val) (st : Loader) : Loader × Outcome :=
  let out := flushLoop (accepts st) st.deferred none t
  ({ st with deferred := out.queue, started := st.started ++ out.invoked.map Entry.uid },
   out.result)

/-- The register branch of `c.O`, called as `c.O(t, r, a, o)` with an array `r`. -/
def register (r : List ChunkId) (a : Outcome) (o : Option Int) (st : Loader) : Loader :=
  { st with
    deferred := insertEntry { uid := st.nextUid, req := r, startup := a, prio := prioOf o } st.deferred
    nextUid := st.nextUid + 1 }

/-- The function `c.O=(t,r,a,o)=>{if(!r){...flush...; return t} ...register...}`;
`r` is `none` when the argument is absent. -/
def c.O (t : Option Val) (r : Option (List ChunkId)) (a : Outcome) (o : Option Int)
    (st : Loader) : Loader × Outcome :=
  match r with
  | none => flush t st
  | some ids => (register ids a o st, Outcome.returns none)

/-! ## The path resolver: `c.u`, `c.p` -/

/-- The first object literal of `c.u`: chunk id to public name. -/
def nameTable : List (ChunkId × String) :=
  [("48", "a94703ab"), ("64", "08ddd88c"), ("98", "a7bd4aaa"), ("144", "af1a0bf4"),
   ("171", "a1f03948"), ("235", "a7456010"), ("276", "03eb7b46"), ("345", "5988c706"),
   ("401", "17896441"), ("531", "60b289cb"), ("647", "5e95c892"), ("670", "a62eb351"),
   ("742", "aba21aa0"), ("772", "97f22584"), ("796", "d3874e59"), ("807", "c0464a20"),
   ("849", "0058b4c6"), ("895", "59033a1e"), ("912", "fa437265"), ("963", "f89bef42"),
   ("976", "0e384e19")]

/-- The second object literal of `c.u`: chunk id to content hash. -/
def hashTable : List (ChunkId × String) :=
  [("48", "28528155"), ("64", "7e71288d"), ("98", "656def23"), ("144", "ca438a9d"),
   ("171", "8fbc9f31"), ("235", "47cad1bc"), ("237", "9eec6ce0"), ("250", "08f3abaf"),
   ("276", "527df497"), ("345", "50dfa089"), ("401", "326961a5"), ("465", "58e18f5d"),
   ("531", "3343c2d2"), ("633", "0e762e83"), ("647", "8411c113"), ("670", "7f43b841"),
   ("742", "eb7bf6f2"), ("772", "49b276b0"), ("796", "8311f254"), ("807", "29e03a00"),
   ("849", "e455b5b8"), ("895", "05559823"), ("912", "54f150ac"), ("963", "f843da85"),
   ("976", "bb75f7c6")]

/-- String conversion of a looked-up table value in a concatenation. -/
def asText (v : Option String) : String := v.getD "undefined"

/-- The properties that every object literal inherits from `Object.prototype`,
each with the text of its value in a string concatenation or as a property
key.  All but `__proto__` are built-in functions, which V8 prints as
`function name() { [native code] }` (`constructor` is the function `Object`);
`__proto__` reads as the prototype object itself, printed `[object Object]`.
Each of these values is truthy. -/
def inheritedText : List (String × String) :=
  [("constructor", "function Object() \x7b [native code] \x7d"),
   ("__defineGetter__", "function __defineGetter__() \x7b [native code] \x7d"),
   ("__defineSetter__", "function __defineSetter__() \x7b [native code] \x7d"),
   ("hasOwnProperty", "function hasOwnProperty() \x7b [native code] \x7d"),
   ("__lookupGetter__", "function __lookupGetter__() \x7b [native code] \x7d"),
   ("__lookupSetter__", "function __lookupSetter__() \x7b [native code] \x7d"),
   ("isPrototypeOf", "function isPrototypeOf() \x7b [native code] \x7d"),
   ("propertyIsEnumerable", "function propertyIsEnumerable() \x7b [native code] \x7d"),
   ("toString", "function toString() \x7b [native code] \x7d"),
   ("valueOf", "function valueOf() \x7b [native code] \x7d"),
   ("__proto__", "[object Object]"),
   ("toLocaleString", "function toLocaleString() \x7b [native code] \x7d")]

/-- The read `{...}[e]` on an object literal with the own properties `table`:
an own property when there is one, else the property inherited from
`Object.prototype` (as its text), else `undefined`. -/
def literalGet (table : List (String × String)) (e : String) : Option String :=
  match table.lookup e with
  | some v => some v
  | none => inheritedText.lookup e

/-- The resolver `c.u=e=>"assets/js/"+({...}[e]||e)+"."+{...}[e]+".js"`.  Every
name in the first table is a non-empty string and every inherited value is
truthy, so `||e` is taken exactly when the read finds nothing. -/
def c.u (e : ChunkId) : String :=
  "assets/js/" ++ (literalGet nameTable e).getD e ++ "." ++ asText (literalGet hashTable e) ++ ".js"

/-- The public path `c.p="/"`. -/
def c.p : String := "/"

/-! ## The inverse lookup: `c.gca` -/

/-- The object literal of `c.gca`: public name to chunk id, in the order in
which the keys are enumerated. -/
def gcaTable : List (String × ChunkId) :=
  [("17896441", "401"), ("a94703ab", "48"), ("08ddd88c", "64"), ("a7bd4aaa", "98"),
   ("af1a0bf4", "144"), ("a1f03948", "171"), ("a7456010", "235"), ("03eb7b46", "276"),
   ("5988c706", "345"), ("60b289cb", "531"), ("5e95c892", "647"), ("a62eb351", "670"),
   ("aba21aa0", "742"), ("97f22584", "772"), ("d3874e59", "796"), ("c0464a20", "807"),
   ("0058b4c6", "849"), ("59033a1e", "895"), ("fa437265", "912"), ("f89bef42", "963"),
   ("0e384e19", "976")]

/-- The function `c.gca=function(e){return e={...}[e]||e,c.p+c.u(e)}`.  Every id
in the table is a non-empty string and every inherited value is truthy, so
`||e` is taken exactly when the read finds nothing.  An inherited value that
the read found is handed to `c.u`, which uses it as a property key: its text. -/
def c.gca (e : String) : String :=
  c.p ++ c.u ((literalGet gcaTable e).getD e)

/-! ## The script loader: `c.l` -/

/-- The namespace `o="docs:"` of the `data-webpack` attribute. -/
def dataWebpackPrefix : String := "docs:"

/-- The search of `c.l` through `document.getElementsByTagName("script")` for
a script with `getAttribute("src")==e` or `getAttribute("data-webpack")==o+r`. -/
def findScript (url key : String) (doc : List ScriptEl) : Option ScriptEl :=
  doc.find? (fun b => decide (b.srcAttr = some url) || decide (b.dataWebpack = some (dataWebpackPrefix ++ key)))

/-- The loader `c.l=(e,t,r,n)=>{...}` called by `c.f.j` with url `e`, the load
callback of chunk `chunk` as `t`, and key `r`.  When `a[e]` exists the
callback is pushed on it.  Otherwise a script found in the document is taken
over as it is, or a new one is created with `data-webpack` set and `f.src=e`
(the attribute is `e`, the property what the document resolves `e` to) and
appended to the document; `a[e]=[t]`, and the completion handler `l` is put on
the script and on a timer of 120000 ms. -/
def c.l (url : String) (chunk : ChunkId) (key : String) (st : Loader) : Loader :=
  let st := { st with requests := st.requests ++ [LoadReq.mk url key chunk] }
  if st.inflight.any (fun x => decide (x.url = url)) then
    let push := fun (x : Fetch) => if x.url = url then { x with waiters := x.waiters ++ [chunk] } else x
    { st with inflight := st.inflight.map push }
  else
    match findScript url key st.document with
    | some f =>
      { st with inflight := st.inflight ++ [Fetch.mk url [chunk] f] }
    | none =>
      let f : ScriptEl := ScriptEl.mk (some url) (some (dataWebpackPrefix ++ key)) (st.resolve url)
      { st with
        inflight := st.inflight ++ [Fetch.mk url [chunk] f]
        document := st.document ++ [f] }

/-! ## The chunk fetcher: `c.f.j`, `c.e` -/

/-- The failure type `o=r&&("load"===r.type?"missing":r.type)`. -/
def failureType (ev : Event) : String :=
  if ev.type = "load" then "missing" else ev.type

/-- The error that the load callback of chunk `t` builds from the event; the
request `n=r&&r.target&&r.target.src` is the property `src` of the script. -/
def chunkLoadError (t : ChunkId) (ev : Event) : LoadError where
  message := "Loading chunk " ++ t ++ " failed.\n(" ++ failureType ev ++ ": " ++ ev.target.src ++ ")"
  name := "ChunkLoadError"
  type := failureType ev
  request := ev.target.src

/-- Calling the `reject` function of promise `p`: a promise settles once. -/
def rejectPromise (p : Nat) (err : LoadError) (st : Loader) : Loader :=
  match st.promises p with
  | Settled.waiting => { st with promises := Function.update st.promises p (Settled.rejected err) }
  | _ => st

/-- Calling the `resolve` function of promise `p`: a promise settles once. -/
def resolvePromise (p : Nat) (st : Loader) : Loader :=
  match st.promises p with
  | Settled.waiting => { st with promises := Function.update st.promises p Settled.fulfilled }
  | _ => st

/-- The load callback that `c.f.j` hands to `c.l` for chunk `t`:
`r=>{if(c.o(e,t)&&(0!==(a=e[t])&&(e[t]=void 0),a)){...a[1](f)}}`. -/
def loadingEnded (t : ChunkId) (ev : Event) (st : Loader) : Loader :=
  match st.installed t with
  | none => st
  | some Slot.ready => st
  | some Slot.undef => { st with installed := Function.update st.installed t (some Slot.undef) }
  | some (Slot.pending p) =>
    rejectPromise p (chunkLoadError t ev)
      { st with installed := Function.update st.installed t (some Slot.undef) }

/-- The statements `delete a[e]` and `f.parentNode&&f.parentNode.removeChild(f)`
of the completion handler, for the load `x` stored under `url`. -/
def detach (url : String) (x : Fetch) (st : Loader) : Loader :=
  { st with
    inflight := st.inflight.filter (fun y => !decide (y.url = url))
    document := st.document.erase x.script }

/-- The completion handler `l` of `c.l` for the load stored under `url`, fired
by `onload`, `onerror` or the timer with an event of kind `type` whose target
is the script `f`.  The handler clears `onerror`, `onload` and the timer when
it runs, so it does nothing once `a[url]` is gone.  It deletes `a[url]`,
removes the script from the document and calls the stored callbacks in order.
The handler that a taken-over script had before (`if(t)return t(r)`) belongs
to the page and is not part of the state. -/
def scriptDone (url : String) (type : String) (st : Loader) : Loader :=
  match st.inflight.find? (fun x => decide (x.url = url)) with
  | none => st
  | some x =>
    x.waiters.foldl (fun s t => loadingEnded t { type := type, target := x.script } s)
      (detach url x st)

/-- An assignment `e[t]=v` on the installed-chunks table.  The table is an
object literal, so a key `__proto__` that is not an own property is the
accessor inherited from `Object.prototype`: the assignment runs its setter and
makes no own property.  (The setter ignores `0` and `undefined`; given the
array of a promise it makes the array the prototype of the table, which no
read of the loader can tell: `c.o` asks for own properties, and the reads
without `c.o` compare with `0`, which the array nowhere holds.)  Every other
assignment creates or overwrites the own property. -/
def assign (e : ChunkId → Option Slot) (t : ChunkId) (v : Slot) : ChunkId → Option Slot :=
  match e t with
  | none => if t = "__proto__" then e else Function.update e t (some v)
  | some _ => Function.update e t (some v)

/-- The statement `new Promise(((r,o)=>a=e[t]=[r,o]))`: a fresh promise, and
its `[resolve, reject]` pair assigned to `e[t]`. -/
def makePromise (t : ChunkId) (st : Loader) : Loader :=
  { st with
    installed := assign st.installed t (Slot.pending st.nextPromise)
    promises := Function.update st.promises st.nextPromise Settled.waiting
    nextPromise := st.nextPromise + 1 }

/-- The handler `c.f.j=(t,r)=>{...}`; `r` is the array of promises being
collected, which the result carries along. -/
def c.f.j (t : ChunkId) (r : List Nat) (st : Loader) : List Nat × Loader :=
  match st.slot t with
  | Slot.ready => (r, st)
  | Slot.pending p => (r ++ [p], st)
  | Slot.undef =>
    if t = "354" ∨ t = "869" then
      (r, { st with installed := Function.update st.installed t (some Slot.ready) })
    else
      (r ++ [st.nextPromise], c.l (c.p ++ c.u t) t ("chunk-" ++ t) (makePromise t st))

/-- The function `c.e=e=>Promise.all(Object.keys(c.f).reduce(...,[]))`: `c.f`
has the one handler `j`.  The result is the array handed to `Promise.all`. -/
def c.e (e : ChunkId) (st : Loader) : List Nat × Loader :=
  c.f.j e [] st

/-! ## The registration callback on `self.webpackChunkdocs` -/

/-- The loop `for(a in f)c.o(f,a)&&(c.m[a]=f[a])`. -/
def mergeModules (f : List (ModId × Prog)) (st : Loader) : Loader :=
  f.foldl (fun s kv => { s with modules := Function.update s.modules kv.1 (some kv.2) }) st

/-- One round of `o=n[d],c.o(e,o)&&e[o]&&e[o][0](),e[o]=0`. -/
def markReady (st : Loader) (o : ChunkId) : Loader :=
  let st1 := match st.installed o with
    | some (Slot.pending p) => resolvePromise p st
    | _ => st
  { st1 with installed := assign st1.installed o Slot.ready }

/-- The callback `t=(t,r)=>{...}` of the chunk loading closure, bound as
`t.bind(null,0)` for the backlog (`parent` false) and as
`t.bind(null,r.push.bind(r))` for `push` (`parent` true); `d` is the
definition `r=[n,f,i]`.  Returns what `c.O(u)` returns, or the exception of
`i(c)`. -/
def pushCallback (parent : Bool) (d : ChunkDef) (st : Loader) : Loader × Outcome :=
  let fresh := d.chunkIds.any (fun t => !decide (st.slot t = Slot.ready))
  let st1 := if fresh then mergeModules d.moreModules st else st
  match (if fresh then d.runtime else none) with
  | some (Outcome.throws err) => (st1, Outcome.throws err)
  | ran =>
    let u : Option Val := match ran with
      | some (Outcome.returns v) => v
      | _ => none
    let st2 := if parent then { st1 with intake := st1.intake ++ [d] } else st1
    flush u (d.chunkIds.foldl markReady st2)

/-! ## The requirer: `c` -/

/-- The exception of `n[e].call(...)` when `n[e]` is `undefined`. -/
def typeError : Val := Val.str "TypeError"

/-- The body of a factory, run for module `self` whose exports container has
address `box`; `rq` is the requirer it was handed.  The result is `none` when
a nested call ran out of fuel. -/
def runFactory (rq : ModId → Loader → Loader × Option Outcome) (self : ModId) (box : Nat) :
    Prog → Loader → Loader × Option Outcome
  | Prog.done, st => (st, some (Outcome.returns none))
  | Prog.raise err, st => (st, some (Outcome.throws err))
  | Prog.setExports v next, st =>
    runFactory rq self box next
      { st with cache := Function.update st.cache self (some (ModuleRecord.mk v)) }
  | Prog.define key v next, st =>
    runFactory rq self box next
      { st with heap := Function.update st.heap box (st.heap box ++ [(key, v)]) }
  | Prog.require m next, st =>
    match rq m st with
    | (st1, none) => (st1, none)
    | (st1, some out) => runFactory rq self box (next out) st1

/-- The read `r.exports` of the record of module `e` after its factory ran. -/
def exportsOf (st : Loader) (e : ModId) : Option Val :=
  match st.cache e with
  | some r => r.exports
  | none => none

/-- The statement `var r=f[e]={exports:{}}`: a fresh empty container, and a
record holding it stored in the cache under `e`. -/
def openRecord (e : ModId) (st : Loader) : Loader :=
  { st with
    cache := Function.update st.cache e (some (ModuleRecord.mk (some (Val.obj st.nextAddr))))
    heap := Function.update st.heap st.nextAddr []
    nextAddr := st.nextAddr + 1 }

/-- Ghost step: the factory of module `e` is about to be called. -/
def logCall (e : ModId) (st : Loader) : Loader :=
  { st with called := st.called ++ [e] }

/-- The requirer
`function c(e){var t=f[e];if(void 0!==t)return t.exports;var r=f[e]={exports:{}};
 return n[e].call(r.exports,r,r.exports,c),r.exports}`.
The first argument bounds the depth of nested factory calls; the result is
`none` when it is used up.  A cached module is returned at every depth. -/
def c : Nat → ModId → Loader → Loader × Option Outcome
  | 0, e, st =>
    match st.cache e with
    | some t => (st, some (Outcome.returns t.exports))
    | none => (st, none)
  | fuel + 1, e, st =>
    match st.cache e with
    | some t => (st, some (Outcome.returns t.exports))
    | none =>
      let st1 := openRecord e st
      match st1.modules e with
      | none => (st1, some (Outcome.throws typeError))
      | some factory =>
        match runFactory (c fuel) e st.nextAddr factory (logCall e st1) with
        | (st2, none) => (st2, none)
        | (st2, some (Outcome.throws err)) => (st2, some (Outcome.throws err))
        | (st2, some (Outcome.returns _)) => (st2, some (Outcome.returns (exportsOf st2 e)))

/-! ## Sequences of operations -/

/-- The calls that the page and the fetched chunks make on the loader. -/
inductive Op where
  | require (fuel : Nat) (m : ModId)
  | register (r : List ChunkId) (a : Outcome) (o : Option Int)
  | flush (t : Option Val)
  | addPredicate (p : ChunkId → Bool)
  | ensure (k : ChunkId)
  | scriptEvent (url : String) (type : String)
  | push (d : ChunkDef)
  | drain (d : ChunkDef)

/-- The state after one call; what the call returned or threw is dropped. -/
def step (st : Loader) : Op → Loader
  | Op.require fuel m => (c fuel m st).1
  | Op.register r a o => register r a o st
  | Op.flush t => (flush t st).1
  | Op.addPredicate p => { st with predicates := st.predicates ++ [p] }
  | Op.ensure k => (c.e k st).2
  | Op.scriptEvent url type => scriptDone url type st
  | Op.push d => (pushCallback true d st).1
  | Op.drain d => (pushCallback false d st).1

/-- The state after a sequence of calls. -/
def run (ops : List Op) (st : Loader) : Loader :=
  ops.foldl step st

/-- A state that the loader can be in: some sequence of calls leads to it
from the initial tables. -/
def Reachable (st : Loader) : Prop :=
  ∃ ops : List Op, run ops Loader.init = st

/-! ## Sample states -/

/-- A deferred array in ascending priority order, on the initial tables. -/
def sampleQueue : Loader :=
  { Loader.init with
    deferred :=
      [Entry.mk 0 ["48"] (Outcome.returns (some (Val.num 1))) (-1),
       Entry.mk 1 ["354"] (Outcome.returns (some (Val.num 2))) 0,
       Entry.mk 2 ["64"] (Outcome.returns none) 0,
       Entry.mk 3 ["869"] (Outcome.returns none) 2]
    nextUid := 4 }

/-- A deferred array whose two entries are both runnable: the first startup
returns `5`, the second returns `undefined`. -/
def lastUndefined : Loader :=
  { Loader.init with
    deferred :=
      [Entry.mk 0 [] (Outcome.returns (some (Val.num 5))) 0,
       Entry.mk 1 [] (Outcome.returns none) 0]
    nextUid := 2 }

/-! ## Views of the state and invariants -/

/-- A view of the state that the module registry fields do not enter. -/
structure RegistryFree {α : Type} (V : Loader → α) : Prop where
  cache : ∀ (st : Loader) f, V { st with cache := f } = V st
  heap : ∀ (st : Loader) f, V { st with heap := f } = V st
  nextAddr : ∀ (st : Loader) f, V { st with nextAddr := f } = V st
  called : ∀ (st : Loader) f, V { st with called := f } = V st

/-- The deferred array together with its two ghost fields. -/
def queueView (st : Loader) : List Entry × Nat × List Nat :=
  (st.deferred, st.nextUid, st.started)

/-- The invariant of the deferred array and the startup log: the entries of
the array have distinct identities below the counter, no identity is logged
twice, and no logged identity is in the array. -/
def QueueInv (st : Loader) : Prop :=
  (st.deferred.map Entry.uid).Nodup ∧ (∀ en ∈ st.deferred, en.uid < st.nextUid) ∧
  st.started.Nodup ∧ (∀ u ∈ st.started, u < st.nextUid) ∧
  (∀ en ∈ st.deferred, en.uid ∉ st.started)

/-- A definition for chunk `48` that brings a factory for module `m`. -/
def earlier : ChunkDef := ⟨["48"], [("m", Prog.done)], none⟩

/-- A second definition for chunk `48` with another factory for module `m`. -/
def later : ChunkDef := ⟨["48"], [("m", Prog.raise (Val.num 0))], none⟩

/-- A definition for chunk `64` with another factory for module `m`. -/
def laterFresh : ChunkDef := ⟨["64"], [("m", Prog.raise (Val.num 0))], none⟩

/-- A definition for chunk `48` whose runtime function throws `0`. -/
def throwingRuntime : ChunkDef := ⟨["48"], [], some (Outcome.throws (Val.num 0))⟩

/-- A definition for the chunk id `__proto__`. -/
def protoChunk : ChunkDef := ⟨["__proto__"], [], none⟩

/-- A view of the state that the tables of the chunk fetcher, the script
loader and the registration callback do not enter. -/
structure ChunkFree {α : Type} (V : Loader → α) : Prop where
  installed : ∀ (st : Loader) f, V { st with installed := f } = V st
  promises : ∀ (st : Loader) f, V { st with promises := f } = V st
  nextPromise : ∀ (st : Loader) f, V { st with nextPromise := f } = V st
  inflight : ∀ (st : Loader) f, V { st with inflight := f } = V st
  document : ∀ (st : Loader) f, V { st with document := f } = V st
  requests : ∀ (st : Loader) f, V { st with requests := f } = V st
  intake : ∀ (st : Loader) f, V { st with intake := f } = V st
  modules : ∀ (st : Loader) f, V { st with modules := f } = V st

/-- A view of the state that the deferred array and its ghost fields do not enter. -/
structure QueueFree {α : Type} (V : Loader → α) : Prop where
  deferred : ∀ (st : Loader) f, V { st with deferred := f } = V st
  nextUid : ∀ (st : Loader) f, V { st with nextUid := f } = V st
  started : ∀ (st : Loader) f, V { st with started := f } = V st

/-- The factory log and the module cache. -/
def registryView (st : Loader) : List ModId × (ModId → Option ModuleRecord) :=
  (st.called, st.cache)

/-- The invariant of the module registry: no module id is in the factory log
twice, and every logged module has a record in the cache. -/
def RegistryInv (st : Loader) : Prop :=
  st.called.Nodup ∧ ∀ m ∈ st.called, st.cache m ≠ none

/-- What a run of the requirer keeps: the registry invariant, and every
record that was in the cache. -/
def Keeps (st st' : Loader) : Prop :=
  RegistryInv st' ∧ (∀ x, st.cache x ≠ none → st'.cache x ≠ none) ∧
  ∀ x ∈ st.called, x ∈ st'.called

/-- Two factories that require each other: `a` defines `x`, requires `b` and
defines `y`; `b` requires `a` and re-exports what it got. -/
def cyclic : ChunkDef :=
  ⟨["48"],
   [("a", Prog.define "x" (Val.num 1) (Prog.require "b" (fun _ => Prog.define "y" (Val.num 2) Prog.done))),
    ("b", Prog.require "a" (fun out =>
      match out with
      | Outcome.returns v => Prog.setExports v Prog.done
      | Outcome.throws err => Prog.raise err))],
   none⟩

/-- A factory that defines `x` on its exports and then throws `7`. -/
def failing : ChunkDef :=
  ⟨["48"], [("m", Prog.define "x" (Val.num 1) (Prog.raise (Val.num 7)))], none⟩

/-- The tables of the chunk fetcher and the script loader. -/
def fetchView (st : Loader) :
    (ChunkId → Option Slot) × (Nat → Settled) × Nat × List Fetch × List ScriptEl :=
  (st.installed, st.promises, st.nextPromise, st.inflight, st.document)

/-- What the load callback leaves under a chunk id: a chunk being loaded goes
back to `undefined`, everything else stays. -/
def demote : Option Slot → Option Slot
  | some (Slot.pending _) => some Slot.undef
  | s => s

/-- The invariant of the chunk fetcher and the script loader.

* `builtin`: the chunks `354` and `869` are loaded;
* `fresh`: the promise of a chunk being loaded was made before and is not settled;
* `distinct`: two chunks being loaded do not share a promise;
* `loading`: a chunk being loaded has its callback stored under its url in `a`;
* `urls`: the keys of `a` are distinct.

It holds whatever script elements the document held when the runtime started. -/
structure FetchInv (st : Loader) : Prop where
  builtin : st.installed "354" = some Slot.ready ∧ st.installed "869" = some Slot.ready
  fresh : ∀ k p, st.installed k = some (Slot.pending p) →
    p < st.nextPromise ∧ st.promises p = Settled.waiting
  distinct : ∀ k k' p, st.installed k = some (Slot.pending p) →
    st.installed k' = some (Slot.pending p) → k = k'
  loading : ∀ k p, st.installed k = some (Slot.pending p) →
    ∃ f ∈ st.inflight, f.url = c.p ++ c.u k ∧ k ∈ f.waiters
  urls : (st.inflight.map Fetch.url).Nodup

/-- The script element that `c.l` creates for chunk `j` in a document that
resolves addresses by `resolve`. -/
def createdScript (resolve : String → String) (j : ChunkId) : ScriptEl :=
  ScriptEl.mk (some (c.p ++ c.u j)) (some (dataWebpackPrefix ++ ("chunk-" ++ j)))
    (resolve (c.p ++ c.u j))

/-- The invariant of the script elements, for a document that held the script
elements `doc` as the runtime started.

* `srcs`: the script of a load is one of `doc`, or it reports the resolved url
  of the load as `src`;
* `scripts`: every script in the document is one of `doc`, or it was made by
  `c.l` for some chunk. -/
structure ScriptInv (doc : List ScriptEl) (st : Loader) : Prop where
  srcs : ∀ f ∈ st.inflight, f.script ∈ doc ∨ f.script.src = st.resolve f.url
  scripts : ∀ s ∈ st.document, s ∈ doc ∨ ∃ j, s = createdScript st.resolve j

/-- The script loads in progress, the script elements and the document. -/
def scriptView (st : Loader) : List Fetch × List ScriptEl × (String → String) :=
  (st.inflight, st.document, st.resolve)

/-- The initial tables in a document that already holds a script element with
the `data-webpack` key of chunk `48`, loaded from `/preload.js`. -/
def preloaded : Loader :=
  Loader.boot [ScriptEl.mk (some "/preload.js") (some "docs:chunk-48") "/preload.js"] (fun u => u)

/-- The initial tables in a document without script elements, served from
`https://docs.example`, which reports the address of a script in full. -/
def resolving : Loader :=
  Loader.boot [] (fun u => "https://docs.example" ++ u)

/-- The part of the state that the load callback leaves alone. -/
def outsideCallback (st : Loader) : Nat × List Fetch × List ScriptEl × List LoadReq :=
  (st.nextPromise, st.inflight, st.document, st.requests)

/-- A deferred array in ascending priority order whose first entry waits for
chunk `48`, which is not loaded, and whose second entry, of greater priority,
requires no chunk. -/
def emptyBehindBlocked : Loader :=
  { Loader.init with
    deferred :=
      [Entry.mk 0 ["48"] (Outcome.returns none) 0,
       Entry.mk 1 [] (Outcome.returns (some (Val.num 1))) 1]
    nextUid := 2 }

/-- A deferred array with two entries of the same priority: the first waits
for chunk `48`, which is not loaded, the second for chunk `354`, which is. -/
def tiedWithBlocked : Loader :=
  { Loader.init with
    deferred :=
      [Entry.mk 0 ["48"] (Outcome.returns none) 0,
       Entry.mk 1 ["354"] (Outcome.returns (some (Val.num 1))) 0]
    nextUid := 2 }

/-- The state of the registration callback when its marking loop starts: the
factories merged when some chunk of the definition is not loaded yet, and the
definition appended to the array by the earlier `push` when there is one. -/
def beforeMarking (parent : Bool) (d : ChunkDef) (st : Loader) : Loader :=
  let st1 := if d.chunkIds.any (fun t => !decide (st.slot t = Slot.ready))
    then mergeModules d.moreModules st else st
  if parent then { st1 with intake := st1.intake ++ [d] } else st1

/-- The value `u` that the registration callback hands to `c.O(u)`: what the
runtime function returned when it was called, `undefined` otherwise. -/
def handedToFlush (d : ChunkDef) (st : Loader) : Option Val :=
  match (if d.chunkIds.any (fun t => !decide (st.slot t = Slot.ready)) then d.runtime else none) with
  | some (Outcome.returns v) => v
  | _ => none

/-- The call that registers an entry requiring the chunks `48` and `64`. -/
def registerPair : List Op :=
  [Op.register ["48", "64"] (Outcome.returns (some (Val.num 7))) none]

/-- The calls that register an entry of priority `-1` that waits for chunk `98`
and then an entry of priority `0` requiring the chunks `48` and `64`. -/
def gatedPair : List Op :=
  [Op.register ["98"] (Outcome.returns none) (some (-1)),
   Op.register ["48", "64"] (Outcome.returns (some (Val.num 7))) none]

/-- The calls that register an entry of priority `-1` that waits for chunk `98`
and then an entry of priority `0` requiring chunk `48`, and ask for chunk `48`. -/
def gatedSingle : List Op :=
  [Op.register ["98"] (Outcome.returns none) (some (-1)),
   Op.register ["48"] (Outcome.returns (some (Val.num 7))) none,
   Op.ensure "48"]

/-- The calls that register an entry requiring chunk `48` and then ask for
that chunk. -/
def registerThenEnsure : List Op :=
  [Op.register ["48"] (Outcome.returns (some (Val.num 7))) none, Op.ensure "48"]

/-! ## Installing the registration callback -/

/-- The loop `r.forEach(t.bind(null,0))` over the definitions that are in the
array when the runtime starts: each goes through the callback with no earlier
`push` to call, in array order; an exception ends the loop. -/
def drainBacklog : List ChunkDef → Loader → Loader × Outcome
  | [], st => (st, Outcome.returns none)
  | d :: ds, st =>
    match pushCallback false d st with
    | (st1, Outcome.throws err) => (st1, Outcome.throws err)
    | (st1, Outcome.returns _) => drainBacklog ds st1

/-- The installation
`r=self.webpackChunkdocs=self.webpackChunkdocs||[],r.forEach(t.bind(null,0)),
 r.push=t.bind(null,r.push.bind(r))`; the array is the field `intake`.  After
it a `push` on the array is `pushCallback true`. -/
def install (st : Loader) : Loader × Outcome :=
  drainBacklog st.intake st

/-! ## The re-export installer: `c.d` -/

/-- An own property of an object: a data property with its value, or an
accessor property with its getter, which is run on the state `σ` of the
source at the time of the read. -/
inductive Property (σ : Type) where
  | data (v : Option Val)
  | accessor (get : σ → Option Val)

/-- The test `c.o=(e,t)=>Object.prototype.hasOwnProperty.call(e,t)` on an
object given by the list of its own properties. -/
def c.o {σ : Type} (e : List (String × Property σ)) (t : String) : Bool :=
  (e.lookup t).isSome

/-- The installer
`c.d=(e,t)=>{for(var r in t)c.o(t,r)&&!c.o(e,r)&&
 Object.defineProperty(e,r,{enumerable:!0,get:t[r]})}`; `t` lists the own
properties of the table, each a getter. -/
def c.d {σ : Type} (e : List (String × Property σ)) (t : List (String × (σ → Option Val))) :
    List (String × Property σ) :=
  t.foldl (fun obj kv => if c.o obj kv.1 then obj else obj ++ [(kv.1, Property.accessor kv.2)]) e

/-- A read `e[r]` of an own property while the source is in state `s`. -/
def readProperty {σ : Type} (e : List (String × Property σ)) (r : String) (s : σ) : Option Val :=
  match e.lookup r with
  | some (Property.data v) => v
  | some (Property.accessor get) => get s
  | none => none

/-- A target with the data property `a`, for a source whose state is a number. -/
def sampleTarget : List (String × Property Int) :=
  [("a", Property.data (some (Val.num 1)))]

/-- A table with getters for `a` and `b` that read the state of the source. -/
def sampleTable : List (String × (Int → Option Val)) :=
  [("a", fun s => some (Val.num s)), ("b", fun s => some (Val.num (s + 1)))]

/-- The tables as the closure creates them, with the definitions `backlog`
already pushed on `self.webpackChunkdocs` by chunks that ran before. -/
def backlogState (backlog : List ChunkDef) : Loader :=
  { Loader.init with intake := backlog }

/-! ## The register branch keeps the deferred array ordered -/

theorem shiftIn_split (x : Entry) (l : List Entry) :
    ∃ a b, l = a ++ b ∧ shiftIn x l = a ++ x :: b ∧ (∀ y ∈ a, x.prio < y.prio) ∧
      (∀ y, b.head? = some y → y.prio ≤ x.prio) := by
  induction l with
  | nil => exact ⟨[], [], rfl, rfl, by simp, by simp⟩
  | cons y ys ih =>
    unfold shiftIn
    by_cases h : x.prio < y.prio
    · obtain ⟨a, b, h1, h2, h3, h4⟩ := ih
      refine ⟨y :: a, b, by simp [h1], by simp [h, h2], ?_, h4⟩
      intro z hz
      rcases List.mem_cons.1 hz with rfl | hz
      · exact h
      · exact h3 z hz
    · refine ⟨[], y :: ys, rfl, by simp [h], by simp, ?_⟩
      intro z hz
      simp at hz
      subst hz
      omega

theorem insertEntry_split (x : Entry) (q : List Entry)
    (hq : q.Pairwise (fun u v => u.prio ≤ v.prio)) :
    ∃ pre post, q = pre ++ post ∧ insertEntry x q = pre ++ x :: post ∧
      (∀ y ∈ pre, y.prio ≤ x.prio) ∧ (∀ y ∈ post, x.prio < y.prio) := by
  obtain ⟨a, b, h1, h2, h3, h4⟩ := shiftIn_split x q.reverse
  have hq' : q = b.reverse ++ a.reverse := by
    have := congrArg List.reverse h1
    simpa using this
  refine ⟨b.reverse, a.reverse, hq', ?_, ?_, ?_⟩
  · unfold insertEntry
    rw [h2]; simp
  · intro y hy
    rw [hq'] at hq
    cases b with
    | nil => simp at hy
    | cons z zs =>
      have hz : z.prio ≤ x.prio := h4 z rfl
      simp only [List.reverse_cons, List.mem_append, List.mem_reverse, List.mem_singleton] at hy
      rcases hy with hy | rfl
      · have hp := (List.pairwise_append.1 hq).1
        simp only [List.reverse_cons] at hp
        have := (List.pairwise_append.1 hp).2.2 y (by simpa using hy) z (by simp)
        omega
      · exact hz
  · intro y hy
    exact h3 y (by simpa using hy)

theorem pairwise_insert_between (x : Entry) (pre post : List Entry)
    (hq : (pre ++ post).Pairwise (fun u v => u.prio ≤ v.prio))
    (h1 : ∀ y ∈ pre, y.prio ≤ x.prio) (h2 : ∀ y ∈ post, x.prio < y.prio) :
    (pre ++ x :: post).Pairwise (fun u v => u.prio ≤ v.prio) := by
  obtain ⟨ha, hb, hab⟩ := List.pairwise_append.1 hq
  refine List.pairwise_append.2 ⟨ha, List.pairwise_cons.2 ⟨fun y hy => le_of_lt (h2 y hy), hb⟩, ?_⟩
  intro u hu v hv
  rcases List.mem_cons.1 hv with rfl | hv
  · exact h1 u hu
  · exact hab u hu v hv

/-- C9: when the deferred array is in ascending priority order, a call
`c.O(t, r, a, o)` with an array `r` stores the new entry (priority `o`, or `0`
when `o` is absent) right after the existing entries of priority at most its
own and right before those of greater priority; the existing entries keep
their order, the array stays in ascending order and grows by one. -/
theorem register_keeps_queue_ordered (t : Option Val) (r : List ChunkId) (a : Outcome)
    (o : Option Int) (st : Loader)
    (hq : st.deferred.Pairwise (fun u v => u.prio ≤ v.prio)) :
    ∃ pre post, st.deferred = pre ++ post ∧
      (c.O t (some r) a o st).1.deferred = pre ++ Entry.mk st.nextUid r a (o.getD 0) :: post ∧
      (∀ y ∈ pre, y.prio ≤ o.getD 0) ∧ (∀ y ∈ post, o.getD 0 < y.prio) ∧
      (c.O t (some r) a o st).1.deferred.Pairwise (fun u v => u.prio ≤ v.prio) ∧
      (c.O t (some r) a o st).1.deferred.length = st.deferred.length + 1 := by
  obtain ⟨pre, post, h1, h2, h3, h4⟩ :=
    insertEntry_split (Entry.mk st.nextUid r a (prioOf o)) st.deferred hq
  have h2' : (c.O t (some r) a o st).1.deferred = pre ++ Entry.mk st.nextUid r a (o.getD 0) :: post := h2
  refine ⟨pre, post, h1, h2', h3, h4, ?_, ?_⟩
  · rw [h2']
    exact pairwise_insert_between _ pre post (h1 ▸ hq) h3 h4
  · rw [h2', h1]; simp only [List.length_append, List.length_cons]; omega

/-- C9 at `sampleQueue`: registering with the priority left out puts the new
entry after the two entries of priority `0` and before the entry of priority `2`. -/
theorem register_keeps_queue_ordered_witness :
    sampleQueue.deferred.Pairwise (fun u v => u.prio ≤ v.prio) ∧
    ∃ pre post, sampleQueue.deferred = pre ++ post ∧
      (c.O none (some ["98"]) (Outcome.returns none) none sampleQueue).1.deferred
        = pre ++ Entry.mk sampleQueue.nextUid ["98"] (Outcome.returns none) ((none : Option Int).getD 0) :: post ∧
      (∀ y ∈ pre, y.prio ≤ (none : Option Int).getD 0) ∧
      (∀ y ∈ post, (none : Option Int).getD 0 < y.prio) ∧
      (c.O none (some ["98"]) (Outcome.returns none) none sampleQueue).1.deferred.Pairwise
        (fun u v => u.prio ≤ v.prio) ∧
      (c.O none (some ["98"]) (Outcome.returns none) none sampleQueue).1.deferred.length
        = sampleQueue.deferred.length + 1 :=
  ⟨by decide, register_keeps_queue_ordered none ["98"] (Outcome.returns none) none sampleQueue (by decide)⟩

/-! ## One pass of the flush -/

theorem scanIds_flag (ok : ChunkId → Bool) (o : Int) (r : List ChunkId) (n : Bound)
    (h : (scanIds ok o r n).2.1 = true) :
    (∀ x ∈ r, gate n o = true ∧ ok x = true) ∧ (scanIds ok o r n).2.2 = n := by
  induction r generalizing n with
  | nil => simp [scanIds]
  | cons x xs ih =>
    unfold scanIds at h ⊢
    by_cases hx : (gate n o && ok x) = true
    · simp only [hx, if_true] at h ⊢
      obtain ⟨h1, h2⟩ := ih n h
      refine ⟨?_, h2⟩
      intro y hy
      rcases List.mem_cons.1 hy with rfl | hy
      · simpa using hx
      · exact h1 y hy
    · simp [hx] at h

theorem scanIds_sublist (ok : ChunkId → Bool) (o : Int) (r : List ChunkId) (n : Bound) :
    (scanIds ok o r n).1.Sublist r := by
  induction r generalizing n with
  | nil => simp [scanIds]
  | cons x xs ih =>
    unfold scanIds
    by_cases hx : (gate n o && ok x) = true
    · simp only [hx, if_true]
      exact (ih n).cons x
    · simp only [hx]
      exact (ih (lower n o)).cons₂ x

theorem scanIds_keeps_rejected (ok : ChunkId → Bool) (o : Int) (r : List ChunkId) (n : Bound)
    (x : ChunkId) (hx : x ∈ r) (hr : ok x = false) : x ∈ (scanIds ok o r n).1 := by
  induction r generalizing n with
  | nil => simp at hx
  | cons y ys ih =>
    unfold scanIds
    by_cases hy : (gate n o && ok y) = true
    · simp only [hy, if_true]
      rcases List.mem_cons.1 hx with rfl | hx
      · simp [hr] at hy
      · exact ih n hx
    · simp only [hy]
      rcases List.mem_cons.1 hx with rfl | hx
      · simp
      · exact List.mem_cons_of_mem _ (ih (lower n o) hx)

theorem scanIds_blocked (ok : ChunkId → Bool) (o : Int) (r : List ChunkId) (n : Bound)
    (x : ChunkId) (hx : x ∈ r) (hr : ok x = false) : (scanIds ok o r n).2.1 = false := by
  by_contra h
  have h' : (scanIds ok o r n).2.1 = true := by simpa using h
  have := ((scanIds_flag ok o r n h').1 x hx).2
  simp [hr] at this

theorem flushLoop_invoked (ok : ChunkId → Bool) (q : List Entry) (n : Bound) (t : Option Val)
    (en : Entry) (h : en ∈ (flushLoop ok q n t).invoked) :
    en ∈ q ∧ ∀ x ∈ en.req, ok x = true := by
  induction q generalizing n t with
  | nil => simp [flushLoop] at h
  | cons y ys ih =>
    unfold flushLoop at h
    by_cases hf : (scanIds ok y.prio y.req n).2.1 = true
    · simp only [hf, if_true] at h
      have hy : ∀ x ∈ y.req, ok x = true := fun x hx => ((scanIds_flag ok _ _ _ hf).1 x hx).2
      cases hs : y.startup with
      | throws err =>
        simp only [hs, List.mem_singleton] at h
        subst h
        exact ⟨List.mem_cons_self _ _, hy⟩
      | returns d =>
        simp only [hs, List.mem_cons] at h
        rcases h with rfl | h
        · exact ⟨List.mem_cons_self _ _, hy⟩
        · obtain ⟨h1, h2⟩ := ih _ _ h
          exact ⟨List.mem_cons_of_mem _ h1, h2⟩
    · simp only [hf] at h
      obtain ⟨h1, h2⟩ := ih _ _ h
      exact ⟨List.mem_cons_of_mem _ h1, h2⟩

theorem flushLoop_blocked_stays (ok : ChunkId → Bool) (q : List Entry) (n : Bound)
    (t : Option Val) (en : Entry) (h : en ∈ q) (hb : ∃ x ∈ en.req, ok x = false) :
    ∃ left, { en with req := left } ∈ (flushLoop ok q n t).queue ∧ left.Sublist en.req ∧
      ∀ x ∈ en.req, ok x = false → x ∈ left := by
  induction q generalizing n t with
  | nil => simp at h
  | cons y ys ih =>
    unfold flushLoop
    by_cases hf : (scanIds ok y.prio y.req n).2.1 = true
    · have hne : en ≠ y := by
        rintro rfl
        obtain ⟨x, hx, hr⟩ := hb
        have := scanIds_blocked ok en.prio en.req n x hx hr
        simp [this] at hf
      have h' : en ∈ ys := by
        rcases List.mem_cons.1 h with h | h
        · exact absurd h hne
        · exact h
      simp only [hf, if_true]
      cases hs : y.startup with
      | throws err =>
        exact ⟨en.req, by simpa using h', List.Sublist.refl _, fun x hx _ => hx⟩
      | returns d =>
        obtain ⟨left, h1, h2, h3⟩ := ih (scanIds ok y.prio y.req n).2.2 (keepDefined t d) h'
        exact ⟨left, h1, h2, h3⟩
    · simp only [hf]
      rcases List.mem_cons.1 h with rfl | h'
      · exact ⟨(scanIds ok en.prio en.req n).1, List.mem_cons_self _ _,
          scanIds_sublist _ _ _ _, fun x hx hr => scanIds_keeps_rejected _ _ _ _ x hx hr⟩
      · obtain ⟨left, h1, h2, h3⟩ := ih (scanIds ok y.prio y.req n).2.2 t h'
        exact ⟨left, List.mem_cons_of_mem _ h1, h2, h3⟩

/-- C2: a call `c.O(t)` calls the startup of an entry only if the entry was
in the deferred array and every one of its required ids is accepted by every
readiness predicate on `c.O` (the chunk is loaded, `c.O.j`, and each further
predicate holds); an entry with an id that is not accepted is not called and
is still in the array afterwards, with that id still required. -/
theorem flush_invokes_only_accepted (t : Option Val) (a : Outcome) (o : Option Int)
    (st : Loader) :
    (∀ x, accepts st x = true ↔ (st.slot x = Slot.ready ∧ ∀ p ∈ st.predicates, p x = true)) ∧
    (c.O t none a o st).1.deferred = (flushLoop (accepts st) st.deferred none t).queue ∧
    (c.O t none a o st).1.started
      = st.started ++ (flushLoop (accepts st) st.deferred none t).invoked.map Entry.uid ∧
    (∀ en ∈ (flushLoop (accepts st) st.deferred none t).invoked,
      en ∈ st.deferred ∧ ∀ x ∈ en.req, accepts st x = true) ∧
    (∀ en ∈ st.deferred, (∃ x ∈ en.req, accepts st x = false) →
      en ∉ (flushLoop (accepts st) st.deferred none t).invoked ∧
      ∃ left, { en with req := left } ∈ (c.O t none a o st).1.deferred ∧
        left.Sublist en.req ∧ ∀ x ∈ en.req, accepts st x = false → x ∈ left) := by
  refine ⟨?_, rfl, rfl, ?_, ?_⟩
  · intro x
    simp [accepts, c.O.j]
  · intro en hen
    exact flushLoop_invoked _ _ _ _ en hen
  · intro en hen hb
    refine ⟨?_, flushLoop_blocked_stays _ _ _ _ en hen hb⟩
    intro hin
    obtain ⟨x, hx, hr⟩ := hb
    have := (flushLoop_invoked _ _ _ _ en hin).2 x hx
    simp [hr] at this

theorem flushLoop_returns (ok : ChunkId → Bool) (q : List Entry) (n : Bound) (t r : Option Val)
    (h : (flushLoop ok q n t).result = Outcome.returns r) :
    (∃ pre en post v, (flushLoop ok q n t).invoked = pre ++ en :: post ∧ r = some v ∧
        en.startup = Outcome.returns (some v) ∧ ∀ e ∈ post, e.startup = Outcome.returns none) ∨
    (r = t ∧ ∀ e ∈ (flushLoop ok q n t).invoked, e.startup = Outcome.returns none) := by
  induction q generalizing n t with
  | nil =>
    right
    simp only [flushLoop, Outcome.returns.injEq] at h
    simp [flushLoop, h]
  | cons y ys ih =>
    unfold flushLoop at h ⊢
    by_cases hf : (scanIds ok y.prio y.req n).2.1 = true
    · simp only [hf, if_true] at h ⊢
      cases hs : y.startup with
      | throws err => simp [hs] at h
      | returns d =>
        simp only [hs] at h ⊢
        rcases ih _ _ h with ⟨pre, en, post, v, h1, h2, h3, h4⟩ | ⟨h1, h2⟩
        · left
          exact ⟨y :: pre, en, post, v, by simp [h1], h2, h3, h4⟩
        · cases d with
          | none =>
            right
            refine ⟨by simpa [keepDefined] using h1, ?_⟩
            intro e he
            rcases List.mem_cons.1 he with rfl | he
            · exact hs
            · exact h2 e he
          | some v =>
            left
            exact ⟨[], y, _, v, rfl, by simpa [keepDefined] using h1, hs, h2⟩
    · simp only [hf] at h ⊢
      exact ih _ _ h

theorem flushLoop_throws (ok : ChunkId → Bool) (q : List Entry) (n : Bound) (t : Option Val)
    (err : Val) (h : (flushLoop ok q n t).result = Outcome.throws err) :
    ∃ pre en, (flushLoop ok q n t).invoked = pre ++ [en] ∧ en.startup = Outcome.throws err ∧
      ∀ e ∈ pre, ∃ d, e.startup = Outcome.returns d := by
  induction q generalizing n t with
  | nil => simp [flushLoop] at h
  | cons y ys ih =>
    unfold flushLoop at h ⊢
    by_cases hf : (scanIds ok y.prio y.req n).2.1 = true
    · simp only [hf, if_true] at h ⊢
      cases hs : y.startup with
      | throws e2 =>
        simp only [hs, Outcome.throws.injEq] at h ⊢
        subst h
        exact ⟨[], y, rfl, hs, by simp⟩
      | returns d =>
        simp only [hs] at h ⊢
        obtain ⟨pre, en, h1, h2, h3⟩ := ih _ _ h
        refine ⟨y :: pre, en, by simp [h1], h2, ?_⟩
        intro e he
        rcases List.mem_cons.1 he with rfl | he
        · exact ⟨d, hs⟩
        · exact h3 e he
    · simp only [hf] at h ⊢
      exact ih _ _ h

/-- C10, as stated, fails at `lastUndefined`: the last startup that the flush
called returned `undefined`, and the flush returned `5`, the value of the
startup called before it. -/
theorem flush_result_not_last_startup :
    ((flushLoop (accepts lastUndefined) lastUndefined.deferred none none).invoked.getLast?).map
        Entry.startup = some (Outcome.returns none) ∧
    (c.O none none (Outcome.returns none) none lastUndefined).2
      = Outcome.returns (some (Val.num 5)) := by
  decide

/-- C10, amended: a call `c.O()` returns the value of the last startup of the
pass that returned something other than `undefined`; it returns `undefined`
exactly when every startup it called returned `undefined`, in particular when
it called none; and it ends with an exception only when the startup it called
last threw it. -/
theorem flush_returns_last_defined (a : Outcome) (o : Option Int) (st : Loader) :
    (c.O none none a o st).2 = (flushLoop (accepts st) st.deferred none none).result ∧
    (∀ v, (c.O none none a o st).2 = Outcome.returns (some v) →
      ∃ pre en post, (flushLoop (accepts st) st.deferred none none).invoked = pre ++ en :: post ∧
        en.startup = Outcome.returns (some v) ∧ ∀ e ∈ post, e.startup = Outcome.returns none) ∧
    ((c.O none none a o st).2 = Outcome.returns none →
      ∀ e ∈ (flushLoop (accepts st) st.deferred none none).invoked,
        e.startup = Outcome.returns none) ∧
    (∀ err, (c.O none none a o st).2 = Outcome.throws err →
      ∃ pre en, (flushLoop (accepts st) st.deferred none none).invoked = pre ++ [en] ∧
        en.startup = Outcome.throws err ∧ ∀ e ∈ pre, ∃ d, e.startup = Outcome.returns d) ∧
    ((∀ e ∈ (flushLoop (accepts st) st.deferred none none).invoked,
        e.startup = Outcome.returns none) →
      (c.O none none a o st).2 = Outcome.returns none) := by
  refine ⟨rfl, ?_, ?_, ?_, ?_⟩
  · intro v h
    rcases flushLoop_returns _ _ _ _ _ h with ⟨pre, en, post, w, h1, h2, h3, h4⟩ | ⟨h1, _⟩
    · cases h2
      exact ⟨pre, en, post, h1, h3, h4⟩
    · cases h1
  · intro h
    rcases flushLoop_returns _ _ _ _ _ h with ⟨pre, en, post, w, h1, h2, h3, h4⟩ | ⟨_, h2⟩
    · cases h2
    · exact h2
  · intro err h
    exact flushLoop_throws _ _ _ _ err h
  · intro h
    cases hr : (c.O none none a o st).2 with
    | returns r =>
      rcases flushLoop_returns _ _ _ _ _ hr with ⟨pre, en, post, w, h1, _, h3, _⟩ | ⟨h1, _⟩
      · have := h en (by rw [h1]; simp)
        rw [h3] at this
        cases this
      · rw [h1]
    | throws err =>
      obtain ⟨pre, en, h1, h2, _⟩ := flushLoop_throws _ _ _ _ err hr
      have := h en (by rw [h1]; simp)
      rw [h2] at this
      cases this

/-! ## Frame lemmas -/

theorem runFactory_view {α : Type} (V : Loader → α) (hV : RegistryFree V)
    (rq : ModId → Loader → Loader × Option Outcome)
    (hrq : ∀ m st, V (rq m st).1 = V st) (self : ModId) (box : Nat) (p : Prog) (st : Loader) :
    V (runFactory rq self box p st).1 = V st := by
  induction p generalizing st with
  | done => rfl
  | raise err => rfl
  | setExports v next ih =>
    simp only [runFactory]
    rw [ih, hV.cache]
  | define key v next ih =>
    simp only [runFactory]
    rw [ih, hV.heap]
  | require m next ih =>
    simp only [runFactory]
    cases h : rq m st with
    | mk st1 r =>
      have h1 : V st1 = V st := by simpa [h] using hrq m st
      cases r with
      | none => simpa using h1
      | some out =>
        simp only
        rw [ih, h1]

theorem openRecord_view {α : Type} (V : Loader → α) (hV : RegistryFree V) (m : ModId)
    (st : Loader) : V (openRecord m st) = V st := by
  unfold openRecord
  have h1 := hV.nextAddr { st with
    cache := Function.update st.cache m (some (ModuleRecord.mk (some (Val.obj st.nextAddr))))
    heap := Function.update st.heap st.nextAddr [] } (st.nextAddr + 1)
  have h2 := hV.heap { st with
    cache := Function.update st.cache m (some (ModuleRecord.mk (some (Val.obj st.nextAddr)))) }
    (Function.update st.heap st.nextAddr [])
  exact h1.trans (h2.trans (hV.cache _ _))

theorem c_view {α : Type} (V : Loader → α) (hV : RegistryFree V) (fuel : Nat) (m : ModId)
    (st : Loader) : V (c fuel m st).1 = V st := by
  induction fuel generalizing m st with
  | zero =>
    unfold c
    cases st.cache m <;> rfl
  | succ k ih =>
    unfold c
    cases hc : st.cache m with
    | some t => rfl
    | none =>
      simp only
      have h0 := openRecord_view V hV m st
      cases hm : (openRecord m st).modules m with
      | none => simpa using h0
      | some factory =>
        simp only
        have h4 := runFactory_view V hV (c k) ih m st.nextAddr factory
          (logCall m (openRecord m st))
        have h5 : V (logCall m (openRecord m st)) = V (openRecord m st) :=
          hV.called (openRecord m st) ((openRecord m st).called ++ [m])
        generalize runFactory (c k) m st.nextAddr factory _ = res at h4 ⊢
        obtain ⟨st2, r⟩ := res
        have h6 : V st2 = V st := h4.trans (h5.trans h0)
        cases r with
        | none => exact h6
        | some out => cases out <;> exact h6

theorem queueView_registryFree : RegistryFree queueView :=
  ⟨fun _ _ => rfl, fun _ _ => rfl, fun _ _ => rfl, fun _ _ => rfl⟩

theorem queueView_chunkFree : ChunkFree queueView :=
  ⟨fun _ _ => rfl, fun _ _ => rfl, fun _ _ => rfl, fun _ _ => rfl, fun _ _ => rfl,
   fun _ _ => rfl, fun _ _ => rfl, fun _ _ => rfl⟩

theorem c_l_view {α : Type} (V : Loader → α) (hV : ChunkFree V) (url : String) (k : ChunkId)
    (key : String) (st : Loader) : V (c.l url k key st) = V st := by
  unfold c.l
  simp only
  split
  · exact (hV.inflight { st with requests := st.requests ++ [LoadReq.mk url key k] } _).trans
      (hV.requests _ _)
  · split
    · exact (hV.inflight { st with requests := st.requests ++ [LoadReq.mk url key k] } _).trans
        (hV.requests _ _)
    · have h1 := hV.document { st with
          requests := st.requests ++ [LoadReq.mk url key k]
          inflight := st.inflight ++
            [Fetch.mk url [k]
              (ScriptEl.mk (some url) (some (dataWebpackPrefix ++ key)) (st.resolve url))] }
        (st.document ++
          [ScriptEl.mk (some url) (some (dataWebpackPrefix ++ key)) (st.resolve url)])
      have h2 := hV.inflight { st with requests := st.requests ++ [LoadReq.mk url key k] }
        (st.inflight ++
          [Fetch.mk url [k]
            (ScriptEl.mk (some url) (some (dataWebpackPrefix ++ key)) (st.resolve url))])
      exact h1.trans (h2.trans (hV.requests _ _))

theorem c_f_j_view {α : Type} (V : Loader → α) (hV : ChunkFree V) (k : ChunkId) (r : List Nat)
    (st : Loader) : V (c.f.j k r st).2 = V st := by
  unfold c.f.j
  split
  · rfl
  · rfl
  · split
    · exact hV.installed _ _
    · simp only
      rw [c_l_view V hV]
      unfold makePromise
      have h1 := hV.nextPromise { st with
          installed := assign st.installed k (Slot.pending st.nextPromise)
          promises := Function.update st.promises st.nextPromise Settled.waiting }
        (st.nextPromise + 1)
      have h2 := hV.promises { st with
          installed := assign st.installed k (Slot.pending st.nextPromise) }
        (Function.update st.promises st.nextPromise Settled.waiting)
      exact h1.trans (h2.trans (hV.installed _ _))

theorem rejectPromise_view {α : Type} (V : Loader → α) (hV : ChunkFree V) (p : Nat)
    (err : LoadError) (st : Loader) : V (rejectPromise p err st) = V st := by
  unfold rejectPromise
  split
  · exact hV.promises _ _
  · rfl

theorem resolvePromise_view {α : Type} (V : Loader → α) (hV : ChunkFree V) (p : Nat)
    (st : Loader) : V (resolvePromise p st) = V st := by
  unfold resolvePromise
  split
  · exact hV.promises _ _
  · rfl

theorem loadingEnded_view {α : Type} (V : Loader → α) (hV : ChunkFree V) (t : ChunkId)
    (ev : Event) (st : Loader) : V (loadingEnded t ev st) = V st := by
  unfold loadingEnded
  split
  · rfl
  · rfl
  · exact hV.installed _ _
  · rw [rejectPromise_view V hV]
    exact hV.installed _ _

theorem foldl_view {α β : Type} (V : Loader → α) (f : Loader → β → Loader)
    (hf : ∀ st b, V (f st b) = V st) (l : List β) (st : Loader) :
    V (l.foldl f st) = V st := by
  induction l generalizing st with
  | nil => rfl
  | cons b bs ih => simp only [List.foldl_cons]; rw [ih, hf]

theorem scriptDone_view {α : Type} (V : Loader → α) (hV : ChunkFree V) (url type : String)
    (st : Loader) : V (scriptDone url type st) = V st := by
  unfold scriptDone
  split
  · rfl
  · rename_i x _
    rw [foldl_view V _ (fun s t => loadingEnded_view V hV t _ s)]
    unfold detach
    have h1 := hV.document { st with
        inflight := st.inflight.filter (fun y => !decide (y.url = url)) }
      (st.document.erase x.script)
    exact h1.trans (hV.inflight _ _)

theorem mergeModules_view {α : Type} (V : Loader → α) (hV : ChunkFree V)
    (f : List (ModId × Prog)) (st : Loader) : V (mergeModules f st) = V st := by
  unfold mergeModules
  apply foldl_view V
  intro s kv
  exact hV.modules _ _

theorem markReady_view {α : Type} (V : Loader → α) (hV : ChunkFree V) (st : Loader)
    (o : ChunkId) : V (markReady st o) = V st := by
  unfold markReady
  split
  · exact (hV.installed _ _).trans (resolvePromise_view V hV _ st)
  · exact hV.installed _ _

theorem flush_view {α : Type} (V : Loader → α) (hQ : QueueFree V) (t : Option Val)
    (st : Loader) : V (flush t st).1 = V st := by
  unfold flush
  simp only
  have h1 := hQ.started { st with
      deferred := (flushLoop (accepts st) st.deferred none t).queue }
    (st.started ++ (flushLoop (accepts st) st.deferred none t).invoked.map Entry.uid)
  exact h1.trans (hQ.deferred _ _)

theorem register_view {α : Type} (V : Loader → α) (hQ : QueueFree V) (r : List ChunkId)
    (a : Outcome) (o : Option Int) (st : Loader) : V (register r a o st) = V st := by
  unfold register
  have h1 := hQ.nextUid { st with
      deferred := insertEntry (Entry.mk st.nextUid r a (prioOf o)) st.deferred }
    (st.nextUid + 1)
  exact h1.trans (hQ.deferred _ _)

theorem pushCallback_view {α : Type} (V : Loader → α) (hV : ChunkFree V) (hQ : QueueFree V)
    (parent : Bool) (d : ChunkDef) (st : Loader) : V (pushCallback parent d st).1 = V st := by
  unfold pushCallback
  simp only
  have h1 : V (if d.chunkIds.any (fun t => !decide (st.slot t = Slot.ready)) = true
      then mergeModules d.moreModules st else st) = V st := by
    split
    · exact mergeModules_view V hV _ _
    · rfl
  split
  · exact h1
  · rw [flush_view V hQ, foldl_view V markReady (markReady_view V hV)]
    split
    · exact (hV.intake _ _).trans h1
    · exact h1

theorem registryView_chunkFree : ChunkFree registryView :=
  ⟨fun _ _ => rfl, fun _ _ => rfl, fun _ _ => rfl, fun _ _ => rfl, fun _ _ => rfl,
   fun _ _ => rfl, fun _ _ => rfl, fun _ _ => rfl⟩

theorem registryView_queueFree : QueueFree registryView :=
  ⟨fun _ _ => rfl, fun _ _ => rfl, fun _ _ => rfl⟩

theorem shiftIn_perm (x : Entry) (l : List Entry) : (shiftIn x l).Perm (x :: l) := by
  obtain ⟨a, b, h1, h2, _, _⟩ := shiftIn_split x l
  rw [h2]
  conv_rhs => rw [h1]
  exact List.perm_middle

theorem insertEntry_perm (x : Entry) (q : List Entry) : (insertEntry x q).Perm (x :: q) := by
  unfold insertEntry
  refine (List.reverse_perm _).trans ((shiftIn_perm x _).trans ?_)
  exact List.Perm.cons x (List.reverse_perm q)

theorem flushLoop_perm (ok : ChunkId → Bool) (q : List Entry) (n : Bound) (t : Option Val) :
    (((flushLoop ok q n t).invoked ++ (flushLoop ok q n t).queue).map Entry.uid).Perm
      (q.map Entry.uid) := by
  induction q generalizing n t with
  | nil => simp [flushLoop]
  | cons y ys ih =>
    unfold flushLoop
    by_cases hf : (scanIds ok y.prio y.req n).2.1 = true
    · simp only [hf, if_true]
      cases hs : y.startup with
      | throws err => simp
      | returns d =>
        simp only [List.cons_append, List.map_cons]
        exact List.Perm.cons _ (ih _ _)
    · simp only [hf]
      simp only [List.map_append, List.map_cons]
      refine List.perm_middle.trans (List.Perm.cons _ ?_)
      simpa using ih (scanIds ok y.prio y.req n).2.2 t

theorem QueueInv_of_view (st st' : Loader) (h : queueView st' = queueView st)
    (hi : QueueInv st) : QueueInv st' := by
  simp only [queueView, Prod.mk.injEq] at h
  obtain ⟨h1, h2, h3⟩ := h
  unfold QueueInv
  rw [h1, h2, h3]
  exact hi

theorem QueueInv_register (r : List ChunkId) (a : Outcome) (o : Option Int) (st : Loader)
    (hi : QueueInv st) : QueueInv (register r a o st) := by
  obtain ⟨h1, h2, h3, h4, h5⟩ := hi
  have hp := insertEntry_perm (Entry.mk st.nextUid r a (prioOf o)) st.deferred
  have hmem : ∀ en, en ∈ (register r a o st).deferred ↔
      en = Entry.mk st.nextUid r a (prioOf o) ∨ en ∈ st.deferred := by
    intro en
    show en ∈ insertEntry _ _ ↔ _
    rw [hp.mem_iff, List.mem_cons]
  refine ⟨?_, ?_, h3, ?_, ?_⟩
  · show (List.map Entry.uid (insertEntry _ _)).Nodup
    rw [(hp.map Entry.uid).nodup_iff, List.map_cons, List.nodup_cons]
    refine ⟨?_, h1⟩
    intro hin
    obtain ⟨en, hen, he⟩ := List.mem_map.1 hin
    have := h2 en hen
    simp only at he
    omega
  · intro en hen
    show en.uid < st.nextUid + 1
    rcases (hmem en).1 hen with rfl | hen
    · simp
    · exact Nat.lt_succ_of_lt (h2 en hen)
  · intro u hu
    exact Nat.lt_succ_of_lt (h4 u hu)
  · intro en hen
    show en.uid ∉ st.started
    rcases (hmem en).1 hen with rfl | hen
    · intro hin
      have := h4 _ hin
      simp at this
    · exact h5 en hen

theorem QueueInv_flush (t : Option Val) (st : Loader) (hi : QueueInv st) :
    QueueInv (flush t st).1 := by
  obtain ⟨h1, h2, h3, h4, h5⟩ := hi
  have hp := flushLoop_perm (accepts st) st.deferred none t
  have hnd := hp.nodup_iff.2 h1
  rw [List.map_append] at hnd hp
  obtain ⟨hn1, hn2, hdis⟩ := List.nodup_append.1 hnd
  have hsubI : ∀ u ∈ (flushLoop (accepts st) st.deferred none t).invoked.map Entry.uid,
      u ∈ st.deferred.map Entry.uid := fun u hu => hp.subset (List.mem_append_left _ hu)
  have hsubQ : ∀ u ∈ (flushLoop (accepts st) st.deferred none t).queue.map Entry.uid,
      u ∈ st.deferred.map Entry.uid := fun u hu => hp.subset (List.mem_append_right _ hu)
  have hlt : ∀ u ∈ st.deferred.map Entry.uid, u < st.nextUid := by
    intro u hu
    obtain ⟨en, hen, rfl⟩ := List.mem_map.1 hu
    exact h2 en hen
  have hns : ∀ u ∈ st.deferred.map Entry.uid, u ∉ st.started := by
    intro u hu
    obtain ⟨en, hen, rfl⟩ := List.mem_map.1 hu
    exact h5 en hen
  refine ⟨hn2, ?_, ?_, ?_, ?_⟩
  · intro en hen
    exact hlt _ (hsubQ _ (List.mem_map_of_mem _ hen))
  · show (st.started ++ _).Nodup
    refine List.nodup_append.2 ⟨h3, hn1, ?_⟩
    intro u hu hv
    exact hns u (hsubI u hv) hu
  · intro u hu
    rcases List.mem_append.1 hu with hu | hu
    · exact h4 u hu
    · exact hlt u (hsubI u hu)
  · intro en hen hin
    have hq : en.uid ∈ (flushLoop (accepts st) st.deferred none t).queue.map Entry.uid :=
      List.mem_map_of_mem _ hen
    rcases List.mem_append.1 hin with hu | hu
    · exact hns _ (hsubQ _ hq) hu
    · exact hdis hu hq

theorem QueueInv_pushCallback (parent : Bool) (d : ChunkDef) (st : Loader) (hi : QueueInv st) :
    QueueInv (pushCallback parent d st).1 := by
  unfold pushCallback
  simp only
  have h1 : QueueInv (if d.chunkIds.any (fun t => !decide (st.slot t = Slot.ready)) = true
      then mergeModules d.moreModules st else st) := by
    split
    · exact QueueInv_of_view _ _ (mergeModules_view queueView queueView_chunkFree _ _) hi
    · exact hi
  split
  · exact h1
  · apply QueueInv_flush
    apply QueueInv_of_view _ _ (foldl_view queueView _ (markReady_view queueView queueView_chunkFree) _ _)
    split
    · exact QueueInv_of_view _ _ rfl h1
    · exact h1

theorem QueueInv_step (st : Loader) (op : Op) (hi : QueueInv st) : QueueInv (step st op) := by
  cases op with
  | require fuel m => exact QueueInv_of_view _ _ (c_view queueView queueView_registryFree _ _ _) hi
  | register r a o => exact QueueInv_register r a o st hi
  | flush t => exact QueueInv_flush t st hi
  | addPredicate p => exact QueueInv_of_view _ _ rfl hi
  | ensure k => exact QueueInv_of_view _ _ (c_f_j_view queueView queueView_chunkFree k [] st) hi
  | scriptEvent url type => exact QueueInv_of_view _ _ (scriptDone_view queueView queueView_chunkFree url type st) hi
  | push d => exact QueueInv_pushCallback true d st hi
  | drain d => exact QueueInv_pushCallback false d st hi

theorem QueueInv_init : QueueInv Loader.init := by
  simp [QueueInv, Loader.init]

theorem QueueInv_run (ops : List Op) (st : Loader) (hi : QueueInv st) : QueueInv (run ops st) := by
  induction ops generalizing st with
  | nil => exact hi
  | cons op ops ih => exact ih _ (QueueInv_step st op hi)

/-- C3: after every sequence of calls on the loader (register, flush, chunk
registrations and all the others) no entry identity is in the startup log
twice, so each registered entry had its startup called at most once; no
entry that is in the deferred array has been started; and an entry that a
flush starts is out of the array when its startup is called, also when that
startup throws. -/
theorem startup_invoked_at_most_once (ops : List Op) :
    (∀ u, (run ops Loader.init).started.count u ≤ 1) ∧
    (∀ en ∈ (run ops Loader.init).deferred, en.uid ∉ (run ops Loader.init).started) ∧
    (∀ t, ∀ en ∈ (flushLoop (accepts (run ops Loader.init)) (run ops Loader.init).deferred
          none t).invoked,
      en.uid ∈ (flush t (run ops Loader.init)).1.started ∧
      ∀ e ∈ (flush t (run ops Loader.init)).1.deferred, e.uid ≠ en.uid) := by
  have hi := QueueInv_run ops Loader.init QueueInv_init
  refine ⟨?_, hi.2.2.2.2, ?_⟩
  · intro u
    exact List.nodup_iff_count_le_one.1 hi.2.2.1 u
  · intro t en hen
    have hf := QueueInv_flush t _ hi
    have hs : en.uid ∈ (flush t (run ops Loader.init)).1.started :=
      List.mem_append_right _ (List.mem_map_of_mem _ hen)
    refine ⟨hs, ?_⟩
    intro e he heq
    exact hf.2.2.2.2 e he (heq ▸ hs)

/-! ## The registration callback -/

theorem resolvePromise_installed (p : Nat) (st : Loader) :
    (resolvePromise p st).installed = st.installed := by
  unfold resolvePromise
  split <;> rfl

theorem assign_apply (e : ChunkId → Option Slot) (t j : ChunkId) (v : Slot) :
    assign e t v j
      = if j = t ∧ ¬ (t = "__proto__" ∧ e t = none) then some v else e j := by
  unfold assign
  by_cases hjt : j = t
  · subst hjt
    cases he : e j with
    | none =>
      by_cases hp : j = "__proto__"
      · simp [hp, he]
        rw [← hp]
        exact he
      · simp [hp]
    | some x => simp
  · cases he : e t with
    | none =>
      by_cases hp : t = "__proto__"
      · simp [hp, hjt]
      · simp [hp, hjt, Function.update_noteq hjt]
    | some x => simp [hjt, Function.update_noteq hjt]

theorem assign_ne (e : ChunkId → Option Slot) (t j : ChunkId) (v : Slot) (h : j ≠ t) :
    assign e t v j = e j := by
  rw [assign_apply, if_neg (fun hc => h hc.1)]

theorem assign_pending (e : ChunkId → Option Slot) (t j : ChunkId) (v : Slot) (q : Nat)
    (h : assign e t v j = some (Slot.pending q)) :
    (j = t ∧ v = Slot.pending q) ∨ (j ≠ t ∧ e j = some (Slot.pending q)) := by
  rw [assign_apply] at h
  by_cases hjt : j = t
  · subst hjt
    by_cases hc : ¬ (j = "__proto__" ∧ e j = none)
    · rw [if_pos ⟨rfl, hc⟩] at h
      exact Or.inl ⟨rfl, Option.some.inj h⟩
    · rw [if_neg (fun hh => hc hh.2)] at h
      rw [not_not] at hc
      rw [hc.2] at h
      cases h
  · rw [if_neg (fun hh => hjt hh.1)] at h
    exact Or.inr ⟨hjt, h⟩

theorem assign_keeps_ready (e : ChunkId → Option Slot) (t j : ChunkId)
    (h : e j = some Slot.ready) : assign e t Slot.ready j = some Slot.ready := by
  rw [assign_apply]
  split
  · rfl
  · exact h

theorem markReady_installed (st : Loader) (o : ChunkId) :
    (markReady st o).installed = assign st.installed o Slot.ready := by
  unfold markReady
  split
  · simp only [resolvePromise_installed]
  · rfl

theorem foldl_markReady_installed (ids : List ChunkId) (st : Loader) (k : ChunkId) :
    (ids.foldl markReady st).installed k
      = if k ∈ ids ∧ ¬ (k = "__proto__" ∧ st.installed k = none)
          then some Slot.ready else st.installed k := by
  induction ids generalizing st with
  | nil => simp
  | cons o os ih =>
    simp only [List.foldl_cons]
    rw [ih, markReady_installed, assign_apply]
    by_cases h2 : k = o
    · subst h2
      by_cases hc : k = "__proto__" ∧ st.installed k = none
      · have hi : (if k = k ∧ ¬ (k = "__proto__" ∧ st.installed k = none)
            then some Slot.ready else st.installed k) = st.installed k :=
          if_neg (fun h => h.2 hc)
        rw [hi, if_neg (fun h => h.2 hc), if_neg (fun h => h.2 hc)]
      · have hi : (if k = k ∧ ¬ (k = "__proto__" ∧ st.installed k = none)
            then some Slot.ready else st.installed k) = some Slot.ready :=
          if_pos ⟨rfl, hc⟩
        have hr : (if k ∈ k :: os ∧ ¬ (k = "__proto__" ∧ st.installed k = none)
            then some Slot.ready else st.installed k) = some Slot.ready :=
          if_pos ⟨List.mem_cons_self _ _, hc⟩
        rw [hi, hr]
        split <;> rfl
    · have hi : (if k = o ∧ ¬ (o = "__proto__" ∧ st.installed o = none)
          then some Slot.ready else st.installed k) = st.installed k :=
        if_neg (fun h => h2 h.1)
      rw [hi]
      simp only [List.mem_cons, h2, false_or]

theorem mergeModules_installed (f : List (ModId × Prog)) (st : Loader) :
    (mergeModules f st).installed = st.installed := by
  unfold mergeModules
  apply foldl_view (fun s => s.installed)
  intro s kv
  rfl

theorem pushCallback_installed (parent : Bool) (d : ChunkDef) (st : Loader)
    (hret : ∀ err, ¬ (d.chunkIds.any (fun t => !decide (st.slot t = Slot.ready)) = true ∧
      d.runtime = some (Outcome.throws err))) (k : ChunkId) :
    (pushCallback parent d st).1.installed k
      = if k ∈ d.chunkIds ∧ ¬ (k = "__proto__" ∧ st.installed k = none)
          then some Slot.ready else st.installed k := by
  unfold pushCallback
  simp only
  split
  · rename_i err h
    exfalso
    by_cases hf : d.chunkIds.any (fun t => !decide (st.slot t = Slot.ready)) = true
    · rw [if_pos hf] at h
      exact hret err ⟨hf, h⟩
    · rw [if_neg hf] at h
      cases h
  · show (List.foldl markReady _ d.chunkIds).installed k = _
    rw [foldl_markReady_installed]
    have : ∀ s : Loader, (if parent = true then { s with intake := s.intake ++ [d] } else s).installed
        = s.installed := by
      intro s; split <;> rfl
    rw [this]
    have h2 : (if d.chunkIds.any (fun t => !decide (st.slot t = Slot.ready)) = true
        then mergeModules d.moreModules st else st).installed = st.installed := by
      split
      · exact mergeModules_installed _ _
      · rfl
    rw [h2]

/-- C6, as stated, fails in two ways.  The definition `throwingRuntime` names
chunk `48` and brings a runtime function that throws: the exception ends the
callback before the marking loop, and chunk `48` is not loaded afterwards.  The
definition `protoChunk` names the chunk id `__proto__`: the assignment `e[o]=0`
stores nothing under that key, and the chunk is not loaded afterwards. -/
theorem registration_may_not_mark_ready :
    "48" ∈ throwingRuntime.chunkIds ∧
    (pushCallback true throwingRuntime Loader.init).1.slot "48" ≠ Slot.ready ∧
    "__proto__" ∈ protoChunk.chunkIds ∧
    (pushCallback true protoChunk Loader.init).1.slot "__proto__" ≠ Slot.ready := by
  decide

/-- C6, amended: when the runtime function of a definition does not throw, the
registration callback leaves every id of `chunkIds` other than `__proto__`
loaded (`e[id]=0`) and the entry of every chunk id outside `chunkIds` as it
was; the key `__proto__`, when the table has no such own property, still has
none; and running the callback again on the same definition leaves the
installed-chunks table unchanged. -/
theorem registration_marks_ready (parent : Bool) (d : ChunkDef) (st : Loader)
    (hret : ∀ err, d.runtime ≠ some (Outcome.throws err)) :
    (∀ k ∈ d.chunkIds, k ≠ "__proto__" →
      (pushCallback parent d st).1.installed k = some Slot.ready) ∧
    (∀ k, k ∉ d.chunkIds → (pushCallback parent d st).1.installed k = st.installed k) ∧
    (st.installed "__proto__" = none →
      (pushCallback parent d st).1.installed "__proto__" = none) ∧
    (∀ parent2, (pushCallback parent2 d (pushCallback parent d st).1).1.installed
      = (pushCallback parent d st).1.installed) := by
  have h1 : ∀ par s k, (pushCallback par d s).1.installed k
      = if k ∈ d.chunkIds ∧ ¬ (k = "__proto__" ∧ s.installed k = none)
          then some Slot.ready else s.installed k :=
    fun par s k => pushCallback_installed par d s (fun err h => hret err h.2) k
  refine ⟨?_, ?_, ?_, ?_⟩
  · intro k hk hp
    rw [h1, if_pos ⟨hk, fun hc => hp hc.1⟩]
  · intro k hk
    rw [h1, if_neg (fun hc => hk hc.1)]
  · intro hn
    rw [h1, if_neg (fun hc => hc.2 ⟨rfl, hn⟩)]
    exact hn
  · intro parent2
    funext k
    rw [h1 parent2, h1 parent]
    by_cases hc : k ∈ d.chunkIds ∧ ¬ (k = "__proto__" ∧ st.installed k = none)
    · rw [if_pos hc]
      split <;> rfl
    · rw [if_neg hc]
      split
      · rename_i hc2
        exact absurd ⟨hc2.1, hc2.2⟩ hc
      · rfl

/-- C6 amended, at the definition `earlier` on the initial tables. -/
theorem registration_marks_ready_witness :
    (∀ err, earlier.runtime ≠ some (Outcome.throws err)) ∧
    (∀ k ∈ earlier.chunkIds, k ≠ "__proto__" →
      (pushCallback true earlier Loader.init).1.installed k = some Slot.ready) ∧
    (∀ k, k ∉ earlier.chunkIds →
      (pushCallback true earlier Loader.init).1.installed k = Loader.init.installed k) ∧
    (Loader.init.installed "__proto__" = none →
      (pushCallback true earlier Loader.init).1.installed "__proto__" = none) ∧
    (∀ parent2,
      (pushCallback parent2 earlier (pushCallback true earlier Loader.init).1).1.installed
        = (pushCallback true earlier Loader.init).1.installed) :=
  ⟨fun _ h => Option.noConfusion h,
   registration_marks_ready true earlier Loader.init (fun _ h => Option.noConfusion h)⟩

theorem mergeModules_other (f : List (ModId × Prog)) (st : Loader) (m : ModId)
    (hm : m ∉ f.map Prod.fst) : (mergeModules f st).modules m = st.modules m := by
  unfold mergeModules
  induction f generalizing st with
  | nil => rfl
  | cons kv rest ih =>
    simp only [List.map_cons, List.mem_cons, not_or] at hm
    simp only [List.foldl_cons]
    rw [ih _ hm.2]
    exact Function.update_noteq hm.1 _ _

theorem mergeModules_mem (f : List (ModId × Prog)) (st : Loader)
    (hk : (f.map Prod.fst).Nodup) (m : ModId) (F : Prog) (hm : (m, F) ∈ f) :
    (mergeModules f st).modules m = some F := by
  induction f generalizing st with
  | nil => simp at hm
  | cons kv rest ih =>
    simp only [List.map_cons, List.nodup_cons] at hk
    rcases List.mem_cons.1 hm with h | h
    · subst h
      have := mergeModules_other rest
        { st with modules := Function.update st.modules m (some F) } m hk.1
      simp only [mergeModules, List.foldl_cons] at this ⊢
      rw [this]
      simp
    · have := ih { st with modules := Function.update st.modules kv.1 (some kv.2) } hk.2 h
      simpa only [mergeModules, List.foldl_cons] using this

theorem resolvePromise_modules (p : Nat) (st : Loader) :
    (resolvePromise p st).modules = st.modules := by
  unfold resolvePromise
  split <;> rfl

theorem markReady_modules (st : Loader) (o : ChunkId) :
    (markReady st o).modules = st.modules := by
  unfold markReady
  split
  · simp only [resolvePromise_modules]
  · rfl

theorem pushCallback_modules (parent : Bool) (d : ChunkDef) (st : Loader) :
    (pushCallback parent d st).1.modules
      = (if d.chunkIds.any (fun t => !decide (st.slot t = Slot.ready)) = true
          then mergeModules d.moreModules st else st).modules := by
  unfold pushCallback
  simp only
  split
  · rfl
  · show (List.foldl markReady _ d.chunkIds).modules = _
    rw [foldl_view (fun s => s.modules) markReady markReady_modules]
    split <;> rfl

/-- C7, as stated, fails after `earlier` then `later`: chunk `48` is already
loaded when `later` arrives, so its factory for `m` is not stored and the
table still holds the factory of `earlier`. -/
theorem registration_ignores_factories_of_loaded_chunks :
    (pushCallback true later (pushCallback true earlier Loader.init).1).1.modules "m"
      = some Prog.done ∧
    later.moreModules = [("m", Prog.raise (Val.num 0))] ∧
    Prog.done ≠ Prog.raise (Val.num 0) := by
  refine ⟨rfl, rfl, ?_⟩
  intro h
  cases h

/-- C7, amended: when at least one id of `chunkIds` is not loaded as the
definition arrives, the registration callback stores every factory of
`moreModules` in `c.m`, replacing a factory stored before under the same
module id; when every id of `chunkIds` is already loaded the table `c.m` is
left as it was. -/
theorem registration_overwrites_factories (parent : Bool) (d : ChunkDef) (st : Loader)
    (hk : (d.moreModules.map Prod.fst).Nodup) :
    ((∃ k ∈ d.chunkIds, st.slot k ≠ Slot.ready) →
      ∀ m F, (m, F) ∈ d.moreModules → (pushCallback parent d st).1.modules m = some F) ∧
    ((∀ k ∈ d.chunkIds, st.slot k = Slot.ready) →
      (pushCallback parent d st).1.modules = st.modules) := by
  rw [pushCallback_modules]
  constructor
  · rintro ⟨k, hk1, hk2⟩ m F hm
    have : d.chunkIds.any (fun t => !decide (st.slot t = Slot.ready)) = true := by
      rw [List.any_eq_true]
      exact ⟨k, hk1, by simpa using hk2⟩
    rw [if_pos this]
    exact mergeModules_mem _ _ hk m F hm
  · intro h
    have : ¬ d.chunkIds.any (fun t => !decide (st.slot t = Slot.ready)) = true := by
      rw [List.any_eq_true]
      rintro ⟨k, hk1, hk2⟩
      simp [h k hk1] at hk2
    rw [if_neg this]

/-- C7 amended, at `laterFresh` after `earlier`: the factory of `m` is replaced. -/
theorem registration_overwrites_factories_witness :
    (laterFresh.moreModules.map Prod.fst).Nodup ∧
    ((∃ k ∈ laterFresh.chunkIds, (pushCallback true earlier Loader.init).1.slot k ≠ Slot.ready) →
      ∀ m F, (m, F) ∈ laterFresh.moreModules →
        (pushCallback true laterFresh (pushCallback true earlier Loader.init).1).1.modules m
          = some F) ∧
    ((∀ k ∈ laterFresh.chunkIds, (pushCallback true earlier Loader.init).1.slot k = Slot.ready) →
      (pushCallback true laterFresh (pushCallback true earlier Loader.init).1).1.modules
        = (pushCallback true earlier Loader.init).1.modules) :=
  ⟨by decide,
   registration_overwrites_factories true laterFresh (pushCallback true earlier Loader.init).1
     (by decide)⟩

/-! ## The requirer -/

theorem Keeps.refl (st : Loader) (h : RegistryInv st) : Keeps st st :=
  ⟨h, fun _ hx => hx, fun _ hx => hx⟩

theorem Keeps.trans {a b d : Loader} (h1 : Keeps a b) (h2 : Keeps b d) : Keeps a d :=
  ⟨h2.1, fun x hx => h2.2.1 x (h1.2.1 x hx), fun x hx => h2.2.2 x (h1.2.2 x hx)⟩

theorem runFactory_keeps (rq : ModId → Loader → Loader × Option Outcome)
    (hrq : ∀ m st, RegistryInv st → Keeps st (rq m st).1) (self : ModId) (box : Nat)
    (p : Prog) (st : Loader) (hi : RegistryInv st) :
    Keeps st (runFactory rq self box p st).1 := by
  induction p generalizing st with
  | done => exact Keeps.refl st hi
  | raise err => exact Keeps.refl st hi
  | setExports v next ih =>
    simp only [runFactory]
    have h1 : Keeps st { st with cache := Function.update st.cache self (some (ModuleRecord.mk v)) } := by
      refine ⟨⟨hi.1, ?_⟩, ?_, fun _ hx => hx⟩
      · intro m hm
        show Function.update st.cache self _ m ≠ none
        by_cases h : m = self
        · subst h; simp
        · rw [Function.update_noteq h]; exact hi.2 m hm
      · intro x hx
        show Function.update st.cache self _ x ≠ none
        by_cases h : x = self
        · subst h; simp
        · rw [Function.update_noteq h]; exact hx
    exact h1.trans (ih _ h1.1)
  | define key v next ih =>
    simp only [runFactory]
    have h1 : Keeps st { st with heap := Function.update st.heap box (st.heap box ++ [(key, v)]) } :=
      ⟨hi, fun _ hx => hx, fun _ hx => hx⟩
    exact h1.trans (ih _ h1.1)
  | require m next ih =>
    simp only [runFactory]
    have h1 := hrq m st hi
    cases h : rq m st with
    | mk st1 r =>
      rw [h] at h1
      cases r with
      | none => exact h1
      | some out => exact h1.trans (ih out st1 h1.1)

theorem openRecord_keeps (m : ModId) (st : Loader) (hi : RegistryInv st)
    (hc : st.cache m = none) :
    Keeps st (logCall m (openRecord m st)) := by
  have hm : m ∉ st.called := fun h => hi.2 m h hc
  refine ⟨⟨?_, ?_⟩, ?_, fun x hx => List.mem_append_left _ hx⟩
  · show (st.called ++ [m]).Nodup
    exact List.nodup_append.2 ⟨hi.1, List.nodup_singleton m, by
      intro a ha hb
      rw [List.mem_singleton] at hb
      subst hb
      exact hm ha⟩
  · intro x hx
    show Function.update st.cache m _ x ≠ none
    by_cases h : x = m
    · subst h; simp
    · rw [Function.update_noteq h]
      have : x ∈ st.called := by
        rcases List.mem_append.1 hx with hx | hx
        · exact hx
        · exact absurd (List.mem_singleton.1 hx) h
      exact hi.2 x this
  · intro x hx
    show Function.update st.cache m _ x ≠ none
    by_cases h : x = m
    · subst h; simp
    · rw [Function.update_noteq h]; exact hx

theorem openRecord_keeps_plain (m : ModId) (st : Loader) (hi : RegistryInv st) :
    Keeps st (openRecord m st) := by
  refine ⟨⟨hi.1, ?_⟩, ?_, fun _ hx => hx⟩
  · intro x hx
    show Function.update st.cache m _ x ≠ none
    by_cases h : x = m
    · subst h; simp
    · rw [Function.update_noteq h]; exact hi.2 x hx
  · intro x hx
    show Function.update st.cache m _ x ≠ none
    by_cases h : x = m
    · subst h; simp
    · rw [Function.update_noteq h]; exact hx

theorem c_keeps (fuel : Nat) (m : ModId) (st : Loader) (hi : RegistryInv st) :
    Keeps st (c fuel m st).1 := by
  induction fuel generalizing m st with
  | zero =>
    unfold c
    cases st.cache m <;> exact Keeps.refl st hi
  | succ k ih =>
    unfold c
    cases hc : st.cache m with
    | some t => exact Keeps.refl st hi
    | none =>
      simp only
      cases hm : (openRecord m st).modules m with
      | none => exact openRecord_keeps_plain m st hi
      | some factory =>
        simp only
        have h1 := openRecord_keeps m st hi hc
        have h2 := runFactory_keeps (c k) ih m st.nextAddr factory _ h1.1
        generalize runFactory (c k) m st.nextAddr factory _ = res at h2 ⊢
        obtain ⟨st2, r⟩ := res
        have h3 : Keeps st st2 := h1.trans h2
        cases r with
        | none => exact h3
        | some out => cases out <;> exact h3

theorem c_cached (fuel : Nat) (m : ModId) (st : Loader) (t : ModuleRecord)
    (h : st.cache m = some t) : c fuel m st = (st, some (Outcome.returns t.exports)) := by
  cases fuel <;> simp [c, h]

theorem RegistryInv_of_view (st st' : Loader) (h : registryView st' = registryView st)
    (hi : RegistryInv st) : RegistryInv st' := by
  simp only [registryView, Prod.mk.injEq] at h
  obtain ⟨h1, h2⟩ := h
  unfold RegistryInv
  rw [h1, h2]
  exact hi

theorem RegistryInv_step (st : Loader) (op : Op) (hi : RegistryInv st) :
    RegistryInv (step st op) := by
  cases op with
  | require fuel m => exact (c_keeps fuel m st hi).1
  | register r a o =>
    exact RegistryInv_of_view _ _ (register_view registryView registryView_queueFree r a o st) hi
  | flush t => exact RegistryInv_of_view _ _ (flush_view registryView registryView_queueFree t st) hi
  | addPredicate p => exact RegistryInv_of_view _ _ rfl hi
  | ensure k => exact RegistryInv_of_view _ _ (c_f_j_view registryView registryView_chunkFree k [] st) hi
  | scriptEvent url type =>
    exact RegistryInv_of_view _ _ (scriptDone_view registryView registryView_chunkFree url type st) hi
  | push d =>
    exact RegistryInv_of_view _ _
      (pushCallback_view registryView registryView_chunkFree registryView_queueFree true d st) hi
  | drain d =>
    exact RegistryInv_of_view _ _
      (pushCallback_view registryView registryView_chunkFree registryView_queueFree false d st) hi

theorem RegistryInv_init : RegistryInv Loader.init := by
  simp [RegistryInv, Loader.init]

theorem RegistryInv_run (ops : List Op) (st : Loader) (hi : RegistryInv st) :
    RegistryInv (run ops st) := by
  induction ops generalizing st with
  | nil => exact hi
  | cons op ops ih => exact ih _ (RegistryInv_step st op hi)

theorem c_uncached (fuel : Nat) (m : ModId) (st : Loader) (factory : Prog)
    (hc : st.cache m = none) (hm : st.modules m = some factory) :
    (c (fuel + 1) m st).1
      = (runFactory (c fuel) m st.nextAddr factory
          (logCall m (openRecord m st))).1 := by
  have hm' : (openRecord m st).modules m = some factory := hm
  simp only [c, hc, hm']
  generalize runFactory (c fuel) m st.nextAddr factory _ = res
  obtain ⟨st2, r⟩ := res
  cases r with
  | none => rfl
  | some out => cases out <;> rfl

/-- C1: after every sequence of calls on the loader, with factories that call
the requirer again in any way (on their own module id too, or around a cycle),
no module id is in the factory log twice.  A call `c(m)` that finds a record
in the cache returns the `exports` of that record and leaves the whole state,
the cache and the factory log included, as it was, at every depth.  A call
`c(m)` that finds none stores the record with its fresh container in the
cache first and runs the factory from that state, and the factory of `m` is
in the log exactly once afterwards. -/
theorem factory_invoked_at_most_once (ops : List Op) :
    (∀ m, (run ops Loader.init).called.count m ≤ 1) ∧
    (∀ fuel m t, (run ops Loader.init).cache m = some t →
      c fuel m (run ops Loader.init) = (run ops Loader.init, some (Outcome.returns t.exports))) ∧
    (∀ fuel m factory, (run ops Loader.init).cache m = none →
      (run ops Loader.init).modules m = some factory →
      (openRecord m (run ops Loader.init)).cache m
        = some (ModuleRecord.mk (some (Val.obj (run ops Loader.init).nextAddr))) ∧
      (c (fuel + 1) m (run ops Loader.init)).1
        = (runFactory (c fuel) m (run ops Loader.init).nextAddr factory
            (logCall m (openRecord m (run ops Loader.init)))).1 ∧
      (c (fuel + 1) m (run ops Loader.init)).1.called.count m = 1) := by
  have hi := RegistryInv_run ops Loader.init RegistryInv_init
  refine ⟨fun m => List.nodup_iff_count_le_one.1 hi.1 m, ?_, ?_⟩
  · intro fuel m t h
    exact c_cached fuel m _ t h
  · intro fuel m factory hc hm
    refine ⟨by simp [openRecord], c_uncached fuel m _ factory hc hm, ?_⟩
    have hk := c_keeps (fuel + 1) m _ hi
    have h1 := openRecord_keeps m _ hi hc
    have h2 := runFactory_keeps (c fuel) (fun m st h => c_keeps fuel m st h) m
      (run ops Loader.init).nextAddr factory _ h1.1
    rw [c_uncached fuel m _ factory hc hm] at hk ⊢
    exact List.count_eq_one_of_mem hk.1.1 (h2.2.2 m (by simp [openRecord, logCall]))

/-- C1 on the two factories of `cyclic`, which require each other: requiring
`a` calls the factory of `a`, then that of `b`, and neither a second time. -/
theorem factory_invoked_at_most_once_cycle :
    (run [Op.push cyclic, Op.require 2 "a"] Loader.init).called = ["a", "b"] ∧
    (∀ m, (run [Op.push cyclic, Op.require 2 "a"] Loader.init).called.count m ≤ 1) :=
  ⟨by decide, (factory_invoked_at_most_once [Op.push cyclic, Op.require 2 "a"]).1⟩

/-- C8: when the factory of a module that is not in the cache throws, the
call `c(m)` ends with that same exception and returns the state exactly as
the factory left it (nothing is rolled back); the record of `m` is in the
cache of that state, and every later call `c(m)` returns the `exports` of that
record and changes nothing, so the factory is not run again. -/
theorem failed_factory_stays_cached (ops : List Op) (fuel : Nat) (m : ModId) (factory : Prog)
    (err : Val) (st2 : Loader)
    (hc : (run ops Loader.init).cache m = none)
    (hm : (run ops Loader.init).modules m = some factory)
    (hr : runFactory (c fuel) m (run ops Loader.init).nextAddr factory
        (logCall m (openRecord m (run ops Loader.init))) = (st2, some (Outcome.throws err))) :
    c (fuel + 1) m (run ops Loader.init) = (st2, some (Outcome.throws err)) ∧
    ∃ r, st2.cache m = some r ∧
      ∀ fuel2, c fuel2 m st2 = (st2, some (Outcome.returns r.exports)) := by
  have hi := RegistryInv_run ops Loader.init RegistryInv_init
  have hm' : (openRecord m (run ops Loader.init)).modules m = some factory := hm
  have h1 := openRecord_keeps m _ hi hc
  have h2 := runFactory_keeps (c fuel) (fun m st h => c_keeps fuel m st h) m
    (run ops Loader.init).nextAddr factory _ h1.1
  rw [hr] at h2
  constructor
  · simp only [c, hc, hm']
    rw [hr]
  · have hne : st2.cache m ≠ none := h2.2.1 m (by simp [openRecord, logCall])
    cases hr2 : st2.cache m with
    | none => exact absurd hr2 hne
    | some r => exact ⟨r, rfl, fun fuel2 => c_cached fuel2 m st2 r hr2⟩

/-- C8 on the factory of `failing`, which defines `x` and then throws `7`:
the exception reaches the caller, the container still has `x`, and a second
call returns the exports of the cached record. -/
theorem failed_factory_stays_cached_witness :
    (run [Op.push failing] Loader.init).cache "m" = none ∧
    (c 1 "m" (run [Op.push failing] Loader.init)).2 = some (Outcome.throws (Val.num 7)) ∧
    (c 1 "m" (run [Op.push failing] Loader.init)).1.heap 0 = [("x", Val.num 1)] ∧
    ∃ r, (c 1 "m" (run [Op.push failing] Loader.init)).1.cache "m" = some r ∧
      ∀ fuel2, c fuel2 "m" (c 1 "m" (run [Op.push failing] Loader.init)).1
        = ((c 1 "m" (run [Op.push failing] Loader.init)).1, some (Outcome.returns r.exports)) :=
  ⟨rfl, rfl, rfl,
   (failed_factory_stays_cached [Op.push failing] 0 "m"
      (Prog.define "x" (Val.num 1) (Prog.raise (Val.num 7))) (Val.num 7)
      (c 1 "m" (run [Op.push failing] Loader.init)).1 rfl rfl rfl).2⟩

/-! ## The chunk fetcher -/

theorem fetchView_registryFree : RegistryFree fetchView :=
  ⟨fun _ _ => rfl, fun _ _ => rfl, fun _ _ => rfl, fun _ _ => rfl⟩

theorem fetchView_queueFree : QueueFree fetchView :=
  ⟨fun _ _ => rfl, fun _ _ => rfl, fun _ _ => rfl⟩

theorem FetchInv_of_view (st st' : Loader) (h : fetchView st' = fetchView st)
    (hi : FetchInv st) : FetchInv st' := by
  simp only [fetchView, Prod.mk.injEq] at h
  obtain ⟨h1, h2, h3, h4, h5⟩ := h
  obtain ⟨a1, a2, a3, a4, a5⟩ := hi
  constructor
  · rw [h1]; exact a1
  · rw [h1, h2, h3]; exact a2
  · rw [h1]; exact a3
  · rw [h1, h4]; exact a4
  · rw [h4]; exact a5

theorem rejectPromise_installed (p : Nat) (err : LoadError) (st : Loader) :
    (rejectPromise p err st).installed = st.installed := by
  unfold rejectPromise
  split <;> rfl

theorem loadingEnded_installed (t : ChunkId) (ev : Event) (st : Loader) :
    (loadingEnded t ev st).installed = Function.update st.installed t (demote (st.installed t)) := by
  unfold loadingEnded
  split
  · rename_i h
    have := Function.update_eq_self t st.installed
    rw [h] at this ⊢
    exact this.symm
  · rename_i h
    have := Function.update_eq_self t st.installed
    rw [h] at this ⊢
    exact this.symm
  · rename_i h; rw [h]; rfl
  · rename_i p h
    rw [rejectPromise_installed, h]
    rfl

theorem demote_demote (s : Option Slot) : demote (demote s) = demote s := by
  cases s with
  | none => rfl
  | some x => cases x <;> rfl

theorem foldl_loadingEnded_installed (ev : Event) (ws : List ChunkId) (st : Loader)
    (k : ChunkId) :
    (ws.foldl (fun s t => loadingEnded t ev s) st).installed k
      = if k ∈ ws then demote (st.installed k) else st.installed k := by
  induction ws generalizing st with
  | nil => simp
  | cons j js ih =>
    simp only [List.foldl_cons]
    rw [ih, loadingEnded_installed]
    by_cases hkj : k = j
    · subst hkj
      simp only [Function.update_same, List.mem_cons, true_or, if_true, demote_demote]
      split <;> rfl
    · rw [Function.update_noteq hkj]
      simp [hkj]

theorem loadingEnded_outside (t : ChunkId) (ev : Event) (st : Loader) :
    outsideCallback (loadingEnded t ev st) = outsideCallback st := by
  unfold loadingEnded
  split
  · rfl
  · rfl
  · rfl
  · unfold rejectPromise
    split <;> rfl

theorem loadingEnded_promises_other (t : ChunkId) (ev : Event) (st : Loader) (p : Nat)
    (h : st.installed t ≠ some (Slot.pending p)) :
    (loadingEnded t ev st).promises p = st.promises p := by
  unfold loadingEnded
  split
  · rfl
  · rfl
  · rfl
  · rename_i q hq
    have hpq : p ≠ q := by
      rintro rfl
      exact h hq
    unfold rejectPromise
    split
    · show Function.update st.promises q _ p = _
      exact Function.update_noteq hpq _ _
    · rfl

theorem foldl_loadingEnded_promises_other (ev : Event) (ws : List ChunkId) (st : Loader)
    (p : Nat) (h : ∀ k ∈ ws, st.installed k ≠ some (Slot.pending p)) :
    (ws.foldl (fun s t => loadingEnded t ev s) st).promises p = st.promises p := by
  induction ws generalizing st with
  | nil => rfl
  | cons j js ih =>
    simp only [List.foldl_cons]
    rw [ih, loadingEnded_promises_other j ev st p (h j (List.mem_cons_self _ _))]
    intro k hk
    rw [loadingEnded_installed]
    by_cases hkj : k = j
    · subst hkj
      rw [Function.update_same]
      unfold demote
      split <;> simp_all
    · rw [Function.update_noteq hkj]
      exact h k (List.mem_cons_of_mem _ hk)

theorem loadingEnded_settled (t : ChunkId) (ev : Event) (st : Loader) (p : Nat)
    (h : st.promises p ≠ Settled.waiting) :
    (loadingEnded t ev st).promises p = st.promises p := by
  unfold loadingEnded
  split
  · rfl
  · rfl
  · rfl
  · rename_i q hq
    unfold rejectPromise
    split
    · rename_i hw
      show Function.update st.promises q _ p = _
      have hpq : p ≠ q := by
        rintro rfl
        exact h hw
      exact Function.update_noteq hpq _ _
    · rfl

theorem foldl_loadingEnded_settled (ev : Event) (ws : List ChunkId) (st : Loader) (p : Nat)
    (h : st.promises p ≠ Settled.waiting) :
    (ws.foldl (fun s t => loadingEnded t ev s) st).promises p = st.promises p := by
  induction ws generalizing st with
  | nil => rfl
  | cons j js ih =>
    simp only [List.foldl_cons]
    have h1 := loadingEnded_settled j ev st p h
    rw [ih _ (h1 ▸ h), h1]

theorem loadingEnded_rejects (k : ChunkId) (ev : Event) (st : Loader) (p : Nat)
    (hk : st.installed k = some (Slot.pending p)) (hp : st.promises p = Settled.waiting) :
    (loadingEnded k ev st).promises p = Settled.rejected (chunkLoadError k ev) := by
  unfold loadingEnded
  rw [hk]
  simp only
  unfold rejectPromise
  simp only [hp]
  show Function.update st.promises p _ p = _
  exact Function.update_same _ _ _

theorem foldl_loadingEnded_rejects (ev : Event) (ws : List ChunkId) (st : Loader)
    (k : ChunkId) (p : Nat)
    (hd : ∀ j, st.installed j = some (Slot.pending p) → j = k)
    (hk : st.installed k = some (Slot.pending p)) (hp : st.promises p = Settled.waiting)
    (hw : k ∈ ws) :
    (ws.foldl (fun s t => loadingEnded t ev s) st).promises p
      = Settled.rejected (chunkLoadError k ev) := by
  induction ws generalizing st with
  | nil => simp at hw
  | cons j js ih =>
    simp only [List.foldl_cons]
    by_cases hjk : j = k
    · subst hjk
      have h1 := loadingEnded_rejects j ev st p hk hp
      rw [foldl_loadingEnded_settled ev js _ p (by rw [h1]; simp), h1]
    · have hw' : k ∈ js := by
        rcases List.mem_cons.1 hw with h | h
        · exact absurd h.symm hjk
        · exact h
      have hne : st.installed j ≠ some (Slot.pending p) := fun h => hjk (hd j h)
      apply ih _ _ _ _ hw'
      · intro i hi
        rw [loadingEnded_installed] at hi
        by_cases hij : i = j
        · subst hij
          rw [Function.update_same] at hi
          unfold demote at hi
          split at hi
          · cases hi
          · exact hd i hi
        · rw [Function.update_noteq hij] at hi
          exact hd i hi
      · rw [loadingEnded_installed, Function.update_noteq (Ne.symm hjk)]
        exact hk
      · rw [loadingEnded_promises_other j ev st p hne]
        exact hp

theorem markReady_outside (st : Loader) (o : ChunkId) :
    outsideCallback (markReady st o) = outsideCallback st := by
  unfold markReady
  split
  · unfold resolvePromise
    split <;> rfl
  · rfl

theorem markReady_promises_other (st : Loader) (o : ChunkId) (p : Nat)
    (h : st.installed o ≠ some (Slot.pending p)) :
    (markReady st o).promises p = st.promises p := by
  unfold markReady
  split
  · rename_i q hq
    have hpq : p ≠ q := by
      rintro rfl
      exact h hq
    unfold resolvePromise
    split
    · show Function.update st.promises q _ p = _
      exact Function.update_noteq hpq _ _
    · rfl
  · rfl

theorem outside_fields {st st' : Loader} (h : outsideCallback st' = outsideCallback st) :
    st'.nextPromise = st.nextPromise ∧ st'.inflight = st.inflight ∧
    st'.document = st.document ∧ st'.requests = st.requests := by
  simpa [outsideCallback] using h

theorem FetchInv_markReady (st : Loader) (o : ChunkId) (hi : FetchInv st) :
    FetchInv (markReady st o) := by
  obtain ⟨h1, h2, h3, _⟩ := outside_fields (markReady_outside st o)
  have hin := markReady_installed st o
  have hpend : ∀ k p, (markReady st o).installed k = some (Slot.pending p) →
      k ≠ o ∧ st.installed k = some (Slot.pending p) := by
    intro k p hk
    rw [hin] at hk
    rcases assign_pending _ _ _ _ _ hk with ⟨_, h⟩ | h
    · cases h
    · exact h
  constructor
  · rw [hin]
    exact ⟨assign_keeps_ready _ _ _ hi.builtin.1, assign_keeps_ready _ _ _ hi.builtin.2⟩
  · intro k p hk
    obtain ⟨hko, hk'⟩ := hpend k p hk
    rw [h1]
    refine ⟨(hi.fresh k p hk').1, ?_⟩
    rw [markReady_promises_other st o p (fun h => hko (hi.distinct k o p hk' h))]
    exact (hi.fresh k p hk').2
  · intro k k' p hk hk'
    exact hi.distinct k k' p (hpend k p hk).2 (hpend k' p hk').2
  · intro k p hk
    rw [h2]
    exact hi.loading k p (hpend k p hk).2
  · rw [h2]; exact hi.urls

theorem FetchInv_foldl_markReady (ids : List ChunkId) (st : Loader) (hi : FetchInv st) :
    FetchInv (ids.foldl markReady st) := by
  induction ids generalizing st with
  | nil => exact hi
  | cons o os ih => exact ih _ (FetchInv_markReady st o hi)

theorem mergeModules_fetchView (f : List (ModId × Prog)) (st : Loader) :
    fetchView (mergeModules f st) = fetchView st := by
  unfold mergeModules
  apply foldl_view fetchView
  intro s kv
  rfl

theorem FetchInv_pushCallback (parent : Bool) (d : ChunkDef) (st : Loader) (hi : FetchInv st) :
    FetchInv (pushCallback parent d st).1 := by
  unfold pushCallback
  simp only
  have h1 : FetchInv (if d.chunkIds.any (fun t => !decide (st.slot t = Slot.ready)) = true
      then mergeModules d.moreModules st else st) := by
    split
    · exact FetchInv_of_view _ _ (mergeModules_fetchView _ _) hi
    · exact hi
  split
  · exact h1
  · apply FetchInv_of_view _ _ (flush_view fetchView fetchView_queueFree _ _)
    apply FetchInv_foldl_markReady
    split
    · refine FetchInv_of_view _ _ ?_ h1
      rfl
    · exact h1

theorem string_append_cancel (a x y : String) (h : a ++ x = a ++ y) : x = y := by
  have h1 := congrArg String.data h
  simp only [String.data_append] at h1
  exact String.ext (List.append_cancel_left h1)

theorem chunk_key_injective (j k : ChunkId)
    (h : dataWebpackPrefix ++ ("chunk-" ++ j) = dataWebpackPrefix ++ ("chunk-" ++ k)) : j = k :=
  string_append_cancel _ _ _ (string_append_cancel _ _ _ h)

theorem findScript_src (k : ChunkId) (resolve : String → String) (doc0 doc : List ScriptEl)
    (b : ScriptEl) (hd : ∀ s ∈ doc, s ∈ doc0 ∨ ∃ j, s = createdScript resolve j)
    (h : findScript (c.p ++ c.u k) ("chunk-" ++ k) doc = some b) :
    b ∈ doc0 ∨ b.src = resolve (c.p ++ c.u k) := by
  unfold findScript at h
  have hm := List.mem_of_find?_eq_some h
  have hp := List.find?_some h
  simp only [Bool.or_eq_true, decide_eq_true_eq] at hp
  rcases hd b hm with h0 | ⟨j, rfl⟩
  · exact Or.inl h0
  · right
    rcases hp with hp | hp
    · have hjk : c.p ++ c.u j = c.p ++ c.u k := Option.some.inj hp
      show resolve (c.p ++ c.u j) = _
      rw [hjk]
    · have hjk := chunk_key_injective j k (Option.some.inj hp)
      subst hjk
      rfl

theorem c_l_spec (k : ChunkId) (st : Loader)
    (hu : (st.inflight.map Fetch.url).Nodup) :
    (c.l (c.p ++ c.u k) k ("chunk-" ++ k) st).installed = st.installed ∧
    (c.l (c.p ++ c.u k) k ("chunk-" ++ k) st).promises = st.promises ∧
    (c.l (c.p ++ c.u k) k ("chunk-" ++ k) st).nextPromise = st.nextPromise ∧
    ((c.l (c.p ++ c.u k) k ("chunk-" ++ k) st).inflight.map Fetch.url).Nodup ∧
    (∀ f ∈ st.inflight, ∃ f' ∈ (c.l (c.p ++ c.u k) k ("chunk-" ++ k) st).inflight,
      f'.url = f.url ∧ ∀ w ∈ f.waiters, w ∈ f'.waiters) ∧
    (∃ f' ∈ (c.l (c.p ++ c.u k) k ("chunk-" ++ k) st).inflight,
      f'.url = c.p ++ c.u k ∧ k ∈ f'.waiters) := by
  unfold c.l
  simp only
  split
  · rename_i hany
    refine ⟨rfl, rfl, rfl, ?_, ?_, ?_⟩
    · show (List.map Fetch.url (List.map _ st.inflight)).Nodup
      rw [List.map_map]
      have : (Fetch.url ∘ fun x : Fetch =>
          if x.url = c.p ++ c.u k then { x with waiters := x.waiters ++ [k] } else x)
          = Fetch.url := by
        funext x
        simp only [Function.comp]
        split <;> rfl
      rw [this]
      exact hu
    · intro f hf
      refine ⟨_, List.mem_map_of_mem _ hf, ?_⟩
      split
      · exact ⟨rfl, fun w hw => List.mem_append_left _ hw⟩
      · exact ⟨rfl, fun w hw => hw⟩
    · rw [List.any_eq_true] at hany
      obtain ⟨g, hg, hgu⟩ := hany
      have hgu' : g.url = c.p ++ c.u k := by simpa using hgu
      refine ⟨_, List.mem_map_of_mem _ hg, ?_⟩
      rw [if_pos hgu']
      exact ⟨hgu', by simp⟩
  · rename_i hany
    have hnew : c.p ++ c.u k ∉ st.inflight.map Fetch.url := by
      intro hin
      obtain ⟨g, hg, hgu⟩ := List.mem_map.1 hin
      apply hany
      rw [List.any_eq_true]
      exact ⟨g, hg, by simpa using hgu⟩
    have hnd : ∀ b : ScriptEl,
        ((st.inflight ++ [Fetch.mk (c.p ++ c.u k) [k] b]).map Fetch.url).Nodup := by
      intro b
      rw [List.map_append]
      refine List.nodup_append.2 ⟨hu, by simp, ?_⟩
      intro a ha hb
      simp only [List.map_cons, List.map_nil, List.mem_singleton] at hb
      subst hb
      exact hnew ha
    have hold : ∀ b : ScriptEl, ∀ f ∈ st.inflight,
        ∃ f' ∈ st.inflight ++ [Fetch.mk (c.p ++ c.u k) [k] b],
          f'.url = f.url ∧ ∀ w ∈ f.waiters, w ∈ f'.waiters :=
      fun b f hf => ⟨f, List.mem_append_left _ hf, rfl, fun w hw => hw⟩
    have hk : ∀ b : ScriptEl, ∃ f' ∈ st.inflight ++ [Fetch.mk (c.p ++ c.u k) [k] b],
        f'.url = c.p ++ c.u k ∧ k ∈ f'.waiters :=
      fun b => ⟨_, List.mem_append_right _ (List.mem_singleton_self _), rfl, by simp⟩
    split
    · exact ⟨rfl, rfl, rfl, hnd _, hold _, hk _⟩
    · exact ⟨rfl, rfl, rfl, hnd _, hold _, hk _⟩

theorem c_l_scripts (doc0 : List ScriptEl) (k : ChunkId) (st : Loader)
    (hs : ScriptInv doc0 st) :
    ScriptInv doc0 (c.l (c.p ++ c.u k) k ("chunk-" ++ k) st) := by
  obtain ⟨hsrc, hdoc⟩ := hs
  unfold c.l
  simp only
  split
  · refine ⟨?_, hdoc⟩
    intro f hf
    obtain ⟨g, hg, rfl⟩ := List.mem_map.1 hf
    split
    · exact hsrc g hg
    · exact hsrc g hg
  · split
    · rename_i b hb
      refine ⟨?_, hdoc⟩
      intro f hf
      rcases List.mem_append.1 hf with hf | hf
      · exact hsrc f hf
      · rw [List.mem_singleton] at hf
        subst hf
        exact findScript_src k st.resolve doc0 st.document b hdoc hb
    · refine ⟨?_, ?_⟩
      · intro f hf
        rcases List.mem_append.1 hf with hf | hf
        · exact hsrc f hf
        · rw [List.mem_singleton] at hf
          subst hf
          exact Or.inr rfl
      · intro s hsIn
        rcases List.mem_append.1 hsIn with h | h
        · exact hdoc s h
        · rw [List.mem_singleton] at h
          exact Or.inr ⟨k, h⟩

theorem slot_undef_cases (st : Loader) (k : ChunkId) (h : st.slot k = Slot.undef) :
    st.installed k = none ∨ st.installed k = some Slot.undef := by
  unfold Loader.slot at h
  cases hk : st.installed k with
  | none => exact Or.inl rfl
  | some s =>
    rw [hk] at h
    simp only [Option.getD_some] at h
    subst h
    exact Or.inr rfl

theorem FetchInv_c_f_j (k : ChunkId) (r : List Nat) (st : Loader) (hi : FetchInv st) :
    FetchInv (c.f.j k r st).2 := by
  unfold c.f.j
  split
  · exact hi
  · exact hi
  · rename_i hslot
    have hnp : ∀ p, st.installed k ≠ some (Slot.pending p) := by
      intro p hp
      rcases slot_undef_cases st k hslot with h | h <;> rw [h] at hp <;> cases hp
    split
    · rename_i hb
      exfalso
      rcases hb with rfl | rfl
      · have := hi.builtin.1
        rcases slot_undef_cases st _ hslot with h | h <;> rw [h] at this <;> cases this
      · have := hi.builtin.2
        rcases slot_undef_cases st _ hslot with h | h <;> rw [h] at this <;> cases this
    · rename_i hb
      simp only [not_or] at hb
      have hpend : ∀ j q, assign st.installed k (Slot.pending st.nextPromise) j
          = some (Slot.pending q) →
          (j = k ∧ q = st.nextPromise) ∨ (j ≠ k ∧ st.installed j = some (Slot.pending q)) := by
        intro j q h
        rcases assign_pending _ _ _ _ _ h with ⟨h1, h2⟩ | h1
        · exact Or.inl ⟨h1, (Slot.pending.inj h2).symm⟩
        · exact Or.inr h1
      obtain ⟨e1, e2, e3, e4, e7, e8⟩ := c_l_spec k (makePromise k st) hi.urls
      have e1 : (c.l (c.p ++ c.u k) k ("chunk-" ++ k) (makePromise k st)).installed
          = assign st.installed k (Slot.pending st.nextPromise) := e1
      have e2 : (c.l (c.p ++ c.u k) k ("chunk-" ++ k) (makePromise k st)).promises
          = Function.update st.promises st.nextPromise Settled.waiting := e2
      have e3 : (c.l (c.p ++ c.u k) k ("chunk-" ++ k) (makePromise k st)).nextPromise
          = st.nextPromise + 1 := e3
      constructor
      · rw [e1]
        exact ⟨by rw [assign_ne _ _ _ _ (Ne.symm hb.1)]; exact hi.builtin.1,
          by rw [assign_ne _ _ _ _ (Ne.symm hb.2)]; exact hi.builtin.2⟩
      · intro j q hj
        rw [e1] at hj
        rw [e2, e3]
        rcases hpend j q hj with ⟨rfl, rfl⟩ | ⟨_, hj'⟩
        · exact ⟨Nat.lt_succ_self _, Function.update_same _ _ _⟩
        · have := hi.fresh j q hj'
          refine ⟨Nat.lt_succ_of_lt this.1, ?_⟩
          rw [Function.update_noteq (Nat.ne_of_lt this.1)]
          exact this.2
      · intro j j' q hj hj'
        rw [e1] at hj hj'
        rcases hpend j q hj with ⟨rfl, rfl⟩ | ⟨_, h1⟩
        · rcases hpend j' _ hj' with ⟨rfl, _⟩ | ⟨_, h2⟩
          · rfl
          · exact absurd (hi.fresh j' _ h2).1 (Nat.lt_irrefl _)
        · rcases hpend j' q hj' with ⟨rfl, rfl⟩ | ⟨_, h2⟩
          · exact absurd (hi.fresh j _ h1).1 (Nat.lt_irrefl _)
          · exact hi.distinct j j' q h1 h2
      · intro j q hj
        rw [e1] at hj
        rcases hpend j q hj with ⟨rfl, rfl⟩ | ⟨_, h1⟩
        · exact e8
        · obtain ⟨f, hf, hfu, hfw⟩ := hi.loading j q h1
          obtain ⟨f', hf', hu', hw'⟩ := e7 f hf
          exact ⟨f', hf', hu'.trans hfu, hw' j hfw⟩
      · exact e4

theorem find_unique (l : List Fetch) (url : String) (x f : Fetch)
    (hu : (l.map Fetch.url).Nodup)
    (hx : l.find? (fun y => decide (y.url = url)) = some x) (hf : f ∈ l) (hfu : f.url = url) :
    f = x := by
  have hxm := List.mem_of_find?_eq_some hx
  have hxu : x.url = url := by simpa using List.find?_some hx
  exact List.inj_on_of_nodup_map hu hf hxm (hfu.trans hxu.symm)

theorem foldl_loadingEnded_outside (ev : Event) (ws : List ChunkId) (st : Loader) :
    outsideCallback (ws.foldl (fun s t => loadingEnded t ev s) st) = outsideCallback st :=
  foldl_view outsideCallback _ (fun s t => loadingEnded_outside t ev s) ws st

theorem demote_pending (s : Option Slot) (p : Nat) (h : demote s = some (Slot.pending p)) :
    False := by
  cases s with
  | none => cases h
  | some x => cases x <;> cases h

theorem FetchInv_scriptDone (url type : String) (st : Loader) (hi : FetchInv st) :
    FetchInv (scriptDone url type st) := by
  unfold scriptDone
  split
  · exact hi
  · rename_i x hx
    obtain ⟨h1, h2, h3, _⟩ := outside_fields (foldl_loadingEnded_outside
      (Event.mk type x.script) x.waiters (detach url x st))
    have h2 : (List.foldl (fun s t => loadingEnded t (Event.mk type x.script) s)
        (detach url x st) x.waiters).inflight
        = st.inflight.filter (fun y => !decide (y.url = url)) := h2
    have h3 : (List.foldl (fun s t => loadingEnded t (Event.mk type x.script) s)
        (detach url x st) x.waiters).document = st.document.erase x.script := h3
    have h1 : (List.foldl (fun s t => loadingEnded t (Event.mk type x.script) s)
        (detach url x st) x.waiters).nextPromise = st.nextPromise := h1
    have hin : ∀ k, (List.foldl (fun s t => loadingEnded t (Event.mk type x.script) s)
        (detach url x st) x.waiters).installed k
        = if k ∈ x.waiters then demote (st.installed k) else st.installed k :=
      fun k => foldl_loadingEnded_installed _ _ _ k
    have hpend : ∀ k p, (List.foldl (fun s t => loadingEnded t (Event.mk type x.script) s)
        (detach url x st) x.waiters).installed k
        = some (Slot.pending p) → k ∉ x.waiters ∧ st.installed k = some (Slot.pending p) := by
      intro k p hk
      rw [hin] at hk
      by_cases hw : k ∈ x.waiters
      · rw [if_pos hw] at hk
        exact absurd hk (fun h => demote_pending _ _ h)
      · rw [if_neg hw] at hk
        exact ⟨hw, hk⟩
    constructor
    · rw [hin, hin]
      constructor
      · split
        · rw [hi.builtin.1]; rfl
        · exact hi.builtin.1
      · split
        · rw [hi.builtin.2]; rfl
        · exact hi.builtin.2
    · intro k p hk
      obtain ⟨hw, hk'⟩ := hpend k p hk
      rw [h1]
      refine ⟨(hi.fresh k p hk').1, ?_⟩
      rw [foldl_loadingEnded_promises_other _ _ (detach url x st)]
      · exact (hi.fresh k p hk').2
      · intro j hj hjp
        exact hw (hi.distinct j k p hjp hk' ▸ hj)
    · intro k k' p hk hk'
      exact hi.distinct k k' p (hpend k p hk).2 (hpend k' p hk').2
    · intro k p hk
      obtain ⟨hw, hk'⟩ := hpend k p hk
      obtain ⟨f, hf, hfu, hfw⟩ := hi.loading k p hk'
      rw [h2]
      refine ⟨f, List.mem_filter.2 ⟨hf, ?_⟩, hfu, hfw⟩
      simp only [Bool.not_eq_true', decide_eq_false_iff_not]
      intro hurl
      have := find_unique st.inflight url x f hi.urls hx hf hurl
      subst this
      exact hw hfw
    · rw [h2]
      exact (List.Sublist.map _ (List.filter_sublist _)).nodup hi.urls

theorem FetchInv_step (st : Loader) (op : Op) (hi : FetchInv st) : FetchInv (step st op) := by
  cases op with
  | require fuel m => exact FetchInv_of_view _ _ (c_view fetchView fetchView_registryFree _ _ _) hi
  | register r a o =>
    exact FetchInv_of_view _ _ (register_view fetchView fetchView_queueFree r a o st) hi
  | flush t => exact FetchInv_of_view _ _ (flush_view fetchView fetchView_queueFree t st) hi
  | addPredicate p =>
    refine FetchInv_of_view _ _ ?_ hi
    rfl
  | ensure k => exact FetchInv_c_f_j k [] st hi
  | scriptEvent url type => exact FetchInv_scriptDone url type st hi
  | push d => exact FetchInv_pushCallback true d st hi
  | drain d => exact FetchInv_pushCallback false d st hi

theorem FetchInv_boot (doc : List ScriptEl) (resolve : String → String) :
    FetchInv (Loader.boot doc resolve) := by
  constructor
  · exact ⟨rfl, rfl⟩
  · intro k p h
    simp only [Loader.boot, Loader.init] at h
    split at h <;> cases h
  · intro k k' p h
    simp only [Loader.boot, Loader.init] at h
    split at h <;> cases h
  · intro k p h
    simp only [Loader.boot, Loader.init] at h
    split at h <;> cases h
  · exact List.nodup_nil

theorem FetchInv_init : FetchInv Loader.init :=
  FetchInv_boot [] (fun u => u)

theorem FetchInv_run (ops : List Op) (st : Loader) (hi : FetchInv st) : FetchInv (run ops st) := by
  induction ops generalizing st with
  | nil => exact hi
  | cons op ops ih => exact ih _ (FetchInv_step st op hi)

theorem scriptView_registryFree : RegistryFree scriptView :=
  ⟨fun _ _ => rfl, fun _ _ => rfl, fun _ _ => rfl, fun _ _ => rfl⟩

theorem scriptView_queueFree : QueueFree scriptView :=
  ⟨fun _ _ => rfl, fun _ _ => rfl, fun _ _ => rfl⟩

theorem ScriptInv_of_view (doc0 : List ScriptEl) (st st' : Loader)
    (h : scriptView st' = scriptView st) (hi : ScriptInv doc0 st) : ScriptInv doc0 st' := by
  simp only [scriptView, Prod.mk.injEq] at h
  obtain ⟨h1, h2, h3⟩ := h
  obtain ⟨a1, a2⟩ := hi
  constructor
  · rw [h1, h3]; exact a1
  · rw [h2, h3]; exact a2

theorem markReady_scriptView (st : Loader) (o : ChunkId) :
    scriptView (markReady st o) = scriptView st := by
  unfold markReady
  split
  · unfold resolvePromise
    split <;> rfl
  · rfl

theorem loadingEnded_scriptView (t : ChunkId) (ev : Event) (st : Loader) :
    scriptView (loadingEnded t ev st) = scriptView st := by
  unfold loadingEnded
  split
  · rfl
  · rfl
  · rfl
  · unfold rejectPromise
    split <;> rfl

theorem pushCallback_scriptView (parent : Bool) (d : ChunkDef) (st : Loader) :
    scriptView (pushCallback parent d st).1 = scriptView st := by
  unfold pushCallback
  simp only
  have h1 : scriptView (if d.chunkIds.any (fun t => !decide (st.slot t = Slot.ready)) = true
      then mergeModules d.moreModules st else st) = scriptView st := by
    split
    · unfold mergeModules
      apply foldl_view scriptView
      intro s kv
      rfl
    · rfl
  split
  · exact h1
  · rw [flush_view scriptView scriptView_queueFree,
      foldl_view scriptView markReady markReady_scriptView]
    split
    · exact h1
    · exact h1

theorem ScriptInv_c_f_j (doc0 : List ScriptEl) (k : ChunkId) (r : List Nat) (st : Loader)
    (hi : ScriptInv doc0 st) : ScriptInv doc0 (c.f.j k r st).2 := by
  unfold c.f.j
  split
  · exact hi
  · exact hi
  · split
    · refine ScriptInv_of_view doc0 _ _ ?_ hi
      rfl
    · apply c_l_scripts
      refine ScriptInv_of_view doc0 _ _ ?_ hi
      rfl

theorem ScriptInv_scriptDone (doc0 : List ScriptEl) (url type : String) (st : Loader)
    (hi : ScriptInv doc0 st) : ScriptInv doc0 (scriptDone url type st) := by
  unfold scriptDone
  split
  · exact hi
  · rename_i x hx
    refine ScriptInv_of_view doc0 (detach url x st) _
      (foldl_view scriptView _ (fun s t => loadingEnded_scriptView t _ s) _ _) ?_
    exact ⟨fun f hf => hi.srcs f (List.mem_filter.1 hf).1,
      fun s hs => hi.scripts s (List.mem_of_mem_erase hs)⟩

theorem ScriptInv_step (doc0 : List ScriptEl) (st : Loader) (op : Op)
    (hi : ScriptInv doc0 st) : ScriptInv doc0 (step st op) := by
  cases op with
  | require fuel m =>
    exact ScriptInv_of_view doc0 _ _ (c_view scriptView scriptView_registryFree _ _ _) hi
  | register r a o =>
    exact ScriptInv_of_view doc0 _ _ (register_view scriptView scriptView_queueFree r a o st) hi
  | flush t =>
    exact ScriptInv_of_view doc0 _ _ (flush_view scriptView scriptView_queueFree t st) hi
  | addPredicate p =>
    refine ScriptInv_of_view doc0 _ _ ?_ hi
    rfl
  | ensure k => exact ScriptInv_c_f_j doc0 k [] st hi
  | scriptEvent url type => exact ScriptInv_scriptDone doc0 url type st hi
  | push d => exact ScriptInv_of_view doc0 _ _ (pushCallback_scriptView true d st) hi
  | drain d => exact ScriptInv_of_view doc0 _ _ (pushCallback_scriptView false d st) hi

theorem ScriptInv_boot (doc : List ScriptEl) (resolve : String → String) :
    ScriptInv doc (Loader.boot doc resolve) :=
  ⟨fun _ hf => absurd hf (List.not_mem_nil _), fun _ hs => Or.inl hs⟩

theorem ScriptInv_run (doc0 : List ScriptEl) (ops : List Op) (st : Loader)
    (hi : ScriptInv doc0 st) : ScriptInv doc0 (run ops st) := by
  induction ops generalizing st with
  | nil => exact hi
  | cons op ops ih => exact ih _ (ScriptInv_step doc0 st op hi)

theorem step_resolve (st : Loader) (op : Op) : (step st op).resolve = st.resolve := by
  cases op with
  | require fuel m =>
    exact c_view (fun s => s.resolve)
      ⟨fun _ _ => rfl, fun _ _ => rfl, fun _ _ => rfl, fun _ _ => rfl⟩ fuel m st
  | register r a o => rfl
  | flush t => rfl
  | addPredicate p => rfl
  | ensure k =>
    exact c_f_j_view (fun s => s.resolve)
      ⟨fun _ _ => rfl, fun _ _ => rfl, fun _ _ => rfl, fun _ _ => rfl, fun _ _ => rfl,
       fun _ _ => rfl, fun _ _ => rfl, fun _ _ => rfl⟩ k [] st
  | scriptEvent url type =>
    exact scriptDone_view (fun s => s.resolve)
      ⟨fun _ _ => rfl, fun _ _ => rfl, fun _ _ => rfl, fun _ _ => rfl, fun _ _ => rfl,
       fun _ _ => rfl, fun _ _ => rfl, fun _ _ => rfl⟩ url type st
  | push d => exact congrArg (fun v => v.2.2) (pushCallback_scriptView true d st)
  | drain d => exact congrArg (fun v => v.2.2) (pushCallback_scriptView false d st)

theorem run_resolve (ops : List Op) (st : Loader) : (run ops st).resolve = st.resolve := by
  induction ops generalizing st with
  | nil => rfl
  | cons op ops ih => exact (ih _).trans (step_resolve st op)

theorem slot_pending_iff (st : Loader) (k : ChunkId) (p : Nat) :
    st.slot k = Slot.pending p ↔ st.installed k = some (Slot.pending p) := by
  unfold Loader.slot
  cases st.installed k with
  | none => simp
  | some s => simp

theorem c_e_ready (st : Loader) (k : ChunkId) (h : st.slot k = Slot.ready) :
    c.e k st = ([], st) := by
  unfold c.e c.f.j
  rw [h]

theorem c_e_pending (st : Loader) (k : ChunkId) (p : Nat) (h : st.slot k = Slot.pending p) :
    c.e k st = ([p], st) := by
  unfold c.e c.f.j
  rw [h]
  rfl

theorem c_l_requests (url : String) (k : ChunkId) (key : String) (st : Loader) :
    (c.l url k key st).requests = st.requests ++ [LoadReq.mk url key k] := by
  unfold c.l
  simp only
  split
  · rfl
  · split <;> rfl

theorem c_e_unrequested (st : Loader) (hi : FetchInv st) (k : ChunkId)
    (h : st.slot k = Slot.undef) :
    c.e k st = ([st.nextPromise], c.l (c.p ++ c.u k) k ("chunk-" ++ k) (makePromise k st)) := by
  have hb : ¬ (k = "354" ∨ k = "869") := by
    rintro (rfl | rfl)
    · have := hi.builtin.1
      rcases slot_undef_cases st _ h with h' | h' <;> rw [h'] at this <;> cases this
    · have := hi.builtin.2
      rcases slot_undef_cases st _ h with h' | h' <;> rw [h'] at this <;> cases this
  unfold c.e c.f.j
  rw [h]
  simp only [hb, if_false, List.nil_append]

/-- C4, as stated, fails for the chunk id `__proto__`: the assignment
`e[t]=[r,o]` stores nothing under that key, so after `c.e("__proto__")` the
chunk is still unrequested, and a second call, made before any load ended,
hands out another promise (`1`, not `0`) and calls the script loader `c.l` a
second time. -/
theorem ensure_proto_loads_again :
    Loader.init.slot "__proto__" = Slot.undef ∧
    (c.e "__proto__" Loader.init).1 = [0] ∧
    (c.e "__proto__" Loader.init).2.slot "__proto__" = Slot.undef ∧
    (c.e "__proto__" (c.e "__proto__" Loader.init).2).1 = [1] ∧
    (c.e "__proto__" (c.e "__proto__" Loader.init).2).2.requests
      = [LoadReq.mk (c.p ++ c.u "__proto__") "chunk-__proto__" "__proto__",
         LoadReq.mk (c.p ++ c.u "__proto__") "chunk-__proto__" "__proto__"] := by
  decide

/-- C4, amended: let `k` be a chunk id other than `__proto__`.  In every state
that a sequence of calls leads to, whatever script elements the document held
at the start, `c.e(k)` calls the script loader `c.l` (it issues a load)
exactly when `k` is unrequested (no entry, or `undefined`): then it calls
`c.l` once, with the path `c.p+c.u(k)`, makes a fresh unsettled promise,
stores it under `k` and hands it out, and the load is in progress under that
path with the callback of `k` on it.  When `k` is being loaded it hands out the
promise stored under `k` and changes nothing, so no load is issued; when `k`
is loaded it hands out nothing and changes nothing.  Hence after a first
`c.e(k)` on an unrequested `k` every further `c.e(k)` hands out the promise of
the first call and leaves the state of the first call as it is: one load for
any number of calls.  (The caller receives `Promise.all` of what is handed
out.) -/
theorem ensure_loads_once (doc : List ScriptEl) (resolve : String → String) (ops : List Op)
    (k : ChunkId) (hk : k ≠ "__proto__") :
    ((run ops (Loader.boot doc resolve)).slot k = Slot.undef →
      (c.e k (run ops (Loader.boot doc resolve))).1
        = [(run ops (Loader.boot doc resolve)).nextPromise] ∧
      (c.e k (run ops (Loader.boot doc resolve))).2.requests
        = (run ops (Loader.boot doc resolve)).requests
            ++ [LoadReq.mk (c.p ++ c.u k) ("chunk-" ++ k) k] ∧
      (c.e k (run ops (Loader.boot doc resolve))).2.slot k
        = Slot.pending (run ops (Loader.boot doc resolve)).nextPromise ∧
      (c.e k (run ops (Loader.boot doc resolve))).2.promises
          (run ops (Loader.boot doc resolve)).nextPromise
        = Settled.waiting ∧
      (∃ f ∈ (c.e k (run ops (Loader.boot doc resolve))).2.inflight,
        f.url = c.p ++ c.u k ∧ k ∈ f.waiters) ∧
      ∀ n, c.e k ((fun s => (c.e k s).2)^[n] (c.e k (run ops (Loader.boot doc resolve))).2)
        = ([(run ops (Loader.boot doc resolve)).nextPromise],
           (c.e k (run ops (Loader.boot doc resolve))).2)) ∧
    (∀ p, (run ops (Loader.boot doc resolve)).slot k = Slot.pending p →
      c.e k (run ops (Loader.boot doc resolve)) = ([p], run ops (Loader.boot doc resolve))) ∧
    ((run ops (Loader.boot doc resolve)).slot k = Slot.ready →
      c.e k (run ops (Loader.boot doc resolve)) = ([], run ops (Loader.boot doc resolve))) := by
  have hi := FetchInv_run ops (Loader.boot doc resolve) (FetchInv_boot doc resolve)
  refine ⟨?_, fun p h => c_e_pending _ k p h, fun h => c_e_ready _ k h⟩
  intro h
  have he := c_e_unrequested _ hi k h
  obtain ⟨e1, e2, _, _, _, e8⟩ :=
    c_l_spec k (makePromise k (run ops (Loader.boot doc resolve))) hi.urls
  have hs : (c.e k (run ops (Loader.boot doc resolve))).2.slot k
      = Slot.pending (run ops (Loader.boot doc resolve)).nextPromise := by
    rw [he, slot_pending_iff]
    show (c.l _ _ _ _).installed k = _
    rw [e1]
    show assign _ k _ k = _
    rw [assign_apply, if_pos ⟨rfl, fun hc => hk hc.1⟩]
  refine ⟨by rw [he], ?_, hs, ?_, ?_, ?_⟩
  · rw [he]
    exact c_l_requests _ _ _ _
  · rw [he]
    show (c.l _ _ _ _).promises _ = _
    rw [e2]
    exact Function.update_same _ _ _
  · rw [he]
    exact e8
  · intro n
    have hfix : ∀ n, (fun s => (c.e k s).2)^[n] (c.e k (run ops (Loader.boot doc resolve))).2
        = (c.e k (run ops (Loader.boot doc resolve))).2 := by
      intro n
      induction n with
      | zero => rfl
      | succ n ih =>
        rw [Function.iterate_succ_apply', ih, c_e_pending _ k _ hs]
    rw [hfix n]
    exact c_e_pending _ k _ hs

/-- C4 amended, on the initial tables: three calls `c.e("48")` in a row hand
out promise `0` and leave the one load of the first call. -/
theorem ensure_loads_once_witness :
    "48" ≠ "__proto__" ∧
    (Loader.boot [] (fun u => u)).slot "48" = Slot.undef ∧
    c.e "48" ((fun s => (c.e "48" s).2)^[1] (c.e "48" (Loader.boot [] (fun u => u))).2)
      = ([0], (c.e "48" (Loader.boot [] (fun u => u))).2) ∧
    (c.e "48" (Loader.boot [] (fun u => u))).2.requests
      = [LoadReq.mk "/assets/js/a94703ab.28528155.js" "chunk-48" "48"] :=
  ⟨by decide, by decide,
   ((ensure_loads_once [] (fun u => u) [] "48" (by decide)).1 (by decide)).2.2.2.2.2 1,
   by decide⟩

/-- C5, as stated, fails in two ways.  In the document of `preloaded`, which
holds a script element with the `data-webpack` key of chunk `48` and the
address `/preload.js`, `c.l` takes that element over, and when it fails the
promise of chunk `48` is rejected with `/preload.js` as request, not with the
path `/assets/js/a94703ab.28528155.js` that was asked for.  In the document of
`resolving`, which reports addresses in full, the request is the full address
of the script, not the path. -/
theorem failed_load_reports_script_src :
    c.p ++ c.u "48" = "/assets/js/a94703ab.28528155.js" ∧
    (run [Op.ensure "48"] preloaded).slot "48" = Slot.pending 0 ∧
    (scriptDone (c.p ++ c.u "48") "error" (run [Op.ensure "48"] preloaded)).promises 0
      = Settled.rejected
          { message := "Loading chunk 48 failed.\n(error: /preload.js)"
            name := "ChunkLoadError"
            type := "error"
            request := "/preload.js" } ∧
    (run [Op.ensure "48"] resolving).slot "48" = Slot.pending 0 ∧
    (scriptDone (c.p ++ c.u "48") "error" (run [Op.ensure "48"] resolving)).promises 0
      = Settled.rejected
          { message := "Loading chunk 48 failed.\n(error: https://docs.example/assets/js/a94703ab.28528155.js)"
            name := "ChunkLoadError"
            type := "error"
            request := "https://docs.example/assets/js/a94703ab.28528155.js" } := by
  decide

/-- C5, amended: whatever script elements the document held at the start, when
chunk `k` is being loaded its load is in progress under the path `c.p+c.u(k)`
with some script element; when the completion handler of that load fires with
an event of any kind (`error`, `timeout`, or `load` without the chunk having
registered), `k` goes back to unrequested, its promise is rejected with the
error of name `ChunkLoadError`, of type `missing` for a `load` event and the
kind of the event otherwise, with the property `src` of that script element as
request and the message `Loading chunk k failed.` followed by a line with type
and request; and the next `c.e(k)` calls the script loader again.  The script
element is one that the document held at the start (taken over by `c.l`), or
one that the loader created, and then its `src` is the path `c.p+c.u(k)` as
the document resolves it. -/
theorem failed_load_rejects (doc : List ScriptEl) (resolve : String → String) (ops : List Op)
    (k : ChunkId) (p : Nat) (type : String)
    (h : (run ops (Loader.boot doc resolve)).slot k = Slot.pending p) :
    ∃ f ∈ (run ops (Loader.boot doc resolve)).inflight,
      f.url = c.p ++ c.u k ∧ k ∈ f.waiters ∧
      (f.script ∈ doc ∨ f.script.src = resolve (c.p ++ c.u k)) ∧
      (scriptDone (c.p ++ c.u k) type (run ops (Loader.boot doc resolve))).slot k
        = Slot.undef ∧
      (scriptDone (c.p ++ c.u k) type (run ops (Loader.boot doc resolve))).promises p
        = Settled.rejected
            { message := "Loading chunk " ++ k ++ " failed.\n("
                ++ (if type = "load" then "missing" else type) ++ ": " ++ f.script.src ++ ")"
              name := "ChunkLoadError"
              type := if type = "load" then "missing" else type
              request := f.script.src } ∧
      (c.e k (scriptDone (c.p ++ c.u k) type (run ops (Loader.boot doc resolve)))).2.requests
        = (scriptDone (c.p ++ c.u k) type (run ops (Loader.boot doc resolve))).requests
            ++ [LoadReq.mk (c.p ++ c.u k) ("chunk-" ++ k) k] := by
  have hi := FetchInv_run ops (Loader.boot doc resolve) (FetchInv_boot doc resolve)
  have hsi := ScriptInv_run doc ops (Loader.boot doc resolve) (ScriptInv_boot doc resolve)
  have hk := (slot_pending_iff _ k p).1 h
  obtain ⟨f, hf, hfu, hfw⟩ := hi.loading k p hk
  have hsome : ∃ x, (run ops (Loader.boot doc resolve)).inflight.find?
      (fun y => decide (y.url = c.p ++ c.u k)) = some x := by
    cases hx : (run ops (Loader.boot doc resolve)).inflight.find?
        (fun y => decide (y.url = c.p ++ c.u k)) with
    | some x => exact ⟨x, rfl⟩
    | none =>
      have := List.find?_eq_none.1 hx f hf
      simp [hfu] at this
  obtain ⟨x, hx⟩ := hsome
  have hxf := find_unique _ _ x f hi.urls hx hf hfu
  subst hxf
  have hdone : scriptDone (c.p ++ c.u k) type (run ops (Loader.boot doc resolve))
      = f.waiters.foldl (fun s t => loadingEnded t (Event.mk type f.script) s)
          (detach (c.p ++ c.u k) f (run ops (Loader.boot doc resolve))) := by
    unfold scriptDone
    rw [hx]
  have hslot : (scriptDone (c.p ++ c.u k) type (run ops (Loader.boot doc resolve))).slot k
      = Slot.undef := by
    unfold Loader.slot
    rw [hdone, foldl_loadingEnded_installed, if_pos hfw]
    show (demote ((run ops (Loader.boot doc resolve)).installed k)).getD Slot.undef = _
    rw [hk]
    rfl
  refine ⟨f, hf, hfu, hfw, ?_, hslot, ?_, ?_⟩
  · rcases hsi.srcs f hf with h0 | h1
    · exact Or.inl h0
    · right
      rw [h1, run_resolve, hfu]
      rfl
  · rw [hdone, foldl_loadingEnded_rejects (Event.mk type f.script) f.waiters
      (detach (c.p ++ c.u k) f (run ops (Loader.boot doc resolve))) k p
      (fun j hj => hi.distinct j k p hj hk) hk (hi.fresh k p hk).2 hfw]
    simp only [chunkLoadError, failureType]
  · have hi' : FetchInv (scriptDone (c.p ++ c.u k) type (run ops (Loader.boot doc resolve))) :=
      FetchInv_scriptDone _ _ _ hi
    rw [c_e_unrequested _ hi' k hslot]
    exact c_l_requests _ _ _ _

/-- C5 amended, for chunk `48` after one `c.e("48")` and a timeout, in a
document without script elements at the start that is served from
`https://docs.example`. -/
theorem failed_load_rejects_witness :
    (run [Op.ensure "48"] (Loader.boot [] (fun u => "https://docs.example" ++ u))).slot "48"
      = Slot.pending 0 ∧
    ∃ f ∈ (run [Op.ensure "48"] (Loader.boot [] (fun u => "https://docs.example" ++ u))).inflight,
      f.url = c.p ++ c.u "48" ∧ "48" ∈ f.waiters ∧
      (f.script ∈ ([] : List ScriptEl) ∨
        f.script.src = (fun u => "https://docs.example" ++ u) (c.p ++ c.u "48")) ∧
      (scriptDone (c.p ++ c.u "48") "timeout"
        (run [Op.ensure "48"] (Loader.boot [] (fun u => "https://docs.example" ++ u)))).slot "48"
        = Slot.undef ∧
      (scriptDone (c.p ++ c.u "48") "timeout"
        (run [Op.ensure "48"] (Loader.boot [] (fun u => "https://docs.example" ++ u)))).promises 0
        = Settled.rejected
            { message := "Loading chunk " ++ "48" ++ " failed.\n("
                ++ (if "timeout" = "load" then "missing" else "timeout") ++ ": "
                ++ f.script.src ++ ")"
              name := "ChunkLoadError"
              type := if "timeout" = "load" then "missing" else "timeout"
              request := f.script.src } ∧
      (c.e "48" (scriptDone (c.p ++ c.u "48") "timeout"
        (run [Op.ensure "48"] (Loader.boot [] (fun u => "https://docs.example" ++ u))))).2.requests
        = (scriptDone (c.p ++ c.u "48") "timeout"
            (run [Op.ensure "48"] (Loader.boot [] (fun u => "https://docs.example" ++ u)))).requests
            ++ [LoadReq.mk (c.p ++ c.u "48") ("chunk-" ++ "48") "48"] :=
  ⟨by decide,
   failed_load_rejects [] (fun u => "https://docs.example" ++ u) [Op.ensure "48"] "48" 0
     "timeout" (by decide)⟩

/-! ## The path resolver and its inverse -/

theorem literalGet_own (table : List (String × String)) (e v : String)
    (h : table.lookup e = some v) : literalGet table e = some v := by
  unfold literalGet
  rw [h]

theorem literalGet_plain (table : List (String × String)) (e : String)
    (h : inheritedText.lookup e = none) : literalGet table e = table.lookup e := by
  unfold literalGet
  cases ht : table.lookup e with
  | some v => rfl
  | none => exact h

theorem literalGet_inherited (table : List (String × String)) (e v : String)
    (h1 : table.lookup e = none) (h2 : inheritedText.lookup e = some v) :
    literalGet table e = some v := by
  unfold literalGet
  rw [h1]
  exact h2

theorem path_unfold (k : ChunkId) (hk : inheritedText.lookup k = none) :
    c.p ++ c.u k
      = "/" ++ "assets/js/" ++ (nameTable.lookup k).getD k ++ "."
          ++ asText (hashTable.lookup k) ++ ".js" := by
  simp only [c.p, c.u, String.append_assoc, literalGet_plain _ k hk]

theorem path_named (k : ChunkId) (nm h : String) (h1 : nameTable.lookup k = some nm)
    (h2 : hashTable.lookup k = some h) :
    c.p ++ c.u k = "/" ++ "assets/js/" ++ nm ++ "." ++ h ++ ".js" := by
  simp only [c.p, c.u, String.append_assoc, literalGet_own _ k _ h1, literalGet_own _ k _ h2]
  rfl

theorem path_inherited (k v : String) (h : inheritedText.lookup k = some v) :
    c.p ++ c.u k = "/" ++ "assets/js/" ++ v ++ "." ++ v ++ ".js" := by
  have h1 : nameTable.lookup k = none := by
    cases hn : nameTable.lookup k with
    | none => rfl
    | some nm =>
      exfalso
      have hall : ∀ q ∈ nameTable, inheritedText.lookup q.1 = none := by decide
      have hm : (k, nm) ∈ nameTable := by
        have := List.lookup_eq_some_iff.1 hn
        obtain ⟨l1, l2, hl, _⟩ := this
        rw [hl]
        simp
      rw [hall (k, nm) hm] at h
      cases h
  have h2 : hashTable.lookup k = none := by
    cases hn : hashTable.lookup k with
    | none => rfl
    | some nm =>
      exfalso
      have hall : ∀ q ∈ hashTable, inheritedText.lookup q.1 = none := by decide
      have hm : (k, nm) ∈ hashTable := by
        have := List.lookup_eq_some_iff.1 hn
        obtain ⟨l1, l2, hl, _⟩ := this
        rw [hl]
        simp
      rw [hall (k, nm) hm] at h
      cases h
  simp only [c.p, c.u, String.append_assoc, literalGet_inherited _ k v h1 h,
    literalGet_inherited _ k v h2 h]
  rfl

/-- C12, as stated, fails for a chunk id that names a property inherited from
`Object.prototype`: the name table has no entry for `constructor`, yet the
name in the path is not the id `constructor` but the text of the inherited
function, and so is the hash. -/
theorem inherited_key_is_not_its_own_name :
    nameTable.lookup "constructor" = none ∧ hashTable.lookup "constructor" = none ∧
    c.p ++ c.u "constructor"
      = "/assets/js/function Object() \x7b [native code] \x7d.function Object() \x7b [native code] \x7d.js" ∧
    c.p ++ c.u "constructor"
      ≠ "/" ++ "assets/js/" ++ "constructor" ++ "." ++ asText (hashTable.lookup "constructor")
          ++ ".js" := by
  decide

/-- C12, amended: for a chunk id `k` that does not name a property inherited
from `Object.prototype`, the path of chunk `k` is `c.p+c.u(k)` with `c.p`
equal to `/`, that is `/assets/js/` followed by the name, a dot, the hash and
`.js`, where the name is the entry of `k` in the first table of `c.u`, or `k`
itself when there is none, and the hash is the entry of `k` in the second
table (printed as `undefined` when there is none).  Chunk `48` gives
`/assets/js/a94703ab.28528155.js` and chunk `237` gives
`/assets/js/237.9eec6ce0.js`. -/
theorem resolved_path (k : ChunkId) (hk : inheritedText.lookup k = none) :
    c.p = "/" ∧
    c.p ++ c.u k
      = "/" ++ "assets/js/" ++ (nameTable.lookup k).getD k ++ "."
          ++ asText (hashTable.lookup k) ++ ".js" ∧
    (∀ nm h, nameTable.lookup k = some nm → hashTable.lookup k = some h →
      c.p ++ c.u k = "/" ++ "assets/js/" ++ nm ++ "." ++ h ++ ".js") ∧
    (∀ h, nameTable.lookup k = none → hashTable.lookup k = some h →
      c.p ++ c.u k = "/" ++ "assets/js/" ++ k ++ "." ++ h ++ ".js") ∧
    c.p ++ c.u "48" = "/assets/js/a94703ab.28528155.js" ∧
    c.p ++ c.u "237" = "/assets/js/237.9eec6ce0.js" := by
  refine ⟨rfl, path_unfold k hk, fun nm h h1 h2 => path_named k nm h h1 h2, ?_,
    by decide, by decide⟩
  intro h h1 h2
  rw [path_unfold k hk, h1, h2]
  rfl

/-- C12 amended, at chunk `237`, which has a hash and no name. -/
theorem resolved_path_witness :
    inheritedText.lookup "237" = none ∧
    c.p ++ c.u "237"
      = "/" ++ "assets/js/" ++ (nameTable.lookup "237").getD "237" ++ "."
          ++ asText (hashTable.lookup "237") ++ ".js" :=
  ⟨by decide, (resolved_path "237" (by decide)).2.1⟩

/-- C20, as stated, fails at the key `constructor`, which has no entry in the
table of `c.gca`: `c.gca` replaces the key by the inherited function before it
calls `c.u`, and the path it returns is not `c.p+c.u("constructor")`. -/
theorem gca_differs_on_inherited_key :
    gcaTable.lookup "constructor" = none ∧
    c.gca "constructor"
      = "/assets/js/function Object() \x7b [native code] \x7d.undefined.js" ∧
    c.gca "constructor" ≠ c.p ++ c.u "constructor" := by
  decide

/-- C20, amended: the table of `c.gca` holds the pair (name, id) exactly when
the name table of `c.u` holds the pair (id, name).  For every chunk id `k`
with name `nm`, `c.gca(nm)` is `c.p+c.u(k)`, which is `/assets/js/nm.h.js` with
`h` the entry of `k` in the hash table; and for every key `x` that has no entry
in the table of `c.gca` and does not name a property inherited from
`Object.prototype`, `c.gca(x)` is `c.p+c.u(x)`.  For a key that names an
inherited property, `c.gca` hands the text of the inherited value to `c.u`. -/
theorem gca_inverts_names :
    (∀ k nm, (k, nm) ∈ nameTable ↔ (nm, k) ∈ gcaTable) ∧
    (∀ k nm, (k, nm) ∈ nameTable →
      nameTable.lookup k = some nm ∧ gcaTable.lookup nm = some k ∧
      (∃ h, hashTable.lookup k = some h ∧
        c.gca nm = "/" ++ "assets/js/" ++ nm ++ "." ++ h ++ ".js") ∧
      c.gca nm = c.p ++ c.u k) ∧
    (∀ x, gcaTable.lookup x = none → inheritedText.lookup x = none →
      c.gca x = c.p ++ c.u x) ∧
    (∀ x v, gcaTable.lookup x = none → inheritedText.lookup x = some v →
      c.gca x = c.p ++ c.u v) := by
  have hall : ∀ p ∈ nameTable,
      (p.2, p.1) ∈ gcaTable ∧ nameTable.lookup p.1 = some p.2 ∧ gcaTable.lookup p.2 = some p.1 ∧
      (hashTable.lookup p.1).isSome = true := by
    decide
  have hback : ∀ p ∈ gcaTable, (p.2, p.1) ∈ nameTable := by decide
  refine ⟨?_, ?_, ?_, ?_⟩
  · intro k nm
    exact ⟨fun h => (hall (k, nm) h).1, fun h => hback (nm, k) h⟩
  · intro k nm h
    obtain ⟨_, h2, h3, h4⟩ := hall (k, nm) h
    have hg : c.gca nm = c.p ++ c.u k := by
      unfold c.gca
      rw [literalGet_own _ nm k h3]
      rfl
    refine ⟨h2, h3, ?_, hg⟩
    obtain ⟨hh, hhs⟩ := Option.isSome_iff_exists.1 h4
    refine ⟨hh, hhs, ?_⟩
    rw [hg]
    exact path_named k nm hh h2 hhs
  · intro x hx hi
    unfold c.gca
    rw [literalGet_plain _ x hi, hx]
    rfl
  · intro x v hx hi
    unfold c.gca
    rw [literalGet_inherited _ x v hx hi]
    rfl

/-! ## Loaded chunks stay loaded -/

theorem slot_ready_iff (st : Loader) (k : ChunkId) :
    st.slot k = Slot.ready ↔ st.installed k = some Slot.ready := by
  unfold Loader.slot
  cases st.installed k with
  | none => simp
  | some s => simp

theorem c_l_installed (url : String) (k : ChunkId) (key : String) (st : Loader) :
    (c.l url k key st).installed = st.installed := by
  unfold c.l
  simp only
  split
  · rfl
  · split <;> rfl

theorem c_f_j_keeps_ready (j : ChunkId) (r : List Nat) (st : Loader) (k : ChunkId)
    (h : st.installed k = some Slot.ready) : (c.f.j j r st).2.installed k = some Slot.ready := by
  unfold c.f.j
  split
  · exact h
  · exact h
  · rename_i hs
    have hjk : k ≠ j := by
      rintro rfl
      have := (slot_ready_iff st k).2 h
      rw [this] at hs
      cases hs
    split
    · show Function.update st.installed j _ k = _
      rw [Function.update_noteq hjk]
      exact h
    · show (c.l _ _ _ _).installed k = _
      rw [c_l_installed]
      show assign st.installed j _ k = _
      rw [assign_ne _ _ _ _ hjk]
      exact h

theorem scriptDone_keeps_ready (url type : String) (st : Loader) (k : ChunkId)
    (h : st.installed k = some Slot.ready) :
    (scriptDone url type st).installed k = some Slot.ready := by
  unfold scriptDone
  split
  · exact h
  · rename_i x _
    rw [foldl_loadingEnded_installed]
    have h' : (detach url x st).installed k = some Slot.ready := h
    rw [h']
    split <;> rfl

theorem foldl_markReady_keeps_ready (ids : List ChunkId) (st : Loader) (k : ChunkId)
    (h : st.installed k = some Slot.ready) :
    (ids.foldl markReady st).installed k = some Slot.ready := by
  rw [foldl_markReady_installed]
  split
  · rfl
  · exact h

theorem pushCallback_keeps_ready (parent : Bool) (d : ChunkDef) (st : Loader) (k : ChunkId)
    (h : st.installed k = some Slot.ready) :
    (pushCallback parent d st).1.installed k = some Slot.ready := by
  unfold pushCallback
  simp only
  have h1 : (if d.chunkIds.any (fun t => !decide (st.slot t = Slot.ready)) = true
      then mergeModules d.moreModules st else st).installed k = some Slot.ready := by
    split
    · rw [mergeModules_installed]; exact h
    · exact h
  split
  · exact h1
  · show (List.foldl markReady _ d.chunkIds).installed k = _
    apply foldl_markReady_keeps_ready
    split
    · exact h1
    · exact h1

theorem step_keeps_ready (st : Loader) (op : Op) (k : ChunkId)
    (h : st.installed k = some Slot.ready) : (step st op).installed k = some Slot.ready := by
  cases op with
  | require fuel m =>
    have := c_view (fun s => s.installed) ⟨fun _ _ => rfl, fun _ _ => rfl, fun _ _ => rfl,
      fun _ _ => rfl⟩ fuel m st
    show (c fuel m st).1.installed k = _
    rw [this]
    exact h
  | register r a o => exact h
  | flush t => exact h
  | addPredicate p => exact h
  | ensure j => exact c_f_j_keeps_ready j [] st k h
  | scriptEvent url type => exact scriptDone_keeps_ready url type st k h
  | push d => exact pushCallback_keeps_ready true d st k h
  | drain d => exact pushCallback_keeps_ready false d st k h

theorem run_keeps_ready (ops : List Op) (st : Loader) (k : ChunkId)
    (h : st.installed k = some Slot.ready) : (run ops st).installed k = some Slot.ready := by
  induction ops generalizing st with
  | nil => exact h
  | cons op ops ih => exact ih _ (step_keeps_ready st op k h)

theorem loadingEnded_ready (k : ChunkId) (ev : Event) (st : Loader)
    (h : st.installed k = some Slot.ready) : loadingEnded k ev st = st := by
  unfold loadingEnded
  rw [h]

theorem loadingEnded_pending (k : ChunkId) (ev : Event) (st : Loader) (p : Nat)
    (h : st.installed k = some (Slot.pending p)) :
    (loadingEnded k ev st).installed k = some Slot.undef := by
  rw [loadingEnded_installed, h]
  exact Function.update_same _ _ _

theorem scriptDone_resets (st : Loader) (hi : FetchInv st) (k : ChunkId) (p : Nat)
    (type : String) (hk : st.installed k = some (Slot.pending p)) :
    (scriptDone (c.p ++ c.u k) type st).installed k = some Slot.undef := by
  obtain ⟨f, hf, hfu, hfw⟩ := hi.loading k p hk
  cases hx : st.inflight.find? (fun y => decide (y.url = c.p ++ c.u k)) with
  | none =>
    have := List.find?_eq_none.1 hx f hf
    simp [hfu] at this
  | some x =>
    have hxf := find_unique _ _ x f hi.urls hx hf hfu
    subst hxf
    unfold scriptDone
    rw [hx]
    simp only
    rw [foldl_loadingEnded_installed, if_pos hfw]
    show demote (st.installed k) = _
    rw [hk]
    rfl

/-- C16: once chunk `k` is loaded, every call on the loader (an `ensure`, a
completion event of a load, a further registration, and all the others)
leaves it loaded, after one call and after any sequence of calls; the load
callback of a loaded chunk changes nothing at all, so it rejects nothing; and
when the load callback of a chunk being loaded runs, or the completion handler
of its load fires, the chunk is unrequested afterwards: a chunk is never left
in a failed state, and the table has no such state. -/
theorem ready_is_final (k : ChunkId) :
    (∀ (st : Loader) (op : Op), st.slot k = Slot.ready → (step st op).slot k = Slot.ready) ∧
    (∀ (st : Loader) (ops : List Op), st.slot k = Slot.ready → (run ops st).slot k = Slot.ready) ∧
    (∀ (st : Loader) (ev : Event), st.slot k = Slot.ready → loadingEnded k ev st = st) ∧
    (∀ (st : Loader) (ev : Event) (p : Nat), st.slot k = Slot.pending p → (loadingEnded k ev st).slot k = Slot.undef) ∧
    (∀ ops type p, (run ops Loader.init).slot k = Slot.pending p →
      (scriptDone (c.p ++ c.u k) type (run ops Loader.init)).slot k = Slot.undef) ∧
    (∀ st : Loader,
      st.slot k = Slot.undef ∨ st.slot k = Slot.ready ∨ ∃ p, st.slot k = Slot.pending p) := by
  refine ⟨?_, ?_, ?_, ?_, ?_, ?_⟩
  · intro st op h
    exact (slot_ready_iff _ k).2 (step_keeps_ready st op k ((slot_ready_iff _ k).1 h))
  · intro st ops h
    exact (slot_ready_iff _ k).2 (run_keeps_ready ops st k ((slot_ready_iff _ k).1 h))
  · intro st ev h
    exact loadingEnded_ready k ev st ((slot_ready_iff _ k).1 h)
  · intro st ev p h
    unfold Loader.slot
    rw [loadingEnded_pending k ev st p ((slot_pending_iff _ k p).1 h)]
    rfl
  · intro ops type p h
    unfold Loader.slot
    rw [scriptDone_resets _ (FetchInv_run ops Loader.init FetchInv_init) k p type
      ((slot_pending_iff _ k p).1 h)]
    rfl
  · intro st
    cases h : st.slot k with
    | undef => exact Or.inl rfl
    | ready => exact Or.inr (Or.inl rfl)
    | pending p => exact Or.inr (Or.inr ⟨p, rfl⟩)

/-- C19: in every state that a sequence of calls leads to from the initial
tables, the chunks `354` and `869` are loaded.  So `c.e` on them issues no
load and hands out nothing, they are never being loaded, and the branch of
`c.f.j` that tests the id against `354|869` is never reached with one of
them: an unrequested id is neither of the two. -/
theorem builtin_chunks_stay_ready (ops : List Op) :
    (run ops Loader.init).slot "354" = Slot.ready ∧
    (run ops Loader.init).slot "869" = Slot.ready ∧
    c.e "354" (run ops Loader.init) = ([], run ops Loader.init) ∧
    c.e "869" (run ops Loader.init) = ([], run ops Loader.init) ∧
    (∀ p, (run ops Loader.init).slot "354" ≠ Slot.pending p ∧
      (run ops Loader.init).slot "869" ≠ Slot.pending p) ∧
    (∀ k, (run ops Loader.init).slot k = Slot.undef → ¬ (k = "354" ∨ k = "869")) := by
  have hi := FetchInv_run ops Loader.init FetchInv_init
  have h1 : (run ops Loader.init).slot "354" = Slot.ready := (slot_ready_iff _ _).2 hi.builtin.1
  have h2 : (run ops Loader.init).slot "869" = Slot.ready := (slot_ready_iff _ _).2 hi.builtin.2
  refine ⟨h1, h2, c_e_ready _ _ h1, c_e_ready _ _ h2, ?_, ?_⟩
  · intro p
    rw [h1, h2]
    exact ⟨fun h => Slot.noConfusion h, fun h => Slot.noConfusion h⟩
  · rintro k hk (rfl | rfl)
    · rw [h1] at hk; cases hk
    · rw [h2] at hk; cases hk

/-! ## Entries without required chunks and the priority gate -/

theorem flushLoop_runs_empty (ok : ChunkId → Bool) (q : List Entry) (n : Bound)
    (t : Option Val) (en : Entry) (hen : en ∈ q) (hr : en.req = []) (v : Option Val)
    (h : (flushLoop ok q n t).result = Outcome.returns v) :
    en ∈ (flushLoop ok q n t).invoked := by
  induction q generalizing n t with
  | nil => simp at hen
  | cons y ys ih =>
    unfold flushLoop at h ⊢
    by_cases hf : (scanIds ok y.prio y.req n).2.1 = true
    · simp only [hf, if_true] at h ⊢
      cases hs : y.startup with
      | throws err => simp [hs] at h
      | returns d =>
        simp only [hs] at h ⊢
        rcases List.mem_cons.1 hen with rfl | hen'
        · exact List.mem_cons_self _ _
        · exact List.mem_cons_of_mem _ (ih _ _ hen' h)
    · simp only [hf] at h ⊢
      have hne : en ≠ y := by
        rintro rfl
        rw [hr] at hf
        simp [scanIds] at hf
      rcases List.mem_cons.1 hen with rfl | hen'
      · exact absurd rfl hne
      · exact ih _ _ hen' h

theorem lower_le (n : Bound) (o : Int) : ∃ b, lower n o = some b ∧ b ≤ o := by
  unfold lower
  cases n with
  | none => exact ⟨o, rfl, le_refl _⟩
  | some b =>
    by_cases h : o < b
    · exact ⟨o, by simp [h], le_refl _⟩
    · exact ⟨b, by simp [h], by omega⟩

theorem lower_mono (b o : Int) : ∃ b', lower (some b) o = some b' ∧ b' ≤ b := by
  unfold lower
  by_cases h : o < b
  · exact ⟨o, by simp [h], by omega⟩
  · exact ⟨b, by simp [h], le_refl _⟩

theorem scanIds_bound_mono (ok : ChunkId → Bool) (o : Int) (r : List ChunkId) (b : Int) :
    ∃ b', (scanIds ok o r (some b)).2.2 = some b' ∧ b' ≤ b := by
  induction r generalizing b with
  | nil => exact ⟨b, rfl, le_refl _⟩
  | cons x xs ih =>
    unfold scanIds
    by_cases hx : (gate (some b) o && ok x) = true
    · simp only [hx, if_true]
      exact ih b
    · simp only [hx]
      obtain ⟨c1, h1, h2⟩ := lower_mono b o
      rw [h1]
      obtain ⟨c2, h3, h4⟩ := ih c1
      exact ⟨c2, h3, by omega⟩

theorem scanIds_blocked_bound (ok : ChunkId → Bool) (o : Int) (r : List ChunkId) (n : Bound)
    (hb : ∃ x ∈ r, ok x = false) : ∃ b', (scanIds ok o r n).2.2 = some b' ∧ b' ≤ o := by
  induction r generalizing n with
  | nil => obtain ⟨x, hx, _⟩ := hb; simp at hx
  | cons y ys ih =>
    unfold scanIds
    by_cases hy : (gate n o && ok y) = true
    · simp only [hy, if_true]
      apply ih
      obtain ⟨x, hx, hr⟩ := hb
      rcases List.mem_cons.1 hx with rfl | hx
      · simp [hr] at hy
      · exact ⟨x, hx, hr⟩
    · simp only [hy]
      obtain ⟨c1, h1, h2⟩ := lower_le n o
      rw [h1]
      obtain ⟨c2, h3, h4⟩ := scanIds_bound_mono ok o ys c1
      exact ⟨c2, h3, by omega⟩

theorem scanIds_gated (ok : ChunkId → Bool) (o : Int) (r : List ChunkId) (b : Int)
    (hb : b < o) :
    (scanIds ok o r (some b)).1 = r ∧ (scanIds ok o r (some b)).2.2 = some b ∧
    (r ≠ [] → (scanIds ok o r (some b)).2.1 = false) := by
  have hg : gate (some b) o = false := by
    simp only [gate, decide_eq_false_iff_not]
    omega
  have hl : lower (some b) o = some b := by
    have hnot : ¬ o < b := by omega
    simp only [lower, hnot, if_false]
  induction r with
  | nil => exact ⟨rfl, rfl, fun h => absurd rfl h⟩
  | cons x xs ih =>
    unfold scanIds
    simp only [hg, Bool.false_and, Bool.false_eq_true, if_false, hl]
    refine ⟨by rw [ih.1], ih.2.1, ?_⟩
    intro _
    trivial

theorem flushLoop_invoked_mem (ok : ChunkId → Bool) (q : List Entry) (n : Bound)
    (t : Option Val) (en : Entry) (h : en ∈ (flushLoop ok q n t).invoked) : en ∈ q :=
  (flushLoop_invoked ok q n t en h).1

theorem flushLoop_gated (ok : ChunkId → Bool) (q : List Entry) (n : Bound) (t : Option Val)
    (p : Int) (en : Entry) (hq : q.Pairwise (fun u v => u.prio ≤ v.prio)) (hen : en ∈ q)
    (hp : p < en.prio) (hr : en.req ≠ [])
    (hb : (∃ eb ∈ q, eb.prio = p ∧ ∃ x ∈ eb.req, ok x = false) ∨ (∃ b, n = some b ∧ b ≤ p)) :
    en ∉ (flushLoop ok q n t).invoked ∧ en ∈ (flushLoop ok q n t).queue := by
  induction q generalizing n t with
  | nil => simp at hen
  | cons y ys ih =>
    obtain ⟨hy, hys⟩ := List.pairwise_cons.1 hq
    -- the bound after `y`, when it was at most `p` before or `y` is the blocked entry
    by_cases hgate : ∃ b, n = some b ∧ b ≤ p
    · obtain ⟨b, rfl, hbp⟩ := hgate
      obtain ⟨b', hb1, hb2⟩ := scanIds_bound_mono ok y.prio y.req b
      have hnext : ∃ c, (scanIds ok y.prio y.req (some b)).2.2 = some c ∧ c ≤ p :=
        ⟨b', hb1, by omega⟩
      by_cases hey : en = y
      · subst hey
        obtain ⟨g1, g2, g3⟩ := scanIds_gated ok en.prio en.req b (by omega)
        have hflag := g3 hr
        unfold flushLoop
        simp only [hflag, Bool.false_eq_true, if_false, g1]
        refine ⟨?_, List.mem_cons_self _ _⟩
        intro hin
        by_cases hmem : en ∈ ys
        · exact (ih _ t hys hmem (Or.inr ⟨b, g2, hbp⟩)).1 hin
        · exact hmem (flushLoop_invoked_mem ok ys _ t en hin)
      · have hmem : en ∈ ys := by
          rcases List.mem_cons.1 hen with h | h
          · exact absurd h hey
          · exact h
        unfold flushLoop
        by_cases hf : (scanIds ok y.prio y.req (some b)).2.1 = true
        · simp only [hf, if_true]
          cases hs : y.startup with
          | throws err =>
            simp only
            exact ⟨by simpa using hey, hmem⟩
          | returns d =>
            simp only
            obtain ⟨i1, i2⟩ := ih _ (keepDefined t d) hys hmem (Or.inr hnext)
            refine ⟨?_, i2⟩
            intro hin
            rcases List.mem_cons.1 hin with h | h
            · exact hey h
            · exact i1 h
        · simp only [hf]
          obtain ⟨i1, i2⟩ := ih _ t hys hmem (Or.inr hnext)
          exact ⟨i1, List.mem_cons_of_mem _ i2⟩
    · have hblk : ∃ eb ∈ y :: ys, eb.prio = p ∧ ∃ x ∈ eb.req, ok x = false := by
        rcases hb with h | h
        · exact h
        · exact absurd h hgate
      obtain ⟨eb, hebm, hebp, hebx⟩ := hblk
      have hey : en ≠ y := by
        rintro rfl
        rcases List.mem_cons.1 hebm with h | h
        · subst h; omega
        · have := hy eb h
          omega
      have hmem : en ∈ ys := by
        rcases List.mem_cons.1 hen with h | h
        · exact absurd h hey
        · exact h
      have hnext : (∃ eb ∈ ys, eb.prio = p ∧ ∃ x ∈ eb.req, ok x = false) ∨
          (∃ c, (scanIds ok y.prio y.req n).2.2 = some c ∧ c ≤ p) := by
        rcases List.mem_cons.1 hebm with h | h
        · subst h
          obtain ⟨c, h1, h2⟩ := scanIds_blocked_bound ok eb.prio eb.req n hebx
          exact Or.inr ⟨c, h1, by omega⟩
        · exact Or.inl ⟨eb, h, hebp, hebx⟩
      unfold flushLoop
      by_cases hf : (scanIds ok y.prio y.req n).2.1 = true
      · simp only [hf, if_true]
        cases hs : y.startup with
        | throws err =>
          simp only
          exact ⟨by simpa using hey, hmem⟩
        | returns d =>
          simp only
          obtain ⟨i1, i2⟩ := ih _ (keepDefined t d) hys hmem hnext
          refine ⟨?_, i2⟩
          intro hin
          rcases List.mem_cons.1 hin with h | h
          · exact hey h
          · exact i1 h
      · simp only [hf]
        obtain ⟨i1, i2⟩ := ih _ t hys hmem hnext
        exact ⟨i1, List.mem_cons_of_mem _ i2⟩

/-- C11, as stated, fails on the initial tables: after `c.O(undefined, [], a)`
no startup has been called, and the entry is in the deferred array. -/
theorem register_does_not_run_empty_entry :
    (c.O none (some []) (Outcome.returns (some (Val.num 1))) none Loader.init).1.started = [] ∧
    (c.O none (some []) (Outcome.returns (some (Val.num 1))) none Loader.init).1.deferred
      = [Entry.mk 0 [] (Outcome.returns (some (Val.num 1))) 0] := by
  decide

/-- C11, amended: a call `c.O(t, [], a, o)` only stores the entry: the startup
log is as before and the entry is in the deferred array.  A later flush that
runs to its end calls the startup of every entry that requires no chunk,
whatever the chunk states, the predicates and the priorities are. -/
theorem empty_entry_runs_on_next_flush (t : Option Val) (a : Outcome) (o : Option Int)
    (st : Loader) :
    (c.O t (some []) a o st).1.started = st.started ∧
    Entry.mk st.nextUid [] a (o.getD 0) ∈ (c.O t (some []) a o st).1.deferred ∧
    (∀ en ∈ st.deferred, en.req = [] → ∀ v, (c.O t none a o st).2 = Outcome.returns v →
      en ∈ (flushLoop (accepts st) st.deferred none t).invoked ∧
      en.uid ∈ (c.O t none a o st).1.started) := by
  refine ⟨rfl, ?_, ?_⟩
  · show _ ∈ insertEntry _ _
    rw [(insertEntry_perm _ _).mem_iff]
    exact List.mem_cons_self _ _
  · intro en hen hr v hv
    have h := flushLoop_runs_empty (accepts st) st.deferred none t en hen hr v hv
    exact ⟨h, List.mem_append_right _ (List.mem_map_of_mem _ h)⟩

/-- C11 amended, on the initial tables: the entry registered with no required
chunk is started by the flush that follows. -/
theorem empty_entry_runs_on_next_flush_witness :
    (c.O none none (Outcome.returns none) none
      (c.O none (some []) (Outcome.returns (some (Val.num 1))) none Loader.init).1).1.started
      = [0] ∧
    (c.O none (some []) (Outcome.returns (some (Val.num 1))) none Loader.init).1.started
      = Loader.init.started :=
  ⟨by decide,
   (empty_entry_runs_on_next_flush none (Outcome.returns (some (Val.num 1))) none Loader.init).1⟩

/-- C18, as stated, fails at `emptyBehindBlocked`: the entry of priority `0` is
left blocked on chunk `48`, and the entry of priority `1`, which requires no
chunk, has its startup called in the same pass. -/
theorem empty_entry_passes_the_gate :
    emptyBehindBlocked.deferred.Pairwise (fun u v => u.prio ≤ v.prio) ∧
    accepts emptyBehindBlocked "48" = false ∧
    Entry.mk 0 ["48"] (Outcome.returns none) 0
      ∈ (c.O none none (Outcome.returns none) none emptyBehindBlocked).1.deferred ∧
    Entry.mk 1 [] (Outcome.returns (some (Val.num 1))) 1
      ∈ (flushLoop (accepts emptyBehindBlocked) emptyBehindBlocked.deferred none none).invoked := by
  decide

/-- C18, amended: in a flush over a deferred array in ascending priority order,
when an entry of priority `p` has a required id that is not accepted (so the
pass leaves it blocked), every entry of greater priority that requires at
least one chunk is left as it is: no id is taken from its list and its
startup is not called, also when all its chunks are loaded.  An entry of the
same priority is still checked and can run, as at `tiedWithBlocked`. -/
theorem blocked_priority_gates_higher (t : Option Val) (a : Outcome) (o : Option Int)
    (st : Loader) (hq : st.deferred.Pairwise (fun u v => u.prio ≤ v.prio)) :
    (∀ eb ∈ st.deferred, (∃ x ∈ eb.req, accepts st x = false) →
      ∀ en ∈ st.deferred, eb.prio < en.prio → en.req ≠ [] →
        en ∉ (flushLoop (accepts st) st.deferred none t).invoked ∧
        en ∈ (c.O t none a o st).1.deferred) ∧
    (tiedWithBlocked.deferred.Pairwise (fun u v => u.prio ≤ v.prio) ∧
      accepts tiedWithBlocked "48" = false ∧
      Entry.mk 1 ["354"] (Outcome.returns (some (Val.num 1))) 0
        ∈ (flushLoop (accepts tiedWithBlocked) tiedWithBlocked.deferred none none).invoked) := by
  refine ⟨?_, by decide⟩
  intro eb heb hx en hen hp hr
  exact flushLoop_gated (accepts st) st.deferred none t eb.prio en hq hen hp hr
    (Or.inl ⟨eb, heb, rfl, hx⟩)

/-- C18 amended, at `sampleQueue`: the entry of priority `-1` is blocked on
chunk `48`, so the entry of priority `0` that waits for the loaded chunk `354`
is left in the array and is not started. -/
theorem blocked_priority_gates_higher_witness :
    sampleQueue.deferred.Pairwise (fun u v => u.prio ≤ v.prio) ∧
    Entry.mk 1 ["354"] (Outcome.returns (some (Val.num 2))) 0
      ∉ (flushLoop (accepts sampleQueue) sampleQueue.deferred none none).invoked ∧
    Entry.mk 1 ["354"] (Outcome.returns (some (Val.num 2))) 0
      ∈ (c.O none none (Outcome.returns none) none sampleQueue).1.deferred :=
  ⟨by decide,
   (blocked_priority_gates_higher none (Outcome.returns none) none sampleQueue (by decide)).1
     (Entry.mk 0 ["48"] (Outcome.returns (some (Val.num 1))) (-1)) (by decide)
     ⟨"48", by decide, by decide⟩
     (Entry.mk 1 ["354"] (Outcome.returns (some (Val.num 2))) 0) (by decide) (by decide)
     (by decide)⟩

/-! ## Entries that wait for chunks to register -/

theorem gate_lower (n : Bound) (o : Int) (h : gate n o = true) : gate (lower n o) o = true := by
  cases n with
  | none => simp [lower, gate]
  | some b =>
    simp only [gate, decide_eq_true_eq] at h
    by_cases hb : o < b
    · simp [lower, gate, hb]
    · simp [lower, gate, hb, h]

theorem scanIds_ungated (ok : ChunkId → Bool) (o : Int) (r : List ChunkId) (n : Bound)
    (h : gate n o = true) :
    (scanIds ok o r n).1 = r.filter (fun x => !ok x) ∧ (scanIds ok o r n).2.1 = r.all ok := by
  induction r generalizing n with
  | nil => exact ⟨rfl, rfl⟩
  | cons x xs ih =>
    unfold scanIds
    by_cases hx : ok x = true
    · simp only [h, hx, Bool.and_self, if_true]
      obtain ⟨h1, h2⟩ := ih n h
      exact ⟨by rw [h1]; simp [hx], by rw [h2]; simp [hx]⟩
    · have hx' : ok x = false := by simpa using hx
      simp only [h, hx', Bool.and_false, Bool.false_eq_true, if_false]
      obtain ⟨h1, _⟩ := ih (lower n o) (gate_lower n o h)
      exact ⟨by rw [h1]; simp [hx'], by simp [hx']⟩

theorem flushLoop_single_blocked (ok : ChunkId → Bool) (en : Entry) (t : Option Val)
    (h : en.req.all ok = false) :
    flushLoop ok [en] none t
      = { queue := [{ en with req := en.req.filter (fun x => !ok x) }], invoked := [],
          result := Outcome.returns t } := by
  obtain ⟨h1, h2⟩ := scanIds_ungated ok en.prio en.req none rfl
  simp only [flushLoop, h2, h, Bool.false_eq_true, if_false, h1]

theorem flushLoop_single_ready (ok : ChunkId → Bool) (en : Entry) (t : Option Val)
    (h : en.req.all ok = true) :
    flushLoop ok [en] none t
      = { queue := [], invoked := [en],
          result := match en.startup with
            | Outcome.throws err => Outcome.throws err
            | Outcome.returns d => Outcome.returns (keepDefined t d) } := by
  obtain ⟨_, h2⟩ := scanIds_ungated ok en.prio en.req none rfl
  simp only [flushLoop, h2, h, if_true]
  cases en.startup <;> rfl

theorem pushCallback_returns (parent : Bool) (d : ChunkDef) (st : Loader)
    (hret : ∀ err, d.runtime ≠ some (Outcome.throws err)) :
    pushCallback parent d st
      = flush (handedToFlush d st) (d.chunkIds.foldl markReady (beforeMarking parent d st)) := by
  unfold pushCallback
  simp only
  split
  · rename_i err h
    exfalso
    by_cases hf : d.chunkIds.any (fun t => !decide (st.slot t = Slot.ready)) = true
    · rw [if_pos hf] at h
      exact hret err h
    · rw [if_neg hf] at h
      cases h
  · rfl

theorem beforeMarking_queueView (parent : Bool) (d : ChunkDef) (st : Loader) :
    queueView (beforeMarking parent d st) = queueView st := by
  unfold beforeMarking
  simp only
  have h1 : queueView (if d.chunkIds.any (fun t => !decide (st.slot t = Slot.ready)) = true
      then mergeModules d.moreModules st else st) = queueView st := by
    split
    · exact mergeModules_view queueView queueView_chunkFree _ _
    · rfl
  split
  · exact h1
  · exact h1

theorem beforeMarking_fetchView (parent : Bool) (d : ChunkDef) (st : Loader) :
    fetchView (beforeMarking parent d st) = fetchView st := by
  unfold beforeMarking
  simp only
  have h1 : fetchView (if d.chunkIds.any (fun t => !decide (st.slot t = Slot.ready)) = true
      then mergeModules d.moreModules st else st) = fetchView st := by
    split
    · exact mergeModules_fetchView _ _
    · rfl
  split
  · exact h1
  · exact h1

theorem beforeMarking_predicates (parent : Bool) (d : ChunkDef) (st : Loader) :
    (beforeMarking parent d st).predicates = st.predicates := by
  unfold beforeMarking
  simp only
  have h1 : (if d.chunkIds.any (fun t => !decide (st.slot t = Slot.ready)) = true
      then mergeModules d.moreModules st else st).predicates = st.predicates := by
    split
    · unfold mergeModules
      apply foldl_view (fun s => s.predicates)
      intro s kv
      rfl
    · rfl
  split
  · exact h1
  · exact h1

theorem markReady_predicates (st : Loader) (o : ChunkId) :
    (markReady st o).predicates = st.predicates := by
  unfold markReady
  split
  · unfold resolvePromise
    split <;> rfl
  · rfl

/-- The state in which the flush of the registration callback starts. -/
theorem marked_state (parent : Bool) (d : ChunkDef) (st : Loader) :
    (d.chunkIds.foldl markReady (beforeMarking parent d st)).deferred = st.deferred ∧
    (d.chunkIds.foldl markReady (beforeMarking parent d st)).started = st.started ∧
    (d.chunkIds.foldl markReady (beforeMarking parent d st)).predicates = st.predicates ∧
    (∀ k, (d.chunkIds.foldl markReady (beforeMarking parent d st)).installed k
      = if k ∈ d.chunkIds ∧ ¬ (k = "__proto__" ∧ st.installed k = none)
          then some Slot.ready else st.installed k) := by
  have hq : queueView (d.chunkIds.foldl markReady (beforeMarking parent d st)) = queueView st :=
    (foldl_view queueView _ (markReady_view queueView queueView_chunkFree) _ _).trans
      (beforeMarking_queueView parent d st)
  simp only [queueView, Prod.mk.injEq] at hq
  have hf := beforeMarking_fetchView parent d st
  simp only [fetchView, Prod.mk.injEq] at hf
  refine ⟨hq.1, hq.2.2, ?_, ?_⟩
  · rw [foldl_view (fun s => s.predicates) markReady markReady_predicates]
    exact beforeMarking_predicates parent d st
  · intro k
    rw [foldl_markReady_installed, hf.1]

theorem accepts_iff (st : Loader) (x : ChunkId) :
    accepts st x = true ↔ st.installed x = some Slot.ready ∧ ∀ p ∈ st.predicates, p x = true := by
  simp [accepts, c.O.j, slot_ready_iff]

theorem flush_single_blocked (t : Option Val) (st : Loader) (en : Entry)
    (hq : st.deferred = [en]) (h : en.req.all (accepts st) = false) :
    (flush t st).1.deferred = [{ en with req := en.req.filter (fun x => !accepts st x) }] ∧
    (flush t st).1.started = st.started ∧ (flush t st).1.predicates = st.predicates ∧
    (flush t st).1.installed = st.installed ∧ (flush t st).2 = Outcome.returns t := by
  unfold flush
  simp only [hq, flushLoop_single_blocked (accepts st) en t h, List.map_nil, List.append_nil]
  exact ⟨trivial, trivial, trivial, trivial, trivial⟩

theorem flush_single_ready (t : Option Val) (st : Loader) (en : Entry)
    (hq : st.deferred = [en]) (h : en.req.all (accepts st) = true) :
    (flush t st).1.deferred = [] ∧
    (flush t st).1.started = st.started ++ [en.uid] ∧
    (flush t st).1.installed = st.installed ∧
    (flush t st).1.promises = st.promises ∧
    (flush t st).2 = (match en.startup with
      | Outcome.throws err => Outcome.throws err
      | Outcome.returns d => Outcome.returns (keepDefined t d)) := by
  unfold flush
  simp only [hq, flushLoop_single_ready (accepts st) en t h, List.map_cons, List.map_nil]
  exact ⟨trivial, trivial, trivial, trivial, trivial⟩

theorem flushLoop_head_blocked (ok : ChunkId → Bool) (en : Entry) (rest : List Entry)
    (t : Option Val) (h : en.req.all ok = false) :
    (flushLoop ok (en :: rest) none t).queue
      = { en with req := en.req.filter (fun x => !ok x) }
          :: (flushLoop ok rest (scanIds ok en.prio en.req none).2.2 t).queue ∧
    (flushLoop ok (en :: rest) none t).invoked
      = (flushLoop ok rest (scanIds ok en.prio en.req none).2.2 t).invoked := by
  obtain ⟨h1, h2⟩ := scanIds_ungated ok en.prio en.req none rfl
  have hf : (scanIds ok en.prio en.req none).2.1 = false := by rw [h2, h]
  constructor
  · rw [flushLoop]
    simp only [hf, Bool.false_eq_true, if_false, h1]
  · rw [flushLoop]
    simp only [hf, Bool.false_eq_true, if_false]

theorem flushLoop_head_ready (ok : ChunkId → Bool) (en : Entry) (rest : List Entry)
    (t : Option Val) (h : en.req.all ok = true) :
    ∃ tail, (flushLoop ok (en :: rest) none t).invoked = en :: tail := by
  obtain ⟨_, h2⟩ := scanIds_ungated ok en.prio en.req none rfl
  have hf : (scanIds ok en.prio en.req none).2.1 = true := by rw [h2, h]
  rw [flushLoop]
  simp only [hf, if_true]
  cases en.startup with
  | throws err => exact ⟨[], rfl⟩
  | returns d => exact ⟨_, rfl⟩

theorem flushLoop_head_returns (ok : ChunkId → Bool) (en : Entry) (rest : List Entry)
    (t v : Option Val) (h : en.req.all ok = true) (hs : en.startup = Outcome.returns v) :
    (flushLoop ok (en :: rest) none t).queue
      = (flushLoop ok rest (scanIds ok en.prio en.req none).2.2 (keepDefined t v)).queue ∧
    (flushLoop ok (en :: rest) none t).invoked
      = en :: (flushLoop ok rest (scanIds ok en.prio en.req none).2.2 (keepDefined t v)).invoked ∧
    (flushLoop ok (en :: rest) none t).result
      = (flushLoop ok rest (scanIds ok en.prio en.req none).2.2 (keepDefined t v)).result := by
  obtain ⟨_, h2⟩ := scanIds_ungated ok en.prio en.req none rfl
  have hf : (scanIds ok en.prio en.req none).2.1 = true := by rw [h2, h]
  refine ⟨?_, ?_, ?_⟩ <;>
  · rw [flushLoop]
    simp only [hf, if_true, hs]

theorem flushLoop_idle (ok : ChunkId → Bool) (q : List Entry) (n : Bound) (t : Option Val)
    (h : (flushLoop ok q n t).invoked = []) :
    (flushLoop ok q n t).result = Outcome.returns t := by
  induction q generalizing n t with
  | nil => rfl
  | cons y ys ih =>
    rw [flushLoop] at h ⊢
    by_cases hf : (scanIds ok y.prio y.req n).2.1 = true
    · simp only [hf, if_true] at h
      cases hs : y.startup with
      | throws err => simp [hs] at h
      | returns d => simp [hs] at h
    · simp only [hf] at h ⊢
      exact ih _ _ h

theorem flush_head_blocked (t : Option Val) (st : Loader) (en : Entry) (rest : List Entry)
    (hq : st.deferred = en :: rest) (h : en.req.all (accepts st) = false) :
    (flush t st).1.deferred
      = { en with req := en.req.filter (fun x => !accepts st x) }
          :: (flushLoop (accepts st) rest
              (scanIds (accepts st) en.prio en.req none).2.2 t).queue ∧
    (flush t st).1.started
      = st.started ++ (flushLoop (accepts st) rest
          (scanIds (accepts st) en.prio en.req none).2.2 t).invoked.map Entry.uid ∧
    (flush t st).1.predicates = st.predicates := by
  obtain ⟨h1, h2⟩ := flushLoop_head_blocked (accepts st) en rest t h
  refine ⟨?_, ?_, rfl⟩
  · show (flushLoop (accepts st) st.deferred none t).queue = _
    rw [hq, h1]
  · show st.started ++ (flushLoop (accepts st) st.deferred none t).invoked.map Entry.uid = _
    rw [hq, h2]

theorem flush_head_ready (t : Option Val) (st : Loader) (en : Entry) (rest : List Entry)
    (hq : st.deferred = en :: rest) (h : en.req.all (accepts st) = true) :
    ∃ tail, (flush t st).1.started = st.started ++ en.uid :: tail := by
  obtain ⟨tail, h1⟩ := flushLoop_head_ready (accepts st) en rest t h
  refine ⟨tail.map Entry.uid, ?_⟩
  show st.started ++ (flushLoop (accepts st) st.deferred none t).invoked.map Entry.uid = _
  rw [hq, h1]
  rfl

theorem flush_head_returns (t v : Option Val) (st : Loader) (en : Entry) (rest : List Entry)
    (hq : st.deferred = en :: rest) (h : en.req.all (accepts st) = true)
    (hs : en.startup = Outcome.returns v) :
    (flush t st).1.installed = st.installed ∧
    (flush t st).1.promises = st.promises ∧
    ((flush t st).1.started = st.started ++ [en.uid] →
      (flush t st).2 = Outcome.returns (keepDefined t v)) := by
  obtain ⟨_, h2, h3⟩ := flushLoop_head_returns (accepts st) en rest t v h hs
  refine ⟨rfl, rfl, ?_⟩
  intro hst
  have hst' : st.started ++ (flushLoop (accepts st) st.deferred none t).invoked.map Entry.uid
      = st.started ++ [en.uid] := hst
  rw [hq, h2] at hst'
  have hnil : (flushLoop (accepts st) rest (scanIds (accepts st) en.prio en.req none).2.2
      (keepDefined t v)).invoked = [] := by
    have := List.append_cancel_left hst'
    simp only [List.map_cons, List.cons.injEq, true_and] at this
    exact List.map_eq_nil_iff.1 this
  show (flushLoop (accepts st) st.deferred none t).result = _
  rw [hq, h3]
  exact flushLoop_idle _ _ _ _ hnil

/-- C13, as stated, fails in the deferred array of `gatedPair`, where the entry
that requires the chunks `48` and `64` stands behind an entry of lower
priority that waits for chunk `98`: the blocked entry lowers the bound of the
flush, the gate then leaves the ids of the second entry untouched, and after a
definition for chunk `48` and one for chunk `64` went through the registration
callback both chunks are loaded, the entry is still in the array with both ids
required, and no startup was called. -/
theorem entry_behind_blocked_entry_never_runs :
    (run gatedPair Loader.init).deferred
      = [Entry.mk 0 ["98"] (Outcome.returns none) (-1),
         Entry.mk 1 ["48", "64"] (Outcome.returns (some (Val.num 7))) 0] ∧
    (run gatedPair Loader.init).slot "48" = Slot.undef ∧
    (run gatedPair Loader.init).slot "64" = Slot.undef ∧
    (pushCallback true earlier (run gatedPair Loader.init)).1.slot "48" = Slot.ready ∧
    (pushCallback true earlier (run gatedPair Loader.init)).1.deferred
      = [Entry.mk 0 ["98"] (Outcome.returns none) (-1),
         Entry.mk 1 ["48", "64"] (Outcome.returns (some (Val.num 7))) 0] ∧
    (pushCallback true laterFresh
      (pushCallback true earlier (run gatedPair Loader.init)).1).1.slot "64" = Slot.ready ∧
    (pushCallback true laterFresh
      (pushCallback true earlier (run gatedPair Loader.init)).1).1.deferred
      = [Entry.mk 0 ["98"] (Outcome.returns none) (-1),
         Entry.mk 1 ["48", "64"] (Outcome.returns (some (Val.num 7))) 0] ∧
    (pushCallback true laterFresh
      (pushCallback true earlier (run gatedPair Loader.init)).1).1.started = [] := by
  decide

/-- C13, amended: in a state that a sequence of calls leads to, let the first
entry of the deferred array require the two distinct chunks `a` and `b`,
neither of them the key `__proto__`, with `b` not loaded (and `a` in any
state, not loaded included), and let the further predicates (if any) accept
both.  No entry stands before it, so no blocked entry of lower priority gates
it.  After a definition for `a` whose runtime function does not throw went
through the registration callback, with the flush that ends it, the entry is
still the first of the array, with `b` as its one required id, and its startup
was not called.  After such a definition for `b` went through as well, its
startup was called, once, and the entry is no longer in the array.  When the
entry is the only one in the array, the array is empty then and the startup
log has grown by the entry alone. -/
theorem entry_waits_for_both_chunks (ops : List Op) (p1 p2 : Bool) (d1 d2 : ChunkDef)
    (en : Entry) (rest : List Entry) (a b : ChunkId) (hab : a ≠ b)
    (ha : a ≠ "__proto__") (hbp : b ≠ "__proto__")
    (hq : (run ops Loader.init).deferred = en :: rest)
    (hreq : en.req = [a, b] ∨ en.req = [b, a])
    (hb : (run ops Loader.init).slot b ≠ Slot.ready)
    (hp : ∀ p ∈ (run ops Loader.init).predicates, p a = true ∧ p b = true)
    (h1 : d1.chunkIds = [a]) (h2 : d2.chunkIds = [b])
    (hr1 : ∀ err, d1.runtime ≠ some (Outcome.throws err))
    (hr2 : ∀ err, d2.runtime ≠ some (Outcome.throws err)) :
    (∃ q1, (pushCallback p1 d1 (run ops Loader.init)).1.deferred
      = { en with req := [b] } :: q1) ∧
    en.uid ∉ (pushCallback p1 d1 (run ops Loader.init)).1.started ∧
    (pushCallback p2 d2 (pushCallback p1 d1 (run ops Loader.init)).1).1.started.count en.uid
      = 1 ∧
    (∀ e ∈ (pushCallback p2 d2 (pushCallback p1 d1 (run ops Loader.init)).1).1.deferred,
      e.uid ≠ en.uid) ∧
    (rest = [] →
      (pushCallback p1 d1 (run ops Loader.init)).1.deferred = [{ en with req := [b] }] ∧
      (pushCallback p1 d1 (run ops Loader.init)).1.started = (run ops Loader.init).started ∧
      (pushCallback p2 d2 (pushCallback p1 d1 (run ops Loader.init)).1).1.deferred = [] ∧
      (pushCallback p2 d2 (pushCallback p1 d1 (run ops Loader.init)).1).1.started
        = (run ops Loader.init).started ++ [en.uid]) := by
  have hQ := QueueInv_run ops Loader.init QueueInv_init
  generalize run ops Loader.init = S at hQ hq hb hp ⊢
  have hb' : S.installed b ≠ some Slot.ready := fun h => hb ((slot_ready_iff _ _).2 h)
  -- the first registration
  obtain ⟨m1, m2, m3, m4⟩ := marked_state p1 d1 S
  have hacc_a : accepts (d1.chunkIds.foldl markReady (beforeMarking p1 d1 S)) a = true := by
    rw [accepts_iff, m4, m3, h1]
    exact ⟨by simp [ha], fun p hp' => (hp p hp').1⟩
  have hacc_b : accepts (d1.chunkIds.foldl markReady (beforeMarking p1 d1 S)) b = false := by
    have : ¬ accepts (d1.chunkIds.foldl markReady (beforeMarking p1 d1 S)) b = true := by
      have hnb : ¬ (b ∈ [a] ∧ ¬ (b = "__proto__" ∧ S.installed b = none)) :=
        fun h => hab (List.mem_singleton.1 h.1).symm
      rw [accepts_iff, m4, h1, if_neg hnb]
      exact fun h => hb' h.1
    simpa using this
  have hall : en.req.all (accepts (d1.chunkIds.foldl markReady (beforeMarking p1 d1 S)))
      = false := by
    rcases hreq with h | h <;> rw [h] <;> simp [hacc_a, hacc_b]
  have hfil : en.req.filter
      (fun x => !accepts (d1.chunkIds.foldl markReady (beforeMarking p1 d1 S)) x) = [b] := by
    rcases hreq with h | h <;> rw [h] <;> simp [List.filter, hacc_a, hacc_b]
  obtain ⟨f1, f2, f3⟩ := flush_head_blocked (handedToFlush d1 S) _ en rest (m1.trans hq) hall
  rw [hfil] at f1
  have e1 := pushCallback_returns p1 d1 S hr1
  have s1d := f1
  rw [← e1] at s1d
  have s1s := f2
  rw [← e1, m2] at s1s
  have s1p : (pushCallback p1 d1 S).1.predicates = S.predicates := by rw [e1, f3]; exact m3
  have hns : en.uid ∉ S.started :=
    hQ.2.2.2.2 en (by rw [hq]; exact List.mem_cons_self _ _)
  have hnd : en.uid ∉ rest.map Entry.uid := by
    have := hQ.1
    rw [hq, List.map_cons, List.nodup_cons] at this
    exact this.1
  -- the second registration
  obtain ⟨n1, n2, n3, n4⟩ := marked_state p2 d2 (pushCallback p1 d1 S).1
  have hacc2 : accepts (d2.chunkIds.foldl markReady
      (beforeMarking p2 d2 (pushCallback p1 d1 S).1)) b = true := by
    rw [accepts_iff, n4, n3, h2, s1p]
    exact ⟨by simp [hbp], fun p hp' => (hp p hp').2⟩
  have hall2 : ({ en with req := [b] } : Entry).req.all (accepts (d2.chunkIds.foldl markReady
      (beforeMarking p2 d2 (pushCallback p1 d1 S).1))) = true := by
    simp [hacc2]
  have e2 := pushCallback_returns p2 d2 (pushCallback p1 d1 S).1 hr2
  obtain ⟨tail, g2⟩ := flush_head_ready (handedToFlush d2 (pushCallback p1 d1 S).1) _
    { en with req := [b] } _ (n1.trans s1d) hall2
  rw [← e2] at g2
  have hmem2 : en.uid ∈ (pushCallback p2 d2 (pushCallback p1 d1 S).1).1.started := by
    rw [g2]
    exact List.mem_append_right _ (List.mem_cons_self _ _)
  have hQ2 : QueueInv (pushCallback p2 d2 (pushCallback p1 d1 S).1).1 :=
    QueueInv_pushCallback _ _ _ (QueueInv_pushCallback _ _ _ hQ)
  refine ⟨⟨_, s1d⟩, ?_, List.count_eq_one_of_mem hQ2.2.2.1 hmem2, ?_, ?_⟩
  · rw [s1s]
    intro hmem
    rcases List.mem_append.1 hmem with h | h
    · exact hns h
    · obtain ⟨e, he, heu⟩ := List.mem_map.1 h
      have her := (flushLoop_invoked _ _ _ _ e he).1
      exact hnd (heu ▸ List.mem_map_of_mem Entry.uid her)
  · intro e he heq
    exact hQ2.2.2.2.2 e he (heq ▸ hmem2)
  · intro hrest
    subst hrest
    obtain ⟨k1, k2, _⟩ := flush_single_blocked (handedToFlush d1 S) _ en (m1.trans hq) hall
    rw [hfil] at k1
    rw [← e1] at k1 k2
    obtain ⟨g1, g3, _⟩ := flush_single_ready (handedToFlush d2 (pushCallback p1 d1 S).1) _
      { en with req := [b] } (n1.trans k1) hall2
    rw [← e2] at g1 g3
    refine ⟨k1, k2.trans m2, g1, ?_⟩
    rw [g3, n2, k2, m2]

/-- C13 amended, after one call that registers an entry for the chunks `48` and
`64`, with a definition for chunk `48` and then one for chunk `64`. -/
theorem entry_waits_for_both_chunks_witness :
    (run registerPair Loader.init).deferred
      = [Entry.mk 0 ["48", "64"] (Outcome.returns (some (Val.num 7))) 0] ∧
    (run registerPair Loader.init).slot "64" ≠ Slot.ready ∧
    (pushCallback true earlier (run registerPair Loader.init)).1.deferred
      = [Entry.mk 0 ["64"] (Outcome.returns (some (Val.num 7))) 0] ∧
    (pushCallback true earlier (run registerPair Loader.init)).1.started
      = (run registerPair Loader.init).started ∧
    (pushCallback true laterFresh
      (pushCallback true earlier (run registerPair Loader.init)).1).1.deferred = [] ∧
    (pushCallback true laterFresh
      (pushCallback true earlier (run registerPair Loader.init)).1).1.started
      = (run registerPair Loader.init).started ++ [0] :=
  ⟨by decide, by decide,
   (entry_waits_for_both_chunks registerPair true true earlier laterFresh
     (Entry.mk 0 ["48", "64"] (Outcome.returns (some (Val.num 7))) 0) [] "48" "64"
     (by decide) (by decide) (by decide) (by decide) (Or.inl rfl) (by decide)
     (fun _ h => absurd h (List.not_mem_nil _))
     rfl rfl (fun _ h => Option.noConfusion h) (fun _ h => Option.noConfusion h)).2.2.2.2 rfl⟩

theorem markReady_resolves (st : Loader) (k : ChunkId) (p : Nat)
    (hk : st.installed k = some (Slot.pending p)) (hw : st.promises p = Settled.waiting) :
    (markReady st k).promises p = Settled.fulfilled := by
  unfold markReady
  simp only [hk]
  show (resolvePromise p st).promises p = _
  unfold resolvePromise
  simp only [hw]
  exact Function.update_same _ _ _

/-- C14, as stated, fails after the calls of `gatedSingle`, where the entry that
requires chunk `48` stands behind an entry of lower priority that waits for
chunk `98`, and chunk `48` is being loaded: when the definition of chunk `48`
goes through the registration callback the chunk becomes loaded, but the gate
keeps the entry in the array, its startup (which would return `7`) is not
called, and the callback returns `undefined`. -/
theorem waiting_entry_behind_blocked_entry_stays :
    (run gatedSingle Loader.init).slot "48" = Slot.pending 0 ∧
    (run gatedSingle Loader.init).deferred
      = [Entry.mk 0 ["98"] (Outcome.returns none) (-1),
         Entry.mk 1 ["48"] (Outcome.returns (some (Val.num 7))) 0] ∧
    (pushCallback true earlier (run gatedSingle Loader.init)).1.slot "48" = Slot.ready ∧
    (pushCallback true earlier (run gatedSingle Loader.init)).1.deferred
      = [Entry.mk 0 ["98"] (Outcome.returns none) (-1),
         Entry.mk 1 ["48"] (Outcome.returns (some (Val.num 7))) 0] ∧
    (pushCallback true earlier (run gatedSingle Loader.init)).1.started = [] ∧
    (pushCallback true earlier (run gatedSingle Loader.init)).2 = Outcome.returns none := by
  decide

/-- C14, amended: in a state that a sequence of calls leads to, let chunk `k`
be in the course of loading (as after `c.e(k)`), let the first entry of the
deferred array require `k` alone, so that no blocked entry of lower priority
stands before it, let the further predicates (if any) accept `k`, and let the
startup of the entry return `v`.  When a definition `[[k], factories]` goes
through the registration callback, the callback is one flush
`c.O(undefined)` run on the state in which `k` was marked; afterwards `k` is
loaded and its promise fulfilled; the startup of the entry was the first that
the flush called, it was called once, and the entry is out of the array; and
when no other startup was called in that flush the callback returns `v`.  When
the entry is the only one in the array, the array is empty afterwards, the
startup log has grown by the entry alone, and the callback returns `v`. -/
theorem registration_runs_waiting_entry (ops : List Op) (parent : Bool) (d : ChunkDef)
    (en : Entry) (rest : List Entry) (k : ChunkId) (p : Nat) (v : Option Val)
    (hk : (run ops Loader.init).slot k = Slot.pending p)
    (hq : (run ops Loader.init).deferred = en :: rest) (hreq : en.req = [k])
    (hp : ∀ q ∈ (run ops Loader.init).predicates, q k = true)
    (hd : d.chunkIds = [k]) (hrt : d.runtime = none)
    (hs : en.startup = Outcome.returns v) :
    pushCallback parent d (run ops Loader.init)
      = flush none (markReady (beforeMarking parent d (run ops Loader.init)) k) ∧
    (pushCallback parent d (run ops Loader.init)).1.slot k = Slot.ready ∧
    (pushCallback parent d (run ops Loader.init)).1.promises p = Settled.fulfilled ∧
    (∃ tail, (pushCallback parent d (run ops Loader.init)).1.started
      = (run ops Loader.init).started ++ en.uid :: tail) ∧
    (pushCallback parent d (run ops Loader.init)).1.started.count en.uid = 1 ∧
    (∀ e ∈ (pushCallback parent d (run ops Loader.init)).1.deferred, e.uid ≠ en.uid) ∧
    ((pushCallback parent d (run ops Loader.init)).1.started
        = (run ops Loader.init).started ++ [en.uid] →
      (pushCallback parent d (run ops Loader.init)).2 = Outcome.returns v) ∧
    (rest = [] →
      (pushCallback parent d (run ops Loader.init)).1.deferred = [] ∧
      (pushCallback parent d (run ops Loader.init)).1.started
        = (run ops Loader.init).started ++ [en.uid] ∧
      (pushCallback parent d (run ops Loader.init)).2 = Outcome.returns v) := by
  have hi := FetchInv_run ops Loader.init FetchInv_init
  have hQ := QueueInv_run ops Loader.init QueueInv_init
  generalize run ops Loader.init = S at hi hQ hk hq hp ⊢
  have hk' := (slot_pending_iff _ k p).1 hk
  have hret : ∀ err, d.runtime ≠ some (Outcome.throws err) := by
    intro err h
    rw [hrt] at h
    cases h
  have hu : handedToFlush d S = none := by
    unfold handedToFlush
    rw [hrt]
    split <;> simp_all
  have e := pushCallback_returns parent d S hret
  rw [hu, hd] at e
  have e' : pushCallback parent d S = flush none (markReady (beforeMarking parent d S) k) := e
  obtain ⟨m1, m2, m3, m4⟩ := marked_state parent d S
  rw [hd] at m1 m2 m3 m4
  have m1 : (markReady (beforeMarking parent d S) k).deferred = S.deferred := m1
  have m2 : (markReady (beforeMarking parent d S) k).started = S.started := m2
  have m3 : (markReady (beforeMarking parent d S) k).predicates = S.predicates := m3
  have m4 : (markReady (beforeMarking parent d S) k).installed k = some Slot.ready := by
    have := m4 k
    rw [if_pos ⟨List.mem_singleton_self k, fun hc => by rw [hk'] at hc; cases hc.2⟩] at this
    exact this
  have hacc : accepts (markReady (beforeMarking parent d S) k) k = true := by
    rw [accepts_iff, m4, m3]
    exact ⟨rfl, hp⟩
  have hall : en.req.all (accepts (markReady (beforeMarking parent d S) k)) = true := by
    rw [hreq]
    simp [hacc]
  obtain ⟨tail, g2⟩ := flush_head_ready none _ en rest (m1.trans hq) hall
  obtain ⟨g3, g4, g5⟩ := flush_head_returns none v _ en rest (m1.trans hq) hall hs
  rw [← e'] at g2 g3 g4 g5
  rw [m2] at g2 g5
  have hf := beforeMarking_fetchView parent d S
  simp only [fetchView, Prod.mk.injEq] at hf
  have hmem : en.uid ∈ (pushCallback parent d S).1.started := by
    rw [g2]
    exact List.mem_append_right _ (List.mem_cons_self _ _)
  have hQ' : QueueInv (pushCallback parent d S).1 := QueueInv_pushCallback _ _ _ hQ
  have hval : ∀ w : Option Val, keepDefined none w = w := fun w => by cases w <;> rfl
  refine ⟨e', ?_, ?_, ⟨tail, g2⟩, List.count_eq_one_of_mem hQ'.2.2.1 hmem, ?_, ?_, ?_⟩
  · rw [slot_ready_iff, g3]
    exact m4
  · rw [g4]
    apply markReady_resolves
    · rw [hf.1]; exact hk'
    · rw [hf.2.1]; exact (hi.fresh k p hk').2
  · intro e0 he heq
    exact hQ'.2.2.2.2 e0 he (heq ▸ hmem)
  · intro hst
    rw [g5 hst, hval]
  · intro hrest
    subst hrest
    obtain ⟨r1, r2, _, _, _⟩ := flush_single_ready none _ en (m1.trans hq) hall
    rw [← e'] at r1 r2
    rw [m2] at r2
    refine ⟨r1, r2, ?_⟩
    rw [g5 r2, hval]

/-- C14 amended, for chunk `48`: an entry that requires it is registered, the
chunk is asked for, and its definition arrives. -/
theorem registration_runs_waiting_entry_witness :
    (run registerThenEnsure Loader.init).slot "48" = Slot.pending 0 ∧
    (pushCallback true earlier (run registerThenEnsure Loader.init)).1.slot "48" = Slot.ready ∧
    (pushCallback true earlier (run registerThenEnsure Loader.init)).1.promises 0
      = Settled.fulfilled ∧
    (pushCallback true earlier (run registerThenEnsure Loader.init)).1.deferred = [] ∧
    (pushCallback true earlier (run registerThenEnsure Loader.init)).1.started
      = (run registerThenEnsure Loader.init).started ++ [0] ∧
    (pushCallback true earlier (run registerThenEnsure Loader.init)).2
      = Outcome.returns (some (Val.num 7)) :=
  have h := registration_runs_waiting_entry registerThenEnsure true earlier
    (Entry.mk 0 ["48"] (Outcome.returns (some (Val.num 7))) 0) [] "48" 0 (some (Val.num 7))
    (by decide) (by decide) rfl (fun _ h => absurd h (List.not_mem_nil _)) rfl rfl rfl
  ⟨by decide, h.2.1, h.2.2.1, (h.2.2.2.2.2.2.2 rfl).1, (h.2.2.2.2.2.2.2 rfl).2.1,
   (h.2.2.2.2.2.2.2 rfl).2.2⟩

/-! ## Installing the registration callback -/

theorem intake_queueFree : QueueFree (fun s : Loader => s.intake) :=
  ⟨fun _ _ => rfl, fun _ _ => rfl, fun _ _ => rfl⟩

theorem mergeModules_intake (f : List (ModId × Prog)) (st : Loader) :
    (mergeModules f st).intake = st.intake := by
  unfold mergeModules
  apply foldl_view (fun s => s.intake)
  intro s kv
  rfl

theorem markReady_intake (st : Loader) (o : ChunkId) : (markReady st o).intake = st.intake := by
  unfold markReady
  split
  · unfold resolvePromise
    split <;> rfl
  · rfl

theorem pushCallback_false_intake (d : ChunkDef) (st : Loader) :
    (pushCallback false d st).1.intake = st.intake := by
  unfold pushCallback
  simp only
  have h1 : (if d.chunkIds.any (fun t => !decide (st.slot t = Slot.ready)) = true
      then mergeModules d.moreModules st else st).intake = st.intake := by
    split
    · exact mergeModules_intake _ _
    · rfl
  split
  · exact h1
  · rw [flush_view (fun s => s.intake) intake_queueFree,
      foldl_view (fun s => s.intake) markReady markReady_intake]
    exact h1

theorem drainBacklog_intake (l : List ChunkDef) (st : Loader) :
    (drainBacklog l st).1.intake = st.intake := by
  induction l generalizing st with
  | nil => rfl
  | cons d ds ih =>
    unfold drainBacklog
    have h := pushCallback_false_intake d st
    generalize pushCallback false d st = res at h ⊢
    obtain ⟨st1, out⟩ := res
    cases out with
    | throws err => exact h
    | returns v => exact (ih st1).trans h

theorem drainBacklog_returns (l : List ChunkDef) (st : Loader) (v : Option Val)
    (h : (drainBacklog l st).2 = Outcome.returns v) :
    (drainBacklog l st).1 = l.foldl (fun s d => (pushCallback false d s).1) st ∧ v = none ∧
    ∀ pre d post, l = pre ++ d :: post →
      ∃ w, (pushCallback false d (pre.foldl (fun s d => (pushCallback false d s).1) st)).2
        = Outcome.returns w := by
  induction l generalizing st with
  | nil =>
    refine ⟨rfl, ?_, ?_⟩
    · simp only [drainBacklog, Outcome.returns.injEq] at h
      exact h.symm
    · intro pre d post hl
      simp at hl
  | cons d ds ih =>
    unfold drainBacklog at h ⊢
    simp only [List.foldl_cons]
    cases hres : pushCallback false d st with
    | mk st1 out =>
      rw [hres] at h
      cases out with
      | throws err => simp at h
      | returns w =>
        simp only at h ⊢
        obtain ⟨i1, i2, i3⟩ := ih st1 h
        refine ⟨i1, i2, ?_⟩
        intro pre d' post hl
        cases pre with
        | nil =>
          simp only [List.nil_append, List.cons.injEq] at hl
          obtain ⟨rfl, _⟩ := hl
          exact ⟨w, by simp [hres]⟩
        | cons x xs =>
          simp only [List.cons_append, List.cons.injEq] at hl
          obtain ⟨rfl, hl'⟩ := hl
          simp only [List.foldl_cons, hres]
          exact i3 xs d' post hl'

theorem markReady_setIntake (st : Loader) (o : ChunkId) (l : List ChunkDef) :
    markReady { st with intake := l } o = { markReady st o with intake := l } := by
  unfold markReady
  simp only
  split
  · unfold resolvePromise
    simp only
    split <;> rfl
  · rfl

theorem foldl_markReady_setIntake (ids : List ChunkId) (st : Loader) (l : List ChunkDef) :
    ids.foldl markReady { st with intake := l } = { ids.foldl markReady st with intake := l } := by
  induction ids generalizing st with
  | nil => rfl
  | cons o os ih =>
    simp only [List.foldl_cons]
    rw [markReady_setIntake, ih]

theorem flush_setIntake (t : Option Val) (st : Loader) (l : List ChunkDef) :
    flush t { st with intake := l } = ({ (flush t st).1 with intake := l }, (flush t st).2) :=
  rfl

theorem pushCallback_true_eq (d : ChunkDef) (st : Loader)
    (hret : ∀ err, d.runtime ≠ some (Outcome.throws err)) :
    pushCallback true d st
      = ({ (pushCallback false d st).1 with intake := st.intake ++ [d] },
         (pushCallback false d st).2) := by
  rw [pushCallback_returns true d st hret, pushCallback_returns false d st hret]
  have hb : beforeMarking true d st
      = { beforeMarking false d st with intake := st.intake ++ [d] } := by
    unfold beforeMarking
    simp only [if_true, Bool.false_eq_true, if_false]
    have h1 : (if d.chunkIds.any (fun t => !decide (st.slot t = Slot.ready)) = true
        then mergeModules d.moreModules st else st).intake = st.intake := by
      split
      · exact mergeModules_intake _ _
      · rfl
    rw [h1]
  rw [hb, foldl_markReady_setIntake, flush_setIntake]

theorem drainBacklog_throws (l : List ChunkDef) (st : Loader) (err : Val)
    (h : (drainBacklog l st).2 = Outcome.throws err) :
    ∃ pre d post, l = pre ++ d :: post ∧
      (∀ pre1 d1 post1, pre = pre1 ++ d1 :: post1 →
        ∃ w, (pushCallback false d1 (pre1.foldl (fun s d => (pushCallback false d s).1) st)).2
          = Outcome.returns w) ∧
      pushCallback false d (pre.foldl (fun s d => (pushCallback false d s).1) st)
        = ((drainBacklog l st).1, Outcome.throws err) := by
  induction l generalizing st with
  | nil => simp [drainBacklog] at h
  | cons d ds ih =>
    unfold drainBacklog at h ⊢
    cases hres : pushCallback false d st with
    | mk st1 out =>
      rw [hres] at h
      cases out with
      | throws e2 =>
        simp only [Outcome.throws.injEq] at h
        subst h
        refine ⟨[], d, ds, rfl, ?_, ?_⟩
        · intro pre1 d1 post1 hl
          simp at hl
        · simpa using hres
      | returns w =>
        simp only at h ⊢
        obtain ⟨pre, d', post, hl, hpre, hd⟩ := ih st1 h
        refine ⟨d :: pre, d', post, by rw [hl]; rfl, ?_, ?_⟩
        · intro pre1 d1 post1 hl1
          cases pre1 with
          | nil =>
            simp only [List.nil_append, List.cons.injEq] at hl1
            obtain ⟨rfl, _⟩ := hl1
            exact ⟨w, by simp [hres]⟩
          | cons x xs =>
            simp only [List.cons_append, List.cons.injEq] at hl1
            obtain ⟨rfl, hl1'⟩ := hl1
            simp only [List.foldl_cons, hres]
            exact hpre xs d1 post1 hl1'
        · simp only [List.foldl_cons, hres]
          exact hd

theorem pushCallback_throws (parent : Bool) (d : ChunkDef) (st : Loader) (err : Val)
    (hf : d.chunkIds.any (fun t => !decide (st.slot t = Slot.ready)) = true)
    (hr : d.runtime = some (Outcome.throws err)) :
    pushCallback parent d st = (mergeModules d.moreModules st, Outcome.throws err) := by
  unfold pushCallback
  simp only [hf, if_true, hr]

/-- C15, as stated, fails in two ways.  With the definitions `throwingRuntime`
and `laterFresh` in the array at the start, the runtime function of the first
throws, which ends the installation: the second definition is never
processed, and chunk `64` is not loaded afterwards.  And a definition pushed
later whose runtime function throws is not appended to the array. -/
theorem throwing_definition_ends_installation :
    (install (backlogState [throwingRuntime, laterFresh])).2 = Outcome.throws (Val.num 0) ∧
    (install (backlogState [throwingRuntime, laterFresh])).1.slot "64" ≠ Slot.ready ∧
    ((install (backlogState [throwingRuntime, laterFresh])).1.modules "m").isNone = true ∧
    (pushCallback true throwingRuntime Loader.init).2 = Outcome.throws (Val.num 0) ∧
    (pushCallback true throwingRuntime Loader.init).1.intake.length = 0 := by
  decide

/-- C15, amended: when the runtime starts with the definitions `backlog`
already in the array, the installation leaves the array as it is (nothing is
appended a second time).  When no call of the callback throws, the
installation returns and its result is the callback applied to each definition
of the backlog once, in array order.  When a call throws, the installation
ends with that exception: the definitions before the failing one went through
the callback once, in array order, the failing one is the last that was
handed to it, and the definitions after it are not processed.  The callback of
a later `push` does the same as the callback of the backlog and in addition
appends the definition to the array when the runtime function of the
definition does not throw; when the runtime function is called and throws,
the definition is not appended, and the callback ends as it does for a
definition of the backlog. -/
theorem installation_drains_backlog (backlog : List ChunkDef) :
    (install (backlogState backlog)).1.intake = backlog ∧
    (∀ v, (install (backlogState backlog)).2 = Outcome.returns v →
      (install (backlogState backlog)).1
        = backlog.foldl (fun s d => (pushCallback false d s).1) (backlogState backlog) ∧
      ∀ pre d post, backlog = pre ++ d :: post →
        ∃ w, (pushCallback false d
            (pre.foldl (fun s d => (pushCallback false d s).1) (backlogState backlog))).2
          = Outcome.returns w) ∧
    (∀ err, (install (backlogState backlog)).2 = Outcome.throws err →
      ∃ pre d post, backlog = pre ++ d :: post ∧
        (∀ pre1 d1 post1, pre = pre1 ++ d1 :: post1 →
          ∃ w, (pushCallback false d1
              (pre1.foldl (fun s d => (pushCallback false d s).1) (backlogState backlog))).2
            = Outcome.returns w) ∧
        pushCallback false d
            (pre.foldl (fun s d => (pushCallback false d s).1) (backlogState backlog))
          = ((install (backlogState backlog)).1, Outcome.throws err)) ∧
    (∀ d st, (∀ err, d.runtime ≠ some (Outcome.throws err)) →
      pushCallback true d st
        = ({ (pushCallback false d st).1 with intake := st.intake ++ [d] },
           (pushCallback false d st).2)) ∧
    (∀ d st err, (∃ k ∈ d.chunkIds, st.slot k ≠ Slot.ready) →
      d.runtime = some (Outcome.throws err) →
      pushCallback true d st = pushCallback false d st ∧
      (pushCallback true d st).1.intake = st.intake ∧
      (pushCallback true d st).2 = Outcome.throws err) := by
  refine ⟨drainBacklog_intake backlog (backlogState backlog), ?_, ?_,
    fun d st h => pushCallback_true_eq d st h, ?_⟩
  · intro v h
    obtain ⟨h1, _, h3⟩ := drainBacklog_returns backlog (backlogState backlog) v h
    exact ⟨h1, h3⟩
  · intro err h
    exact drainBacklog_throws backlog (backlogState backlog) err h
  · rintro d st err ⟨k, hk1, hk2⟩ hr
    have hf : d.chunkIds.any (fun t => !decide (st.slot t = Slot.ready)) = true := by
      rw [List.any_eq_true]
      exact ⟨k, hk1, by simpa using hk2⟩
    rw [pushCallback_throws true d st err hf hr, pushCallback_throws false d st err hf hr]
    exact ⟨rfl, mergeModules_intake _ _, rfl⟩

/-- C15 amended, with the definitions `earlier` and `laterFresh` in the array
at the start: the installation returns, both chunks are loaded afterwards and
the array still holds the two definitions. -/
theorem installation_drains_backlog_witness :
    (install (backlogState [earlier, laterFresh])).2 = Outcome.returns none ∧
    (install (backlogState [earlier, laterFresh])).1.slot "48" = Slot.ready ∧
    (install (backlogState [earlier, laterFresh])).1.slot "64" = Slot.ready ∧
    (install (backlogState [earlier, laterFresh])).1.intake.length = 2 ∧
    (install (backlogState [earlier, laterFresh])).1
      = [earlier, laterFresh].foldl (fun s d => (pushCallback false d s).1)
          (backlogState [earlier, laterFresh]) :=
  ⟨by decide, by decide, by decide, by decide,
   ((installation_drains_backlog [earlier, laterFresh]).2.1 none (by decide)).1⟩

/-! ## The re-export installer -/

theorem lookup_append_some {σ : Type} (e : List (String × Property σ)) (x : String × Property σ)
    (r : String) (h : (e.lookup r).isSome = true) : (e ++ [x]).lookup r = e.lookup r := by
  induction e with
  | nil => simp at h
  | cons kv rest ih =>
    obtain ⟨key, v⟩ := kv
    by_cases hk : r == key
    · simp [List.lookup, hk]
    · have hk' : (r == key) = false := by simpa using hk
      simp only [List.cons_append, List.lookup, hk'] at h ⊢
      exact ih h

theorem lookup_append_none {σ : Type} (e : List (String × Property σ)) (x : String × Property σ)
    (r : String) (h : e.lookup r = none) :
    (e ++ [x]).lookup r = if r == x.1 then some x.2 else none := by
  induction e with
  | nil =>
    obtain ⟨key, v⟩ := x
    simp only [List.nil_append, List.lookup]
    cases r == key <;> rfl
  | cons kv rest ih =>
    obtain ⟨key, v⟩ := kv
    by_cases hk : r == key
    · simp [List.lookup, hk] at h
    · have hk' : (r == key) = false := by simpa using hk
      simp only [List.cons_append, List.lookup, hk'] at h ⊢
      exact ih h

theorem c_d_keeps {σ : Type} (e : List (String × Property σ))
    (t : List (String × (σ → Option Val))) (r : String) (h : c.o e r = true) :
    (c.d e t).lookup r = e.lookup r := by
  unfold c.d
  induction t generalizing e with
  | nil => rfl
  | cons kv rest ih =>
    simp only [List.foldl_cons]
    by_cases hk : c.o e kv.1 = true
    · rw [if_pos hk]
      exact ih e h
    · rw [if_neg hk]
      have h1 := lookup_append_some e (kv.1, Property.accessor kv.2) r h
      rw [ih _ (by unfold c.o; rw [h1]; exact h), h1]

theorem c_d_defines {σ : Type} (e : List (String × Property σ))
    (t : List (String × (σ → Option Val))) (hk : (t.map Prod.fst).Nodup) (r : String)
    (g : σ → Option Val) (hm : (r, g) ∈ t) (h : c.o e r = false) :
    (c.d e t).lookup r = some (Property.accessor g) := by
  induction t generalizing e with
  | nil => simp at hm
  | cons kv rest ih =>
    simp only [List.map_cons, List.nodup_cons] at hk
    have hnone : e.lookup r = none := by
      unfold c.o at h
      cases hl : e.lookup r with
      | none => rfl
      | some v => rw [hl] at h; simp at h
    rcases List.mem_cons.1 hm with heq | hin
    · subst heq
      have hstep : c.d e ((r, g) :: rest) = c.d (e ++ [(r, Property.accessor g)]) rest := by
        simp only [c.d, List.foldl_cons, h, Bool.false_eq_true, if_false]
      have hl : (e ++ [(r, Property.accessor g)]).lookup r = some (Property.accessor g) := by
        rw [lookup_append_none e _ r hnone]
        simp
      rw [hstep, c_d_keeps _ rest r (by unfold c.o; rw [hl]; rfl), hl]
    · have hne : r ≠ kv.1 := by
        intro hr
        apply hk.1
        rw [← hr]
        exact List.mem_map.2 ⟨(r, g), hin, rfl⟩
      by_cases hc : c.o e kv.1 = true
      · have hstep : c.d e (kv :: rest) = c.d e rest := by
          simp only [c.d, List.foldl_cons, hc, if_true]
        rw [hstep]
        exact ih e hk.2 hin h
      · have hstep : c.d e (kv :: rest) = c.d (e ++ [(kv.1, Property.accessor kv.2)]) rest := by
          simp only [c.d, List.foldl_cons, hc, Bool.false_eq_true, if_false]
        rw [hstep]
        apply ih _ hk.2 hin
        unfold c.o
        rw [lookup_append_none e _ r hnone]
        simp [hne]

/-- C17: for a table whose own keys are distinct, `c.d(e, t)` gives `e`, for
each key `r` of `t` that `e` does not own, an accessor property with the
getter `t[r]`: a read of `r` runs the getter on the state the source is in at
the time of the read, so it follows the source through later writes.  A key
that `e` owns keeps the property it had, with the same reads. -/
theorem reexports_are_read_through (σ : Type) (e : List (String × Property σ))
    (t : List (String × (σ → Option Val))) (hk : (t.map Prod.fst).Nodup) :
    (∀ r g, (r, g) ∈ t → c.o e r = false →
      (c.d e t).lookup r = some (Property.accessor g) ∧
      ∀ s, readProperty (c.d e t) r s = g s) ∧
    (∀ r, c.o e r = true →
      (c.d e t).lookup r = e.lookup r ∧ ∀ s, readProperty (c.d e t) r s = readProperty e r s) := by
  constructor
  · intro r g hm h
    have hl := c_d_defines e t hk r g hm h
    refine ⟨hl, fun s => ?_⟩
    unfold readProperty
    rw [hl]
  · intro r h
    have hl := c_d_keeps e t r h
    refine ⟨hl, fun s => ?_⟩
    unfold readProperty
    rw [hl]

/-- C17 at `sampleTarget` and `sampleTable`: the new property `b` reads the
source anew each time (state `5` gives `6`, state `9` gives `10`), and the
data property `a` of the target still reads `1`. -/
theorem reexports_are_read_through_witness :
    (sampleTable.map Prod.fst).Nodup ∧
    readProperty (c.d sampleTarget sampleTable) "b" 5 = some (Val.num 6) ∧
    readProperty (c.d sampleTarget sampleTable) "b" 9 = some (Val.num 10) ∧
    readProperty (c.d sampleTarget sampleTable) "a" 9 = some (Val.num 1) ∧
    (∀ s, readProperty (c.d sampleTarget sampleTable) "b" s = some (Val.num (s + 1))) :=
  ⟨by decide, by decide, by decide, by decide,
   ((reexports_are_read_through Int sampleTarget sampleTable (by decide)).1 "b"
      (fun s => some (Val.num (s + 1))) (by simp [sampleTable]) (by decide)).2⟩

end Runtime
